import Mathlib

/-! # Wire conversion and order rounding of `hyperliquid/convert.go`

A shallow embedding of the conversion functions of `convert.go` together with the
parts of the Go runtime and of the libraries they call (float64 arithmetic,
`math.Round`, `math.Pow10`, `big.Float.Text`, `strconv.FormatFloat`, `strconv.Itoa`,
`strings.TrimRight`, `strings.Split`, `strings.HasPrefix`, `strings.Replace`,
`hex.DecodeString`, `hexutil.Encode`). `json.Marshal` and `json.Unmarshal` are parameters
of `StructToMap`.

* Go strings are byte strings; every string handled here is ASCII and is modelled as
  a `List Char`.
* A `float64` is modelled exactly: a finite value is a sign, a mantissa and a binary
  exponent, and every arithmetic operation rounds the exact rational result to the
  nearest representable value, ties to even, as IEEE-754 prescribes.
* A Go panic is modelled by the result `none`.
-/

namespace Hyperliquid

/-! ## Binary64 floating point -/

/-- Values of Go's `float64`. `fin neg m e` is the finite value `(-1)^neg * m * 2^e`. -/
inductive F64 where
  | fin (neg : Bool) (m : Nat) (e : Int)
  | inf (neg : Bool)
  | nan
  deriving DecidableEq

/-- Number of binary digits of `n`, computed with `fuel` halving steps. -/
def bitLenAux : Nat → Nat → Nat
  | 0, _ => 0
  | fuel + 1, n => if n = 0 then 0 else bitLenAux fuel (n / 2) + 1

/-- Number of binary digits of `n`, taking 64 digits at a time while `n` has more. -/
def bitLenChunk : Nat → Nat → Nat
  | 0, n => bitLenAux 64 n
  | fuel + 1, n => if n < 2 ^ 64 then bitLenAux 64 n else bitLenChunk fuel (n / 2 ^ 64) + 64

/-- Number of binary digits of `n` (`0` for `n = 0`). -/
def bitLen (n : Nat) : Nat := bitLenChunk n n

/-- The numerator of `2^e`: `2^e` when `e ≥ 0`, else `1`. -/
def scaleNum (e : Int) : Nat := 2 ^ e.toNat

/-- The denominator of `2^e`: `2^(-e)` when `e < 0`, else `1`. -/
def scaleDen (e : Int) : Nat := 2 ^ (-e).toNat

/-- The numerator of `10^s`. -/
def tenNum (s : Int) : Nat := 10 ^ s.toNat

/-- The denominator of `10^s`. -/
def tenDen (s : Int) : Nat := 10 ^ (-s).toNat

/-- Nearest integer to `n / d`, ties to the even integer. -/
def roundHalfEven (n d : Nat) : Nat :=
  if 2 * (n % d) < d then n / d
  else if d < 2 * (n % d) then n / d + 1
  else if (n / d) % 2 = 0 then n / d else n / d + 1

/-- Nearest integer to `n / d`, ties away from zero (upwards, the ratio being non-negative). -/
def roundHalfUp (n d : Nat) : Nat := (2 * n + d) / (2 * d)

/-- The integer `floor (log2 (n / d))` for positive `n` and `d`. -/
def ratLog2 (n d : Nat) : Int :=
  let e0 : Int := (bitLen n : Int) - (bitLen d : Int)
  if d * scaleNum e0 ≤ n * scaleDen e0 then e0 else e0 - 1

namespace F64

/-- Canonical representations: a zero is `fin neg 0 (-1074)`, a subnormal has exponent
`-1074`, a normal value has a 53-bit mantissa and an exponent in `[-1074, 971]`. -/
def Canon : F64 → Prop
  | fin _ m e => -1074 ≤ e ∧ e ≤ 971 ∧ m < 2 ^ 53 ∧ (e = -1074 ∨ 2 ^ 52 ≤ m)
  | _ => True

instance : DecidablePred Canon := fun x => by
  cases x <;> unfold Canon <;> infer_instance

/-- The value is neither an infinity nor a NaN. -/
def isFinite : F64 → Bool
  | fin _ _ _ => true
  | _ => false

/-- The sign bit (`math.Signbit`). -/
def signBit : F64 → Bool
  | fin neg _ _ => neg
  | inf neg => neg
  | nan => false

/-- The exact magnitude of a finite value as a rational number (`0` for the others). -/
def absRat : F64 → ℚ
  | fin _ m e => (m : ℚ) * (2 : ℚ) ^ e
  | _ => 0

/-- The exact value of a finite value as a rational number (`0` for the others). -/
def toRat : F64 → ℚ
  | fin neg m e => if neg then -((m : ℚ) * (2 : ℚ) ^ e) else (m : ℚ) * (2 : ℚ) ^ e
  | _ => 0

/-- Round the non-negative rational `n / d` (with `d > 0`) to the nearest binary64 value,
ties to even, with sign `neg`; values at or beyond `2^1024 - 2^970` overflow to an
infinity and values below half the least subnormal underflow to a zero. -/
def ofRatio (neg : Bool) (n d : Nat) : F64 :=
  if n = 0 then fin neg 0 (-1074)
  else
    let e : Int := max (ratLog2 n d - 52) (-1074)
    let m := roundHalfEven (n * scaleDen e) (d * scaleNum e)
    if m = 2 ^ 53 then
      (if 971 < e + 1 then inf neg else fin neg (2 ^ 52) (e + 1))
    else if 971 < e then inf neg
    else fin neg m e

/-- The float64 nearest to the decimal literal `digits * 10^(-scale)`, as the Go compiler
and `strconv.ParseFloat` convert it. -/
def lit (digits : Nat) (scale : Nat) : F64 := ofRatio false digits (10 ^ scale)

/-- The float64 nearest to the natural number `n`. -/
def ofNat (n : Nat) : F64 := ofRatio false n 1

/-- Negation (flips the sign bit; a NaN stays a NaN). -/
def neg : F64 → F64
  | fin s m e => fin (!s) m e
  | inf s => inf (!s)
  | nan => nan

/-- The float64 product `x * y`. -/
def mul : F64 → F64 → F64
  | fin s1 m1 e1, fin s2 m2 e2 =>
      ofRatio (s1 != s2) (m1 * m2 * scaleNum (e1 + e2)) (scaleDen (e1 + e2))
  | fin s1 m1 _, inf s2 => if m1 = 0 then nan else inf (s1 != s2)
  | inf s1, fin s2 m2 _ => if m2 = 0 then nan else inf (s1 != s2)
  | inf s1, inf s2 => inf (s1 != s2)
  | _, _ => nan

/-- The float64 quotient `x / y`. -/
def div : F64 → F64 → F64
  | fin s1 m1 e1, fin s2 m2 e2 =>
      if m2 = 0 then (if m1 = 0 then nan else inf (s1 != s2))
      else ofRatio (s1 != s2) (m1 * scaleNum e1 * scaleDen e2) (m2 * scaleNum e2 * scaleDen e1)
  | fin s1 _ _, inf s2 => fin (s1 != s2) 0 (-1074)
  | inf s1, fin s2 _ _ => inf (s1 != s2)
  | _, _ => nan

/-- The comparison `x < y` of Go (false as soon as an operand is a NaN). -/
def lt : F64 → F64 → Bool
  | fin s1 m1 e1, fin s2 m2 e2 =>
      let a := m1 * scaleNum e1 * scaleDen e2
      let b := m2 * scaleNum e2 * scaleDen e1
      match s1, s2 with
      | false, false => decide (a < b)
      | false, true => false
      | true, false => decide (0 < a ∨ 0 < b)
      | true, true => decide (b < a)
  | fin _ _ _, inf s2 => !s2
  | inf s1, fin _ _ _ => s1
  | inf s1, inf s2 => s1 && !s2
  | _, _ => false

/-- Go's `math.Round`: the nearest integer, halfway cases away from zero; the sign is kept
(also on a zero result) and infinities and NaN are returned unchanged. -/
def Round : F64 → F64
  | fin s m e => if 0 ≤ e then fin s m e else ofRatio s (roundHalfUp m (scaleDen e)) 1
  | x => x

/-- Go's conversion `int(x)` to the 64-bit `int`: truncation towards zero. For a value
outside the range of `int` the Go specification leaves the result to the implementation;
this is the result on amd64 (the minimum `int`). -/
def toInt : F64 → Int
  | fin s m e =>
      let t : Int := ((m * scaleNum e / scaleDen e : Nat) : Int)
      let v : Int := if s then -t else t
      if -(2 : Int) ^ 63 ≤ v ∧ v < (2 : Int) ^ 63 then v else -(2 : Int) ^ 63
  | _ => -(2 : Int) ^ 63

end F64

/-- Wrap an integer into the range of Go's 64-bit `int` (two's complement). -/
def wrapInt (z : Int) : Int := (z + 2 ^ 63) % 2 ^ 64 - 2 ^ 63

/-! ## Decimal digits and strings -/

/-- The character of a decimal digit. -/
def digitChar : Nat → Char
  | 0 => '0' | 1 => '1' | 2 => '2' | 3 => '3' | 4 => '4'
  | 5 => '5' | 6 => '6' | 7 => '7' | 8 => '8' | _ => '9'

/-- The last `d` decimal digits of `k`, most significant first. -/
def fixedDigits : Nat → Nat → List Char
  | 0, _ => []
  | d + 1, k => fixedDigits d (k / 10) ++ [digitChar (k % 10)]

/-- Number of decimal digits of `n` (`1` for `n = 0`), computed with `fuel` steps. -/
def numDigitsAux : Nat → Nat → Nat
  | 0, _ => 1
  | fuel + 1, n => if n < 10 then 1 else numDigitsAux fuel (n / 10) + 1

/-- Number of decimal digits of `n` (`1` for `n = 0`). -/
def numDigits (n : Nat) : Nat := numDigitsAux n n

/-- The decimal digits of `n` without leading zeros (`"0"` for zero). -/
def natDigits (n : Nat) : List Char := fixedDigits (numDigits n) n

/-- Go's `strconv.Itoa`. -/
def Itoa (v : Int) : List Char :=
  if v < 0 then '-' :: natDigits v.natAbs else natDigits v.toNat

/-- Go's `strings.TrimRight(s, cutset)`: `s` without its trailing characters that occur in
`cutset`. -/
def TrimRight (s : List Char) (cutset : List Char) : List Char :=
  s.rdropWhile (fun c => cutset.contains c)

/-- The sign written in front of a negative number. -/
def signChars (neg : Bool) : List Char := if neg then ['-'] else []

/-- Fixed-point rendering of `k / 10^prec` with exactly `prec` fractional digits (and no
decimal point when `prec = 0`). -/
def fixedPoint (neg : Bool) (k : Nat) (prec : Nat) : List Char :=
  signChars neg ++ natDigits (k / 10 ^ prec) ++
    (if prec = 0 then [] else '.' :: fixedDigits prec k)

/-- Go's `strings.Split(s, sep)` for a one-character separator: the pieces of `s` between
the occurrences of `sep` (a single empty piece for the empty string). -/
def Split : List Char → Char → List (List Char)
  | [], _ => [[]]
  | c :: cs, sep =>
    if c = sep then [] :: Split cs sep
    else match Split cs sep with
      | p :: ps => (c :: p) :: ps
      | [] => [[c]]

/-! ## `math.Pow10` -/

/-- The table `pow10tab` of `math`: the constants `1e0 .. 1e31`. -/
def pow10tab (i : Nat) : F64 := F64.ofRatio false (10 ^ i) 1

/-- The table `pow10postab32` of `math`: the constants `1e0, 1e32, .., 1e288`. -/
def pow10postab32 (i : Nat) : F64 := F64.ofRatio false (10 ^ (32 * i)) 1

/-- The table `pow10negtab32` of `math`: the constants `1e-0, 1e-32, .., 1e-320`. -/
def pow10negtab32 (i : Nat) : F64 := F64.ofRatio false 1 (10 ^ (32 * i))

/-- Go's `math.Pow10`: a float64 product or quotient of two table entries, `+Inf` above
`308` and `0` below `-323`. -/
def Pow10 (n : Int) : F64 :=
  if 0 ≤ n ∧ n ≤ 308 then
    F64.mul (pow10postab32 (n.toNat / 32)) (pow10tab (n.toNat % 32))
  else if -323 ≤ n ∧ n ≤ 0 then
    F64.div (pow10negtab32 ((-n).toNat / 32)) (pow10tab ((-n).toNat % 32))
  else if 0 < n then F64.inf false
  else F64.fin false 0 (-1074)

/-! ## Shortest decimal digits and `%f` formatting -/

/-- Search for the shortest decimal that identifies the positive value `n / d`: for the
decimal exponents `s, s - 1, ..` the two multiples `lo * 10^s` and `(lo + 1) * 10^s` that
enclose the value are tried, and the first exponent at which one of them is accepted by `ok`
wins; when both are accepted the nearer one is taken (the even one on a tie). `exact` is
returned when the fuel runs out. -/
def shortestSearch (ok : Nat → Int → Bool) (n d : Nat) (exact : Nat × Int) :
    Nat → Int → Nat × Int
  | 0, _ => exact
  | fuel + 1, s =>
    let num := n * tenDen s
    let den := d * tenNum s
    let lo := num / den
    let r := num % den
    if ok lo s && ok (lo + 1) s then
      (if 2 * r < den then (lo, s)
       else if den < 2 * r then (lo + 1, s)
       else if lo % 2 = 0 then (lo, s) else (lo + 1, s))
    else if ok lo s then (lo, s)
    else if ok (lo + 1) s then (lo + 1, s)
    else shortestSearch ok n d exact fuel (s - 1)

/-- The exact decimal expansion of `m * 2^e` as a coefficient and a decimal exponent. -/
def exactDecimal (m : Nat) (e : Int) : Nat × Int :=
  if 0 ≤ e then (m * 2 ^ e.toNat, 0) else (m * 5 ^ (-e).toNat, e)

/-- The decimal `c * 10^s` converts to the float64 `fin false m e`. -/
def roundTrips (m : Nat) (e : Int) (c : Nat) (s : Int) : Bool :=
  decide (F64.ofRatio false (c * tenNum s) (tenDen s) = F64.fin false m e)

/-- The decimal `c * 10^s` lies within half a unit in the last place of the 53-bit
mantissa of `m * 2^e` (the bounds included when that mantissa is even): the interval
`math/big` uses for the shortest digits of a `big.Float` of precision 53. -/
def withinHalfUlp (m : Nat) (e : Int) (c : Nat) (s : Int) : Bool :=
  let h : Int := e + (bitLen m : Int) - 54
  let a := c * tenNum s * scaleDen e
  let b := m * scaleNum e * tenDen s
  let diff := (a - b) + (b - a)
  let lhs := diff * scaleDen h
  let rhs := scaleNum h * (tenDen s * scaleDen e)
  if bitLen m < 53 ∨ m % 2 = 0 then decide (lhs ≤ rhs) else decide (lhs < rhs)

/-- The shortest decimal `c * 10^s` accepted by `ok` for the positive value `m * 2^e`. -/
def shortestDecimal (ok : Nat → Int → Bool) (m : Nat) (e : Int) : Nat × Int :=
  let s0 := numDigits (m * scaleNum e / scaleDen e)
  shortestSearch ok (m * scaleNum e) (scaleDen e) (exactDecimal m e)
    (s0 + (-e).toNat + 1) (s0 : Int)

/-- The digit buffer of Go's formatters (`decimalSlice` of `strconv`, `decimal` of
`math/big`): the value is `0.d * 10^dp`, and `d` has no trailing zero. -/
structure DecimalSlice where
  d : List Char
  dp : Int

/-- The digit buffer of the decimal `c * 10^s` (trailing zeros trimmed; empty for zero). -/
def toDecimalSlice (c : Nat) (s : Int) : DecimalSlice :=
  if c = 0 then ⟨[], 0⟩ else ⟨TrimRight (natDigits c) ['0'], (numDigits c : Int) + s⟩

/-- The digit of the buffer at position `j`, `'0'` outside the buffer. -/
def DecimalSlice.at (ds : DecimalSlice) (j : Int) : Char :=
  if 0 ≤ j ∧ j < (ds.d.length : Int) then ds.d.getD j.toNat '0' else '0'

/-- The integer part written by `fmtF`: the first `dp` digits of the buffer, padded with
zeros up to `dp` digits, or a single `0` when `dp ≤ 0`. -/
def fmtInt (ds : DecimalSlice) : List Char :=
  if 0 < ds.dp then ds.d.take ds.dp.toNat ++ List.replicate (ds.dp.toNat - ds.d.length) '0'
  else ['0']

/-- The fractional part written by `fmtF`: the digits at the positions `dp, .., dp + prec - 1`
of the buffer. -/
def fmtFrac (ds : DecimalSlice) (prec : Nat) : List Char :=
  (List.range prec).map (fun (i : Nat) => ds.at (ds.dp + (i : Int)))

/-- The `%f` layout `fmtF` of `strconv` and `math/big`: the sign, the integer digits, then a
point and `prec` fractional digits when `prec > 0`. -/
def fmtF (neg : Bool) (ds : DecimalSlice) (prec : Nat) : List Char :=
  signChars neg ++ fmtInt ds ++ (if 0 < prec then '.' :: fmtFrac ds prec else [])

/-- The shortest `%f` layout of a digit buffer: precision `max (nd - dp) 0`. -/
def fmtShortest (neg : Bool) (ds : DecimalSlice) : List Char :=
  fmtF neg ds ((ds.d.length : Int) - ds.dp).toNat

/-- Go's `strconv.FormatFloat(x, 'f', -1, 64)`: the fewest digits that `ParseFloat`
converts back to `x`, laid out without exponent. -/
def FormatFloat : F64 → List Char
  | F64.nan => "NaN".toList
  | F64.inf neg => if neg then "-Inf".toList else "+Inf".toList
  | F64.fin neg m e =>
    if m = 0 then fmtShortest neg ⟨[], 0⟩
    else
      let cs := shortestDecimal (roundTrips m e) m e
      fmtShortest neg (toDecimalSlice cs.1 cs.2)

/-- Go's `big.NewFloat(x).Text('f', prec)`. `big.NewFloat` panics on a NaN (`none`). For
`prec ≥ 0` the exact binary value is rounded to `prec` fractional digits, ties to even; a
negative `prec` asks for the shortest digits that identify the value among the floats of
53 mantissa bits. An infinity is written `+Inf` or `-Inf`. -/
def NewFloatText : F64 → Int → Option (List Char)
  | F64.nan, _ => none
  | F64.inf neg, _ => some (if neg then "-Inf".toList else "+Inf".toList)
  | F64.fin neg m e, prec =>
    if 0 ≤ prec then
      some (fixedPoint neg
        (roundHalfEven (m * scaleNum e * 10 ^ prec.toNat) (scaleDen e)) prec.toNat)
    else if m = 0 then some (fmtShortest neg ⟨[], 0⟩)
    else
      let cs := shortestDecimal (withinHalfUlp m e) m e
      some (fmtShortest neg (toDecimalSlice cs.1 cs.2))

/-! ## `convert.go`: rounding of sizes and prices -/

/-- The last statement of `RoundOrderSize`: `if str[len(str)-1] == '.'` the final point is
cut off. Indexing an empty string panics (`none`). -/
def dropFinalPoint (str : List Char) : Option (List Char) :=
  match str.getLast? with
  | none => none
  | some c => if c = '.' then some str.dropLast else some str

/-- `RoundOrderSize` of `convert.go`. The result is `none` when the Go function panics:
`big.NewFloat` on a NaN, or the index `str[len(str)-1]` on an empty string. -/
def RoundOrderSize (x : F64) (szDecimals : Int) : Option (List Char) :=
  if szDecimals = 0 then some (FormatFloat x)
  else
    let newX := F64.div (F64.Round (F64.mul x (Pow10 szDecimals))) (Pow10 szDecimals)
    match NewFloatText newX szDecimals with
    | none => none
    | some str => dropFinalPoint (TrimRight str ['0'])

/-- `trimDecimalZeros` of `convert.go`. -/
def trimDecimalZeros (s : List Char) : List Char :=
  match Split s '.' with
  | [p0, p1] =>
    let decimal := TrimRight p1 ['0']
    if decimal = [] then p0 ++ ".0".toList else p0 ++ ".".toList ++ decimal
  | _ => s

/-- The loop of `RoundOrderPrice` over `text[i]`, `i = 2 ..`: `rest` is `text[i:]`,
`start` is `startSignFigures` and `allowed` is `allowedSignFigures`. -/
def scanSignFigures (text : List Char) : List Char → Nat → Bool → Int → List Char
  | [], _, _, _ => trimDecimalZeros text
  | c :: rest, i, start, allowed =>
    if c = '0' ∧ start = false then scanSignFigures text rest (i + 1) start allowed
    else if allowed - 1 = 0 then trimDecimalZeros (text.take (i + 1))
    else scanSignFigures text rest (i + 1) true (allowed - 1)

/-- `RoundOrderPrice` of `convert.go` (`none` when a call of `RoundOrderSize` panics). -/
def RoundOrderPrice (x : F64) (szDecimals : Int) (maxDecimals : Int) : Option (List Char) :=
  let maxSignFigures : Int := 5
  let allowedDecimals := wrapInt (maxDecimals - szDecimals)
  let numberOfDigitsInIntegerPart : Int := ((Itoa (F64.toInt x)).length : Int)
  if maxSignFigures ≤ numberOfDigitsInIntegerPart then RoundOrderSize x 0
  else
    let allowedSignFigures := maxSignFigures - numberOfDigitsInIntegerPart
    if F64.lt x (F64.ofNat 1) then
      match RoundOrderSize x allowedDecimals with
      | none => none
      | some text => some (scanSignFigures text (text.drop 2) 2 false allowedSignFigures)
    else
      (RoundOrderSize x (min allowedSignFigures allowedDecimals)).map trimDecimalZeros

/-! ## Reading a decimal string back (`strconv.ParseFloat`) -/

/-- The character is one of `0 .. 9`. -/
def isDigit (c : Char) : Bool := decide (48 ≤ c.toNat ∧ c.toNat ≤ 57)

/-- The number written by a string of decimal digits. -/
def digitsValue (cs : List Char) : Nat :=
  cs.foldl (fun acc c => 10 * acc + (c.toNat - 48)) 0

/-- The unsigned part of `ParseFloat`: `Inf`, or digits with at most one decimal point and
at least one digit. -/
def parseUnsigned (neg : Bool) (s : List Char) : Option F64 :=
  if s = "Inf".toList then some (F64.inf neg)
  else match Split s '.' with
    | [a] =>
      if a ≠ [] ∧ a.all isDigit then some (F64.ofRatio neg (digitsValue a) 1) else none
    | [a, b] =>
      if (a ≠ [] ∨ b ≠ []) ∧ a.all isDigit ∧ b.all isDigit then
        some (F64.ofRatio neg (digitsValue (a ++ b)) (10 ^ b.length))
      else none
    | _ => none

/-- Go's `strconv.ParseFloat(s, 64)` on the strings `RoundOrderSize` can produce: an optional
sign followed by `Inf` or by a plain decimal number without exponent, converted to the
nearest float64 (ties to even, an infinity on overflow). Every other string is outside this
model and yields `none`. -/
def ParseFloat (s : List Char) : Option F64 :=
  match s with
  | '-' :: rest => parseUnsigned true rest
  | '+' :: rest => parseUnsigned false rest
  | _ => parseUnsigned false s

/-! ## `convert.go`: wire types and request mapping -/

/-- Modelled from the spec: the type `AssetInfo` (declared outside `convert.go`), with the
two fields the conversion reads. Both are Go `int`s. -/
structure AssetInfo where
  SzDecimals : Int
  AssetId : Int
  deriving DecidableEq

/-- Modelled from the spec: the `Limit` variant of an order type (declared outside
`convert.go`). -/
structure LimitOrderType where
  Tif : String
  deriving DecidableEq

/-- Modelled from the spec: the `Trigger` variant of an order type (declared outside
`convert.go`). -/
structure TriggerOrderType where
  TpSl : String
  TriggerPx : F64
  IsMarket : Bool
  deriving DecidableEq

/-- Modelled from the spec: the type `OrderType` (declared outside `convert.go`): two
pointer fields, each of which may be nil. -/
structure OrderType where
  Limit : Option LimitOrderType
  Trigger : Option TriggerOrderType
  deriving DecidableEq

/-- Modelled from the spec: the type `OrderTypeWire` (declared outside `convert.go`). -/
structure OrderTypeWire where
  Limit : Option LimitOrderType
  Trigger : Option TriggerOrderType
  deriving DecidableEq

/-- Modelled from the spec: the type `OrderRequest` (declared outside `convert.go`). An unset
client order id is `none`. -/
structure OrderRequest where
  Coin : String
  IsBuy : Bool
  Sz : F64
  LimitPx : F64
  OrderType : OrderType
  ReduceOnly : Bool
  Cloid : Option String
  deriving DecidableEq

/-- Modelled from the spec: the type `ModifyOrderRequest` (declared outside `convert.go`): the
fields of an `OrderRequest` and the `OrderId`. -/
structure ModifyOrderRequest where
  OrderId : Int
  Coin : String
  IsBuy : Bool
  Sz : F64
  LimitPx : F64
  OrderType : OrderType
  ReduceOnly : Bool
  Cloid : Option String
  deriving DecidableEq

/-- Modelled from the spec: the type `OrderWire` (declared outside `convert.go`); prices and
sizes are decimal strings. -/
structure OrderWire where
  Asset : Int
  IsBuy : Bool
  LimitPx : List Char
  SizePx : List Char
  ReduceOnly : Bool
  OrderType : OrderTypeWire
  Cloid : Option String
  deriving DecidableEq

/-- Modelled from the spec: the type `ModifyOrderWire` (declared outside `convert.go`). -/
structure ModifyOrderWire where
  OrderId : Int
  Order : OrderWire
  deriving DecidableEq

/-- Modelled from the spec: the constant `PERP_MAX_DECIMALS` (declared outside `convert.go`),
the decimal ceiling of perpetual markets. -/
def PERP_MAX_DECIMALS : Int := 6

/-- Modelled from the spec: the constant `SPOT_MAX_DECIMALS` (declared outside `convert.go`),
the decimal ceiling of spot markets. -/
def SPOT_MAX_DECIMALS : Int := 8

/-- The Go map lookup `meta[coin]`: the zero value when the key is absent. -/
def lookupInfo (meta : String → Option AssetInfo) (coin : String) : AssetInfo :=
  (meta coin).getD ⟨0, 0⟩

/-- `OrderTypeToWire` of `convert.go`. -/
def OrderTypeToWire (orderType : OrderType) : OrderTypeWire :=
  match orderType.Limit with
  | some limit => { Limit := some { Tif := limit.Tif }, Trigger := none }
  | none =>
    match orderType.Trigger with
    | some trigger =>
      { Trigger := some { TpSl := trigger.TpSl, TriggerPx := trigger.TriggerPx,
                          IsMarket := trigger.IsMarket },
        Limit := none }
    | none => { Limit := none, Trigger := none }

/-- The asset id chosen by the request mappers: offset by `10000` on spot markets (Go `int`
addition). -/
def wireAssetId (info : AssetInfo) (isSpot : Bool) : Int :=
  if isSpot then wrapInt (info.AssetId + 10000) else info.AssetId

/-- The decimal ceiling chosen by the request mappers. -/
def wireMaxDecimals (isSpot : Bool) : Int :=
  if isSpot then SPOT_MAX_DECIMALS else PERP_MAX_DECIMALS

/-- `OrderRequestToWire` of `convert.go` (`none` when one of the rounding calls panics). -/
def OrderRequestToWire (req : OrderRequest) (meta : String → Option AssetInfo)
    (isSpot : Bool) : Option OrderWire :=
  let info := lookupInfo meta req.Coin
  let assetId := wireAssetId info isSpot
  let maxDecimals := wireMaxDecimals isSpot
  match RoundOrderPrice req.LimitPx info.SzDecimals maxDecimals with
  | none => none
  | some limitPx =>
    match RoundOrderSize req.Sz info.SzDecimals with
    | none => none
    | some sizePx =>
      some { Asset := assetId, IsBuy := req.IsBuy, LimitPx := limitPx, SizePx := sizePx,
             ReduceOnly := req.ReduceOnly, OrderType := OrderTypeToWire req.OrderType,
             Cloid := req.Cloid }

/-- `ModifyOrderRequestToWire` of `convert.go` (`none` when one of the rounding calls
panics); the nested order leaves `Cloid` at its zero value. -/
def ModifyOrderRequestToWire (req : ModifyOrderRequest) (meta : String → Option AssetInfo)
    (isSpot : Bool) : Option ModifyOrderWire :=
  let info := lookupInfo meta req.Coin
  let assetId := wireAssetId info isSpot
  let maxDecimals := wireMaxDecimals isSpot
  match RoundOrderPrice req.LimitPx info.SzDecimals maxDecimals with
  | none => none
  | some limitPx =>
    match RoundOrderSize req.Sz info.SzDecimals with
    | none => none
    | some sizePx =>
      some { OrderId := req.OrderId,
             Order := { Asset := assetId, IsBuy := req.IsBuy, LimitPx := limitPx,
                        SizePx := sizePx, ReduceOnly := req.ReduceOnly,
                        OrderType := OrderTypeToWire req.OrderType, Cloid := none } }

/-! ## Hexadecimal encoding and signatures -/

/-- A Go `byte`. -/
abbrev Byte := Fin 256

/-- A Go array `[32]byte`. -/
abbrev Bytes32 := { b : List Byte // b.length = 32 }

/-- The table `hextable` of `encoding/hex`: the sixteen lowercase hexadecimal digits. -/
def hextable : List Char := "0123456789abcdef".toList

/-- Go's `hex.EncodeToString`: two characters of `hextable` per byte, the high half first. -/
def EncodeToString : List Byte → List Char
  | [] => []
  | v :: rest =>
    hextable.getD (v.val / 16) '0' :: hextable.getD (v.val % 16) '0' :: EncodeToString rest

/-- The function `hexutil.Encode` of go-ethereum: `"0x"` followed by the hexadecimal
encoding. -/
def hexutilEncode (b : List Byte) : List Char := "0x".toList ++ EncodeToString b

/-- The value of a hexadecimal digit, as `encoding/hex` reads it (both letter cases are
accepted); `none` for every other character. -/
def fromHexChar (c : Char) : Option Nat :=
  if '0'.toNat ≤ c.toNat ∧ c.toNat ≤ '9'.toNat then some (c.toNat - '0'.toNat)
  else if 'a'.toNat ≤ c.toNat ∧ c.toNat ≤ 'f'.toNat then some (c.toNat - 'a'.toNat + 10)
  else if 'A'.toNat ≤ c.toNat ∧ c.toNat ≤ 'F'.toNat then some (c.toNat - 'A'.toNat + 10)
  else none

/-- Go's `hex.DecodeString`: the bytes decoded before the first error, and whether an error
is reported (a character that is no hexadecimal digit, or an odd length). -/
def DecodeString : List Char → List Byte × Bool
  | [] => ([], false)
  | [_] => ([], true)
  | p :: q :: rest =>
    match fromHexChar p, fromHexChar q with
    | some a, some b =>
      (Fin.ofNat (a * 16 + b) :: (DecodeString rest).1, (DecodeString rest).2)
    | _, _ => ([], true)

/-- Go's `strings.HasPrefix`. -/
def HasPrefix (s pre : List Char) : Bool := pre.isPrefixOf s

/-- The loop of `strings.Replace` with `fuel` steps: the first `n` non-overlapping occurrences
of the non-empty `old` in `s` are replaced by `new`. -/
def ReplaceAux (old new : List Char) : Nat → List Char → Nat → List Char
  | 0, s, _ => s
  | _, s, 0 => s
  | _ + 1, [], _ => []
  | fuel + 1, c :: cs, n + 1 =>
    if old.isPrefixOf (c :: cs) then new ++ ReplaceAux old new fuel ((c :: cs).drop old.length) n
    else c :: ReplaceAux old new fuel cs (n + 1)

/-- Go's `strings.Replace(s, old, new, n)` for a non-empty `old` and `n ≥ 0`: a copy of `s`
with the first `n` non-overlapping occurrences of `old` replaced by `new`. -/
def Replace (s old new : List Char) (n : Nat) : List Char :=
  ReplaceAux old new (s.length + 1) s n

/-- Modelled from the spec: the type `RsvSignature` (declared outside `convert.go`): `R` and
`S` as strings and the recovery byte `V`. -/
structure RsvSignature where
  R : List Char
  S : List Char
  V : Byte
  deriving DecidableEq

/-- `ToTypedSig` of `convert.go`. -/
def ToTypedSig (r : Bytes32) (s : Bytes32) (v : Byte) : RsvSignature :=
  { R := hexutilEncode r.val, S := hexutilEncode s.val, V := v }

/-- `HexToBytes` of `convert.go`; the error of `hex.DecodeString` is discarded. -/
def HexToBytes (addr : List Char) : List Byte :=
  if HasPrefix addr "0x".toList then
    let fAddr := Replace addr "0x".toList "".toList 1
    (DecodeString fAddr).1
  else
    (DecodeString addr).1

/-- `StructToMap` of `convert.go`. The two library calls are parameters: `Marshal` is
`json.Marshal`, and `Unmarshal a` is the call `json.Unmarshal(a, &res)` on the nil map `res`,
returning the content of `res` after the call and the error of the call. The result is the
pair `(res, err)` of the Go function, `emptyMap` being `map[string]interface{}{}`. -/
def StructToMap {α β μ ε : Type} (Marshal : α → Except ε β) (Unmarshal : β → μ × Option ε)
    (emptyMap : μ) (strct : α) : μ × Option ε :=
  match Marshal strct with
  | Except.error err => (emptyMap, some err)
  | Except.ok a => ((Unmarshal a).1, none)

/-- The lowercase hexadecimal digits. -/
def isLowerHex (c : Char) : Bool := hextable.contains c

/-! ## A fragment of `encoding/json` -/

/-- A fragment of the Go values handed to `StructToMap`: an `int`, a struct whose exported
fields are `int`s (the JSON names of the fields with their values), and a channel. -/
inductive GoValue where
  | int (n : Int)
  | strct (fields : List (String × Int))
  | chan
  deriving DecidableEq

/-- The JSON documents that `json.Marshal` produces on the fragment: a number, or an object
of numbers. The document stands for its text. -/
inductive JsonDoc where
  | number (n : Int)
  | object (fields : List (String × Int))
  deriving DecidableEq

/-- The errors of `encoding/json` on the fragment: `UnsupportedTypeError` of `json.Marshal`
and `UnmarshalTypeError` of `json.Unmarshal`. -/
inductive JsonError where
  | unsupportedType
  | unmarshalType
  deriving DecidableEq

/-- Go's `json.Marshal` on the fragment: a channel cannot be encoded. -/
def jsonMarshal : GoValue → Except JsonError JsonDoc
  | GoValue.int n => Except.ok (JsonDoc.number n)
  | GoValue.strct fields => Except.ok (JsonDoc.object fields)
  | GoValue.chan => Except.error JsonError.unsupportedType

/-- Go's `json.Unmarshal(a, &res)` on the fragment, `res` being a nil
`map[string]interface{}`: an object fills the map; a number is refused with an
`UnmarshalTypeError` and leaves the map nil (`none`). -/
def jsonUnmarshal : JsonDoc → Option (List (String × Int)) × Option JsonError
  | JsonDoc.object fields => (some fields, none)
  | JsonDoc.number _ => (none, some JsonError.unmarshalType)

/-! ## Checks of table entries -/

/-- The float is canonical, positive, and its value is exactly the natural number `v`. -/
def F64.isExactNat (x : F64) (v : Nat) : Bool :=
  match x with
  | F64.fin false m e => decide (F64.Canon (F64.fin false m e)) && decide (m ≠ 0) &&
      decide (m * scaleNum e = v * scaleDen e)
  | _ => false

/-- The float is canonical, finite and positive. -/
def F64.isPosFinite (x : F64) : Bool :=
  match x with
  | F64.fin false m e => decide (F64.Canon (F64.fin false m e)) && decide (m ≠ 0)
  | _ => false

/-- The float is finite, positive and at least `1`. -/
def F64.isAtLeastOne (x : F64) : Bool :=
  match x with
  | F64.fin false m e => decide (scaleDen e ≤ m * scaleNum e)
  | _ => false

/-! ## Sample inputs -/

/-- A metadata map with the single coin `BTC`: `SzDecimals = 5`, `AssetId = 7`. -/
def sampleMeta : String → Option AssetInfo :=
  fun coin => if coin = "BTC" then some ⟨5, 7⟩ else none

/-- A limit order for `0.5` `BTC` at the price `65432.1`. -/
def sampleRequest : OrderRequest :=
  { Coin := "BTC", IsBuy := true, Sz := F64.lit 5 1, LimitPx := F64.lit 654321 1,
    OrderType := { Limit := some { Tif := "Gtc" }, Trigger := none },
    ReduceOnly := false, Cloid := none }

/-- A request for the coin `ETH`, which `sampleMeta` does not contain. -/
def missingCoinRequest : OrderRequest := { sampleRequest with Coin := "ETH" }

/-! ## Definitions written from the specification -/

/-- Written from the specification (sections 4.1 and 4.4): the decimal rendering of
`k / 10^d` with at most `d` fractional digits, the trailing fractional zeros removed and no
decimal point when no fractional digit remains. -/
def specDecimal (neg : Bool) (k : Nat) (d : Nat) : List Char :=
  let frac := TrimRight (fixedDigits d k) ['0']
  signChars neg ++ natDigits (k / 10 ^ d) ++ (if frac = [] then [] else '.' :: frac)

/-- Written from the specification (section 8, round-trip property): the string is not
empty, does not end in a decimal point and, when it contains a decimal point, does not end in
a zero. -/
def WellTrimmed (str : List Char) : Prop :=
  str ≠ [] ∧ str.getLast? ≠ some '.' ∧ ('.' ∈ str → str.getLast? ≠ some '0')

instance : DecidablePred WellTrimmed := fun str => by
  unfold WellTrimmed; infer_instance

/-- The integer nearest to the magnitude of a finite float, ties away from zero. -/
def F64.roundAwayNat : F64 → Nat
  | F64.fin _ m e => roundHalfUp (m * scaleNum e) (scaleDen e)
  | _ => 0

/-- Written from the specification, read in exact arithmetic: the integer nearest to
`|x| * 10^d`, ties away from zero, computed on the exact value of `x` without the rounding of
the float64 product. -/
def F64.roundScaledNat : F64 → Nat → Nat
  | F64.fin _ m e, d => roundHalfUp (m * scaleNum e * 10 ^ d) (scaleDen e)
  | _, _ => 0

/-- The fractional digits of a decimal string: what follows its first point (nothing when
it has no point). -/
def fracDigits (s : List Char) : List Char :=
  (s.dropWhile (fun c => c != '.')).drop 1

/-- Written from the specification (section 4.2, price below 1): the significant fractional
digits of a decimal string, its fractional digits without their leading zeros. -/
def significantDigits (t : List Char) : List Char :=
  (fracDigits t).dropWhile (fun c => c == '0')

/-- Written from the specification (section 4.2, price below 1): the string cut off
immediately after its `k`-th significant fractional digit, and the string itself when it has
fewer than `k` significant fractional digits. -/
def cutAfterSignificant (k : Nat) (t : List Char) : List Char :=
  if k ≤ (significantDigits t).length then
    t.take (t.length - (significantDigits t).length + k)
  else t

/-! ## Theorems -/

/-! ### Binary lengths, scaling and rounding to an integer -/

theorem bitLenAux_spec : ∀ fuel n, n < 2 ^ fuel → n ≠ 0 →
    0 < bitLenAux fuel n ∧ 2 ^ (bitLenAux fuel n - 1) ≤ n ∧ n < 2 ^ (bitLenAux fuel n) := by
  intro fuel
  induction fuel with
  | zero => intro n h h0; simp at h; omega
  | succ f ih =>
    intro n h h0
    simp only [bitLenAux, h0, if_false]
    by_cases h2 : n / 2 = 0
    · have h1 : n = 1 := by omega
      subst h1
      have : bitLenAux f (1 / 2) = 0 := by
        cases f <;> simp [bitLenAux]
      rw [this]; simp
    · obtain ⟨hp, hl, hu⟩ := ih (n / 2) (by rw [pow_succ] at h; omega) h2
      refine ⟨by omega, ?_, ?_⟩
      · have : bitLenAux f (n / 2) + 1 - 1 = (bitLenAux f (n / 2) - 1) + 1 := by omega
        rw [this, pow_succ]; omega
      · rw [pow_succ]; omega

theorem bitLenChunk_spec : ∀ fuel n, n ≤ fuel → n ≠ 0 →
    0 < bitLenChunk fuel n ∧ 2 ^ (bitLenChunk fuel n - 1) ≤ n ∧ n < 2 ^ (bitLenChunk fuel n) := by
  intro fuel
  induction fuel with
  | zero => intro n h h0; omega
  | succ f ih =>
    intro n h h0
    simp only [bitLenChunk]
    split_ifs with h1
    · exact bitLenAux_spec 64 n h1 h0
    · have hpos : 0 < 2 ^ 64 := by norm_num
      have h2 : n / 2 ^ 64 ≠ 0 := by
        have : 1 ≤ n / 2 ^ 64 := (Nat.one_le_div_iff hpos).mpr (by omega)
        omega
      have h3 : n / 2 ^ 64 ≤ f := by
        have : n / 2 ^ 64 < n := Nat.div_lt_self (by omega) (by norm_num)
        omega
      obtain ⟨hp, hl, hu⟩ := ih (n / 2 ^ 64) h3 h2
      refine ⟨by omega, ?_, ?_⟩
      · have : bitLenChunk f (n / 2 ^ 64) + 64 - 1 = (bitLenChunk f (n / 2 ^ 64) - 1) + 64 := by
          omega
        rw [this, pow_add]
        calc 2 ^ (bitLenChunk f (n / 2 ^ 64) - 1) * 2 ^ 64 ≤ n / 2 ^ 64 * 2 ^ 64 :=
              Nat.mul_le_mul_right _ hl
          _ ≤ n := Nat.div_mul_le_self n _
      · rw [pow_add]
        exact (Nat.div_lt_iff_lt_mul hpos).mp hu

theorem bitLen_spec (n : Nat) (h0 : n ≠ 0) :
    0 < bitLen n ∧ 2 ^ (bitLen n - 1) ≤ n ∧ n < 2 ^ bitLen n :=
  bitLenChunk_spec n n le_rfl h0

theorem scale_ratio (e : Int) : ((scaleNum e : ℚ)) / (scaleDen e : ℚ) = (2 : ℚ) ^ e := by
  unfold scaleNum scaleDen
  rcases le_total 0 e with h | h
  · have h1 : (-e).toNat = 0 := by omega
    rw [h1]
    lift e to ℕ using h
    simp
  · have h1 : e.toNat = 0 := by omega
    rw [h1]
    obtain ⟨k, rfl⟩ : ∃ k : ℕ, e = -(k : ℤ) := ⟨(-e).toNat, by omega⟩
    simp

theorem scaleNum_pos (e : Int) : 0 < scaleNum e := by unfold scaleNum; positivity
theorem scaleDen_pos (e : Int) : 0 < scaleDen e := by unfold scaleDen; positivity

theorem ten_ratio (e : Int) : ((tenNum e : ℚ)) / (tenDen e : ℚ) = (10 : ℚ) ^ e := by
  unfold tenNum tenDen
  rcases le_total 0 e with h | h
  · have h1 : (-e).toNat = 0 := by omega
    rw [h1]
    lift e to ℕ using h
    simp
  · have h1 : e.toNat = 0 := by omega
    rw [h1]
    obtain ⟨k, rfl⟩ : ∃ k : ℕ, e = -(k : ℤ) := ⟨(-e).toNat, by omega⟩
    simp

theorem tenNum_pos (e : Int) : 0 < tenNum e := by unfold tenNum; positivity
theorem tenDen_pos (e : Int) : 0 < tenDen e := by unfold tenDen; positivity

theorem roundHalfEven_err (n d : Nat) (hd : 0 < d) :
    |((roundHalfEven n d : ℕ) : ℚ) - (n : ℚ) / d| ≤ 1 / 2 := by
  have hdq : (0 : ℚ) < d := by exact_mod_cast hd
  have hn : (n : ℚ) = (d : ℚ) * ((n / d : ℕ) : ℚ) + ((n % d : ℕ) : ℚ) := by
    exact_mod_cast (Nat.div_add_mod n d).symm
  have hr : n % d < d := Nat.mod_lt _ hd
  have hrq : ((n % d : ℕ) : ℚ) < d := by exact_mod_cast hr
  have hr0 : (0 : ℚ) ≤ ((n % d : ℕ) : ℚ) := by positivity
  have key : (n : ℚ) / d = ((n / d : ℕ) : ℚ) + ((n % d : ℕ) : ℚ) / d := by
    field_simp; linarith
  unfold roundHalfEven
  split_ifs with h1 h2 h3
  · have : (2 : ℚ) * ((n % d : ℕ) : ℚ) < d := by exact_mod_cast h1
    rw [key, abs_le]
    constructor
    · have : ((n % d : ℕ) : ℚ) / d ≤ 1 / 2 := by rw [div_le_iff₀ hdq]; linarith
      linarith
    · have : 0 ≤ ((n % d : ℕ) : ℚ) / d := by positivity
      linarith
  · have : (d : ℚ) < 2 * ((n % d : ℕ) : ℚ) := by exact_mod_cast h2
    rw [key, abs_le]
    push_cast
    constructor
    · have : ((n % d : ℕ) : ℚ) / d ≤ 1 := by rw [div_le_iff₀ hdq]; linarith
      linarith
    · have : 1 / 2 ≤ ((n % d : ℕ) : ℚ) / d := by rw [le_div_iff₀ hdq]; linarith
      linarith
  · have h4 : 2 * (n % d) = d := by omega
    have : (2 : ℚ) * ((n % d : ℕ) : ℚ) = d := by exact_mod_cast h4
    have h5 : ((n % d : ℕ) : ℚ) / d = 1 / 2 := by rw [div_eq_iff hdq.ne']; linarith
    rw [key, h5, abs_le]; constructor <;> linarith
  · have h4 : 2 * (n % d) = d := by omega
    have : (2 : ℚ) * ((n % d : ℕ) : ℚ) = d := by exact_mod_cast h4
    have h5 : ((n % d : ℕ) : ℚ) / d = 1 / 2 := by rw [div_eq_iff hdq.ne']; linarith
    rw [key, h5, abs_le]; push_cast; constructor <;> linarith

theorem two_zpow_pos (e : Int) : (0 : ℚ) < (2 : ℚ) ^ e := by positivity

theorem ratio_zpow (n d : Nat) (e : Int) :
    ((n * scaleDen e : ℕ) : ℚ) / ((d * scaleNum e : ℕ) : ℚ) = ((n : ℚ) / d) / (2 : ℚ) ^ e := by
  rw [← scale_ratio e]
  have h1 : (0 : ℚ) < scaleNum e := by exact_mod_cast scaleNum_pos e
  have h2 : (0 : ℚ) < scaleDen e := by exact_mod_cast scaleDen_pos e
  push_cast
  rcases Nat.eq_zero_or_pos d with hd | hd
  · subst hd; simp
  · have h3 : (0 : ℚ) < d := by exact_mod_cast hd
    field_simp

theorem ratLog2_spec (n d : Nat) (hn : 0 < n) (hd : 0 < d) :
    (2 : ℚ) ^ (ratLog2 n d) ≤ (n : ℚ) / d ∧ (n : ℚ) / d < (2 : ℚ) ^ (ratLog2 n d + 1) := by
  obtain ⟨hbn, hnl, hnu⟩ := bitLen_spec n hn.ne'
  obtain ⟨hbd, hdl, hdu⟩ := bitLen_spec d hd.ne'
  have hnq : (0 : ℚ) < n := by exact_mod_cast hn
  have hdq : (0 : ℚ) < d := by exact_mod_cast hd
  have hnl' : (2 : ℚ) ^ ((bitLen n : ℤ) - 1) ≤ n := by
    have : ((bitLen n : ℤ) - 1) = ((bitLen n - 1 : ℕ) : ℤ) := by omega
    rw [this, zpow_natCast]; exact_mod_cast hnl
  have hnu' : (n : ℚ) < (2 : ℚ) ^ (bitLen n : ℤ) := by
    rw [zpow_natCast]; exact_mod_cast hnu
  have hdl' : (2 : ℚ) ^ ((bitLen d : ℤ) - 1) ≤ d := by
    have : ((bitLen d : ℤ) - 1) = ((bitLen d - 1 : ℕ) : ℤ) := by omega
    rw [this, zpow_natCast]; exact_mod_cast hdl
  have hdu' : (d : ℚ) < (2 : ℚ) ^ (bitLen d : ℤ) := by
    rw [zpow_natCast]; exact_mod_cast hdu
  -- coarse bounds
  have hup : (n : ℚ) / d < (2 : ℚ) ^ ((bitLen n : ℤ) - (bitLen d : ℤ) + 1) := by
    rw [div_lt_iff₀ hdq]
    calc (n : ℚ) < (2 : ℚ) ^ (bitLen n : ℤ) := hnu'
      _ = (2 : ℚ) ^ ((bitLen n : ℤ) - (bitLen d : ℤ) + 1) * (2 : ℚ) ^ ((bitLen d : ℤ) - 1) := by
          rw [← zpow_add₀ (by norm_num : (2 : ℚ) ≠ 0)]; congr 1; ring
      _ ≤ (2 : ℚ) ^ ((bitLen n : ℤ) - (bitLen d : ℤ) + 1) * d :=
          mul_le_mul_of_nonneg_left hdl' (two_zpow_pos _).le
  have hlo : (2 : ℚ) ^ ((bitLen n : ℤ) - (bitLen d : ℤ) - 1) ≤ (n : ℚ) / d := by
    rw [le_div_iff₀ hdq]
    calc (2 : ℚ) ^ ((bitLen n : ℤ) - (bitLen d : ℤ) - 1) * d
        ≤ (2 : ℚ) ^ ((bitLen n : ℤ) - (bitLen d : ℤ) - 1) * (2 : ℚ) ^ (bitLen d : ℤ) :=
          mul_le_mul_of_nonneg_left hdu'.le (two_zpow_pos _).le
      _ = (2 : ℚ) ^ ((bitLen n : ℤ) - 1) := by
          rw [← zpow_add₀ (by norm_num : (2 : ℚ) ≠ 0)]; congr 1; ring
      _ ≤ n := hnl'
  unfold ratLog2
  simp only
  split_ifs with h
  · refine ⟨?_, hup⟩
    have h' : ((d * scaleNum ((bitLen n : ℤ) - (bitLen d : ℤ)) : ℕ) : ℚ) ≤
        ((n * scaleDen ((bitLen n : ℤ) - (bitLen d : ℤ)) : ℕ) : ℚ) := by exact_mod_cast h
    have h1 : (0 : ℚ) < scaleNum ((bitLen n : ℤ) - (bitLen d : ℤ)) := by
      exact_mod_cast scaleNum_pos _
    have h2 : (0 : ℚ) < scaleDen ((bitLen n : ℤ) - (bitLen d : ℤ)) := by
      exact_mod_cast scaleDen_pos _
    rw [← scale_ratio, div_le_div_iff₀ h2 hdq]
    push_cast at h'
    linarith
  · refine ⟨hlo, ?_⟩
    have h' : ((n * scaleDen ((bitLen n : ℤ) - (bitLen d : ℤ)) : ℕ) : ℚ) <
        ((d * scaleNum ((bitLen n : ℤ) - (bitLen d : ℤ)) : ℕ) : ℚ) := by
      exact_mod_cast (not_le.mp h)
    have h1 : (0 : ℚ) < scaleNum ((bitLen n : ℤ) - (bitLen d : ℤ)) := by
      exact_mod_cast scaleNum_pos _
    have h2 : (0 : ℚ) < scaleDen ((bitLen n : ℤ) - (bitLen d : ℤ)) := by
      exact_mod_cast scaleDen_pos _
    have : (bitLen n : ℤ) - (bitLen d : ℤ) - 1 + 1 = (bitLen n : ℤ) - (bitLen d : ℤ) := by ring
    rw [this, ← scale_ratio, div_lt_div_iff₀ hdq h2]
    push_cast at h'
    linarith

theorem ratLog2_unique (n d : Nat) (hn : 0 < n) (hd : 0 < d) (L : Int)
    (h1 : (2 : ℚ) ^ L ≤ (n : ℚ) / d) (h2 : (n : ℚ) / d < (2 : ℚ) ^ (L + 1)) :
    ratLog2 n d = L := by
  obtain ⟨s1, s2⟩ := ratLog2_spec n d hn hd
  have a : (2 : ℚ) ^ L < (2 : ℚ) ^ (ratLog2 n d + 1) := lt_of_le_of_lt h1 s2
  have b : (2 : ℚ) ^ (ratLog2 n d) < (2 : ℚ) ^ (L + 1) := lt_of_le_of_lt s1 h2
  rw [zpow_lt_zpow_iff_right₀ (by norm_num : (1 : ℚ) < 2)] at a b
  omega

theorem roundHalfEven_mul_left (c n d : Nat) (hc : 0 < c) :
    roundHalfEven (c * n) (c * d) = roundHalfEven n d := by
  unfold roundHalfEven
  rw [Nat.mul_div_mul_left n d hc, Nat.mul_mod_mul_left]
  have e1 : 2 * (c * (n % d)) < c * d ↔ 2 * (n % d) < d := by
    rw [show 2 * (c * (n % d)) = c * (2 * (n % d)) by ring]
    exact Nat.mul_lt_mul_left hc
  have e2 : c * d < 2 * (c * (n % d)) ↔ d < 2 * (n % d) := by
    rw [show 2 * (c * (n % d)) = c * (2 * (n % d)) by ring]
    exact Nat.mul_lt_mul_left hc
  simp only [e1, e2]

theorem roundHalfEven_exact (m k : Nat) (hk : 0 < k) : roundHalfEven (m * k) k = m := by
  unfold roundHalfEven
  simp [Nat.mul_mod_left, Nat.mul_div_cancel _ hk, hk]

theorem ratLog2_mul_right (n d c : Nat) (hn : 0 < n) (hd : 0 < d) (hc : 0 < c) :
    ratLog2 (n * c) (d * c) = ratLog2 n d := by
  obtain ⟨s1, s2⟩ := ratLog2_spec n d hn hd
  apply ratLog2_unique _ _ (Nat.mul_pos hn hc) (Nat.mul_pos hd hc)
  · have : ((n * c : ℕ) : ℚ) / ((d * c : ℕ) : ℚ) = (n : ℚ) / d := by
      have hcq : (c : ℚ) ≠ 0 := by exact_mod_cast hc.ne'
      push_cast
      rw [mul_div_mul_right _ _ hcq]
    rw [this]; exact s1
  · have : ((n * c : ℕ) : ℚ) / ((d * c : ℕ) : ℚ) = (n : ℚ) / d := by
      have hcq : (c : ℚ) ≠ 0 := by exact_mod_cast hc.ne'
      push_cast
      rw [mul_div_mul_right _ _ hcq]
    rw [this]; exact s2

namespace F64

theorem ofRatio_mul_right (neg : Bool) (n d c : Nat) (hd : 0 < d) (hc : 0 < c) :
    ofRatio neg (n * c) (d * c) = ofRatio neg n d := by
  rcases Nat.eq_zero_or_pos n with hn | hn
  · subst hn; simp [ofRatio]
  · unfold ofRatio
    have h1 : n * c ≠ 0 := (Nat.mul_pos hn hc).ne'
    rw [if_neg h1, if_neg hn.ne', ratLog2_mul_right n d c hn hd hc]
    have h2 : ∀ e : Int, roundHalfEven (n * c * scaleDen e) (d * c * scaleNum e) =
        roundHalfEven (n * scaleDen e) (d * scaleNum e) := by
      intro e
      rw [show n * c * scaleDen e = c * (n * scaleDen e) by ring,
        show d * c * scaleNum e = c * (d * scaleNum e) by ring]
      exact roundHalfEven_mul_left c _ _ hc
    simp only [h2]

theorem ofRatio_congr (neg : Bool) (n d n' d' : Nat) (hd : 0 < d) (hd' : 0 < d')
    (h : n * d' = n' * d) : ofRatio neg n d = ofRatio neg n' d' := by
  rw [← ofRatio_mul_right neg n d d' hd hd', ← ofRatio_mul_right neg n' d' d hd' hd, h,
    Nat.mul_comm d d']

/-- Characterisation of the rounding: an infinity only for values of at least `2^1023`,
otherwise a canonical value within half a unit in the last place. -/
theorem ofRatio_cases (neg : Bool) (n d : Nat) (hn : 0 < n) (hd : 0 < d) :
    (ofRatio neg n d = inf neg ∧ (2 : ℚ) ^ (1023 : ℤ) ≤ (n : ℚ) / d) ∨
    (∃ m e, ofRatio neg n d = fin neg m e ∧ Canon (fin neg m e) ∧
      |(m : ℚ) * (2 : ℚ) ^ e - (n : ℚ) / d| ≤
        (2 : ℚ) ^ (max (ratLog2 n d - 52) (-1074) - 1)) := by
  obtain ⟨s1, s2⟩ := ratLog2_spec n d hn hd
  set L := ratLog2 n d with hL
  set e : Int := max (L - 52) (-1074) with he
  have he1 : L - 52 ≤ e := le_max_left _ _
  have he2 : -1074 ≤ e := le_max_right _ _
  have he3 : e = L - 52 ∨ e = -1074 := by
    rcases max_cases (L - 52) (-1074) with ⟨h, _⟩ | ⟨h, _⟩
    · left; exact h
    · right; exact h
  have hpe : (0 : ℚ) < (2 : ℚ) ^ e := two_zpow_pos e
  have hdN : 0 < d * scaleNum e := Nat.mul_pos hd (scaleNum_pos e)
  have herr := roundHalfEven_err (n * scaleDen e) (d * scaleNum e) hdN
  rw [ratio_zpow] at herr
  set m := roundHalfEven (n * scaleDen e) (d * scaleNum e) with hm
  have habs := abs_le.mp herr
  -- upper bound on the scaled value
  have hq_up : (n : ℚ) / d / (2 : ℚ) ^ e < (2 : ℚ) ^ (53 : ℤ) := by
    rw [div_lt_iff₀ hpe]
    calc (n : ℚ) / d < (2 : ℚ) ^ (L + 1) := s2
      _ ≤ (2 : ℚ) ^ (53 + e) := zpow_le_zpow_right₀ (by norm_num) (by omega)
      _ = (2 : ℚ) ^ (53 : ℤ) * (2 : ℚ) ^ e := by rw [zpow_add₀ (by norm_num : (2 : ℚ) ≠ 0)]
  have hm_le : m ≤ 2 ^ 53 := by
    have : (m : ℚ) < (2 : ℚ) ^ (53 : ℤ) + 1 := by linarith [habs.2]
    have h53 : (2 : ℚ) ^ (53 : ℤ) = ((2 ^ 53 : ℕ) : ℚ) := by norm_num
    rw [h53] at this
    have : m < 2 ^ 53 + 1 := by exact_mod_cast this
    omega
  have hm_ge : e = L - 52 → 2 ^ 52 ≤ m := by
    intro h
    have hq_lo : (2 : ℚ) ^ (52 : ℤ) ≤ (n : ℚ) / d / (2 : ℚ) ^ e := by
      rw [le_div_iff₀ hpe, ← zpow_add₀ (by norm_num : (2 : ℚ) ≠ 0)]
      calc (2 : ℚ) ^ (52 + e) = (2 : ℚ) ^ L := by rw [h]; congr 1; ring
        _ ≤ (n : ℚ) / d := s1
    have : (2 : ℚ) ^ (52 : ℤ) - 1 < m := by linarith [habs.1]
    have h52 : (2 : ℚ) ^ (52 : ℤ) = ((2 ^ 52 : ℕ) : ℚ) := by norm_num
    rw [h52] at this
    have : ((2 ^ 52 : ℕ) : ℚ) < (m : ℚ) + 1 := by linarith
    have : 2 ^ 52 < m + 1 := by exact_mod_cast this
    omega
  have hval : |(m : ℚ) * (2 : ℚ) ^ e - (n : ℚ) / d| ≤ (2 : ℚ) ^ (e - 1) := by
    have h1 : (m : ℚ) * (2 : ℚ) ^ e - (n : ℚ) / d =
        ((m : ℚ) - (n : ℚ) / d / (2 : ℚ) ^ e) * (2 : ℚ) ^ e := by
      field_simp
      ring
    rw [h1, abs_mul, abs_of_pos hpe]
    have h2 : (2 : ℚ) ^ (e - 1) = 1 / 2 * (2 : ℚ) ^ e := by
      rw [zpow_sub₀ (by norm_num : (2 : ℚ) ≠ 0)]; simp; ring
    rw [h2]
    exact mul_le_mul_of_nonneg_right herr hpe.le
  have hbig : 971 ≤ e → (2 : ℚ) ^ (1023 : ℤ) ≤ (n : ℚ) / d := by
    intro h
    have hL' : 1023 ≤ L := by omega
    exact le_trans (zpow_le_zpow_right₀ (by norm_num) hL') s1
  unfold ofRatio
  rw [if_neg hn.ne']
  simp only [← hL, ← he, ← hm]
  split_ifs with c1 c2 c3
  · left; exact ⟨rfl, hbig (by omega)⟩
  · right
    refine ⟨2 ^ 52, e + 1, rfl, ⟨by omega, by omega, by norm_num, Or.inr le_rfl⟩, ?_⟩
    have : ((2 ^ 52 : ℕ) : ℚ) * (2 : ℚ) ^ (e + 1) = (m : ℚ) * (2 : ℚ) ^ e := by
      rw [c1, zpow_add₀ (by norm_num : (2 : ℚ) ≠ 0)]; push_cast; ring
    rw [this]; exact hval
  · left; exact ⟨rfl, hbig (by omega)⟩
  · right
    refine ⟨m, e, rfl, ⟨he2, by omega, by omega, ?_⟩, hval⟩
    rcases he3 with h | h
    · right; exact hm_ge h
    · left; exact h

end F64

/-! ### Exact results of the rounding -/

theorem roundHalfEven_eq_of_near (n d k : Nat) (hd : 0 < d)
    (h : |(n : ℚ) / d - (k : ℚ)| < 1 / 2) : roundHalfEven n d = k := by
  have h1 := abs_le.mp (roundHalfEven_err n d hd)
  have h2 := abs_lt.mp h
  have a : ((roundHalfEven n d : ℕ) : ℚ) < (k : ℚ) + 1 := by linarith [h1.2, h2.2]
  have b : (k : ℚ) < ((roundHalfEven n d : ℕ) : ℚ) + 1 := by linarith [h1.1, h2.1]
  have a' : roundHalfEven n d < k + 1 := by exact_mod_cast a
  have b' : k < roundHalfEven n d + 1 := by exact_mod_cast b
  omega

theorem roundHalfUp_err (n d : Nat) (hd : 0 < d) :
    |((roundHalfUp n d : ℕ) : ℚ) - (n : ℚ) / d| ≤ 1 / 2 := by
  have hdq : (0 : ℚ) < d := by exact_mod_cast hd
  unfold roundHalfUp
  have h2d : 0 < 2 * d := by omega
  have hn : ((2 * n + d : ℕ) : ℚ) =
      ((2 * d : ℕ) : ℚ) * (((2 * n + d) / (2 * d) : ℕ) : ℚ) + (((2 * n + d) % (2 * d) : ℕ) : ℚ) := by
    exact_mod_cast (Nat.div_add_mod (2 * n + d) (2 * d)).symm
  have hr : (2 * n + d) % (2 * d) < 2 * d := Nat.mod_lt _ h2d
  have hrq : (((2 * n + d) % (2 * d) : ℕ) : ℚ) < 2 * d := by exact_mod_cast hr
  have hr0 : (0 : ℚ) ≤ (((2 * n + d) % (2 * d) : ℕ) : ℚ) := by positivity
  push_cast at hn
  have key : (n : ℚ) / d = (((2 * n + d) / (2 * d) : ℕ) : ℚ) +
      ((((2 * n + d) % (2 * d) : ℕ) : ℚ) - d) / (2 * d) := by
    have h3 : (n : ℚ) = d * (((2 * n + d) / (2 * d) : ℕ) : ℚ) +
        ((((2 * n + d) % (2 * d) : ℕ) : ℚ) - d) / 2 := by linarith
    rw [div_eq_iff hdq.ne']
    rw [h3]
    field_simp
    ring
  rw [key, abs_le]
  constructor
  · have : ((((2 * n + d) % (2 * d) : ℕ) : ℚ) - d) / (2 * d) ≤ 1 / 2 := by
      rw [div_le_iff₀ (by linarith)]; linarith
    linarith
  · have : -(1 / 2) ≤ ((((2 * n + d) % (2 * d) : ℕ) : ℚ) - d) / (2 * d) := by
      rw [le_div_iff₀ (by linarith)]; linarith
    linarith

theorem roundHalfUp_eq_of_near (n d k : Nat) (hd : 0 < d)
    (h : |(n : ℚ) / d - (k : ℚ)| < 1 / 2) : roundHalfUp n d = k := by
  have h1 := abs_le.mp (roundHalfUp_err n d hd)
  have h2 := abs_lt.mp h
  have a : ((roundHalfUp n d : ℕ) : ℚ) < (k : ℚ) + 1 := by linarith [h1.2, h2.2]
  have b : (k : ℚ) < ((roundHalfUp n d : ℕ) : ℚ) + 1 := by linarith [h1.1, h2.1]
  have a' : roundHalfUp n d < k + 1 := by exact_mod_cast a
  have b' : k < roundHalfUp n d + 1 := by exact_mod_cast b
  omega

theorem scaleNum_of_nonpos (e : Int) (h : e ≤ 0) : scaleNum e = 1 := by
  unfold scaleNum
  have : e.toNat = 0 := by omega
  rw [this]; rfl

theorem scaleDen_of_nonneg (e : Int) (h : 0 ≤ e) : scaleDen e = 1 := by
  unfold scaleDen
  have : (-e).toNat = 0 := by omega
  rw [this]; rfl

namespace F64

/-- Rounding is exact on a canonical value. -/
theorem ofRatio_canon (s : Bool) (m : Nat) (e : Int) (hc : Canon (fin s m e)) (hm : m ≠ 0) :
    ofRatio s (m * scaleNum e) (scaleDen e) = fin s m e := by
  obtain ⟨h1, h2, h3, h4⟩ := hc
  have hmpos : 0 < m := Nat.pos_of_ne_zero hm
  have hn : 0 < m * scaleNum e := Nat.mul_pos hmpos (scaleNum_pos e)
  have hd : 0 < scaleDen e := scaleDen_pos e
  have hq : ((m * scaleNum e : ℕ) : ℚ) / (scaleDen e : ℚ) = (m : ℚ) * (2 : ℚ) ^ e := by
    rw [← scale_ratio]; push_cast; ring
  have hmq : (m : ℚ) < (2 : ℚ) ^ (53 : ℤ) := by
    have : (2 : ℚ) ^ (53 : ℤ) = ((2 ^ 53 : ℕ) : ℚ) := by norm_num
    rw [this]; exact_mod_cast h3
  have hpe : (0 : ℚ) < (2 : ℚ) ^ e := two_zpow_pos e
  obtain ⟨s1, s2⟩ := ratLog2_spec _ _ hn hd
  rw [hq] at s1 s2
  -- the target exponent is `e`
  have hE : max (ratLog2 (m * scaleNum e) (scaleDen e) - 52) (-1074) = e := by
    have up : ratLog2 (m * scaleNum e) (scaleDen e) - 52 ≤ e := by
      have : (2 : ℚ) ^ (ratLog2 (m * scaleNum e) (scaleDen e)) < (2 : ℚ) ^ (53 + e) := by
        calc (2 : ℚ) ^ (ratLog2 (m * scaleNum e) (scaleDen e)) ≤ (m : ℚ) * (2 : ℚ) ^ e := s1
          _ < (2 : ℚ) ^ (53 : ℤ) * (2 : ℚ) ^ e := mul_lt_mul_of_pos_right hmq hpe
          _ = (2 : ℚ) ^ (53 + e) := by rw [zpow_add₀ (by norm_num : (2 : ℚ) ≠ 0)]
      rw [zpow_lt_zpow_iff_right₀ (by norm_num : (1 : ℚ) < 2)] at this
      omega
    rcases h4 with h4 | h4
    · rw [h4] at up ⊢
      exact max_eq_right up
    · have lo : e ≤ ratLog2 (m * scaleNum e) (scaleDen e) - 52 := by
        have hmq' : (2 : ℚ) ^ (52 : ℤ) ≤ (m : ℚ) := by
          have : (2 : ℚ) ^ (52 : ℤ) = ((2 ^ 52 : ℕ) : ℚ) := by norm_num
          rw [this]; exact_mod_cast h4
        have : (2 : ℚ) ^ (52 + e) < (2 : ℚ) ^ (ratLog2 (m * scaleNum e) (scaleDen e) + 1) := by
          calc (2 : ℚ) ^ (52 + e) = (2 : ℚ) ^ (52 : ℤ) * (2 : ℚ) ^ e := by
                rw [zpow_add₀ (by norm_num : (2 : ℚ) ≠ 0)]
            _ ≤ (m : ℚ) * (2 : ℚ) ^ e := mul_le_mul_of_nonneg_right hmq' hpe.le
            _ < _ := s2
        rw [zpow_lt_zpow_iff_right₀ (by norm_num : (1 : ℚ) < 2)] at this
        omega
      have : ratLog2 (m * scaleNum e) (scaleDen e) - 52 = e := by omega
      rw [this]; exact max_eq_left h1
  unfold ofRatio
  rw [if_neg hn.ne']
  simp only [hE]
  have hr : roundHalfEven (m * scaleNum e * scaleDen e) (scaleDen e * scaleNum e) = m := by
    rw [show m * scaleNum e * scaleDen e = m * (scaleDen e * scaleNum e) by ring]
    exact roundHalfEven_exact m _ (Nat.mul_pos hd (scaleNum_pos e))
  rw [hr]
  have : m ≠ 2 ^ 53 := by omega
  rw [if_neg this, if_neg (by omega)]

/-- Rounding is exact on every ratio whose value is that of a canonical float. -/
theorem ofRatio_eq_of_value (s : Bool) (n d m : Nat) (e : Int) (hd : 0 < d)
    (hc : Canon (fin s m e)) (hv : (n : ℚ) / d = (m : ℚ) * (2 : ℚ) ^ e) :
    ofRatio s n d = fin s m e := by
  have hdq : (0 : ℚ) < d := by exact_mod_cast hd
  rcases Nat.eq_zero_or_pos m with hm | hm
  · subst hm
    have hn : n = 0 := by
      have : (n : ℚ) / d = 0 := by rw [hv]; simp
      rw [div_eq_zero_iff] at this
      rcases this with h | h
      · exact_mod_cast h
      · exact absurd h hdq.ne'
    subst hn
    obtain ⟨h1, h2, h3, h4⟩ := hc
    rcases h4 with h4 | h4
    · subst h4; simp [ofRatio]
    · norm_num at h4
  · rw [← ofRatio_canon s m e hc hm.ne']
    apply ofRatio_congr _ _ _ _ _ hd (scaleDen_pos e)
    have h1 : (0 : ℚ) < scaleDen e := by exact_mod_cast scaleDen_pos e
    have : (n : ℚ) / d = ((m * scaleNum e : ℕ) : ℚ) / (scaleDen e : ℚ) := by
      rw [hv, ← scale_ratio]; push_cast; ring
    rw [div_eq_div_iff hdq.ne' h1.ne'] at this
    exact_mod_cast this

/-- Every natural number below `2^53` is a float64. -/
theorem exists_canon_nat (s : Bool) (k : Nat) (hk : k < 2 ^ 53) :
    ∃ m e, Canon (fin s m e) ∧ (m : ℚ) * (2 : ℚ) ^ e = (k : ℚ) ∧ -1074 ≤ e ∧ e ≤ 0 := by
  rcases Nat.eq_zero_or_pos k with h0 | h0
  · subst h0
    exact ⟨0, -1074, ⟨by norm_num, by norm_num, by norm_num, Or.inl rfl⟩, by simp, by norm_num,
      by norm_num⟩
  · obtain ⟨hb, hl, hu⟩ := bitLen_spec k h0.ne'
    have hb53 : bitLen k ≤ 53 := by
      by_contra hcon
      have : 2 ^ 53 ≤ 2 ^ (bitLen k - 1) := Nat.pow_le_pow_right (by norm_num) (by omega)
      omega
    refine ⟨k * 2 ^ (53 - bitLen k), (bitLen k : ℤ) - 53, ⟨by omega, by omega, ?_, Or.inr ?_⟩, ?_,
      by omega, by omega⟩
    · calc k * 2 ^ (53 - bitLen k) < 2 ^ bitLen k * 2 ^ (53 - bitLen k) :=
            Nat.mul_lt_mul_of_pos_right hu (by positivity)
        _ = 2 ^ 53 := by rw [← pow_add]; congr 1; omega
    · calc 2 ^ 52 = 2 ^ (bitLen k - 1) * 2 ^ (53 - bitLen k) := by
            rw [← pow_add]; congr 1; omega
        _ ≤ k * 2 ^ (53 - bitLen k) := Nat.mul_le_mul_right _ hl
    · have : ((bitLen k : ℤ) - 53) = -((53 - bitLen k : ℕ) : ℤ) := by omega
      rw [this, zpow_neg, zpow_natCast]
      push_cast
      field_simp

theorem ofRatio_nat (s : Bool) (k d : Nat) (hd : 0 < d) (n : Nat) (hk : k < 2 ^ 53)
    (hv : n = k * d) :
    ∃ m e, ofRatio s n d = fin s m e ∧ Canon (fin s m e) ∧ (m : ℚ) * (2 : ℚ) ^ e = (k : ℚ) := by
  obtain ⟨m, e, hc, hval, _, _⟩ := exists_canon_nat s k hk
  refine ⟨m, e, ?_, hc, hval⟩
  apply ofRatio_eq_of_value s n d m e hd hc
  have hdq : (0 : ℚ) < d := by exact_mod_cast hd
  rw [hval, hv]; push_cast; field_simp

end F64

/-! ### Digits and trimming -/

theorem digitChar_mem (n : Nat) : digitChar n ∈ "0123456789".toList := by
  unfold digitChar
  split <;> decide

theorem digitChar_isDigit (n : Nat) : isDigit (digitChar n) = true := by
  have h := digitChar_mem n
  revert h
  generalize digitChar n = c
  revert c
  decide

theorem digitChar_ne_point (n : Nat) : digitChar n ≠ '.' := by
  have h := digitChar_mem n
  revert h
  generalize digitChar n = c
  revert c
  decide

theorem isDigit_ne_point (c : Char) (h : isDigit c = true) : c ≠ '.' := by
  rintro rfl
  revert h
  decide

theorem fixedDigits_length (d k : Nat) : (fixedDigits d k).length = d := by
  induction d generalizing k with
  | zero => rfl
  | succ d ih => simp [fixedDigits, ih]

theorem fixedDigits_isDigit (d k : Nat) : ∀ c ∈ fixedDigits d k, isDigit c = true := by
  induction d generalizing k with
  | zero => intro c hc; simp [fixedDigits] at hc
  | succ d ih =>
    intro c hc
    simp only [fixedDigits, List.mem_append, List.mem_singleton] at hc
    rcases hc with hc | hc
    · exact ih _ c hc
    · rw [hc]; exact digitChar_isDigit _

theorem numDigitsAux_pos (f n : Nat) : 0 < numDigitsAux f n := by
  cases f with
  | zero => simp [numDigitsAux]
  | succ f => simp only [numDigitsAux]; split_ifs <;> omega

theorem numDigits_pos (n : Nat) : 0 < numDigits n := numDigitsAux_pos n n

theorem natDigits_ne_nil (n : Nat) : natDigits n ≠ [] := by
  intro h
  have := congrArg List.length h
  rw [natDigits, fixedDigits_length] at this
  have := numDigits_pos n
  simp at *
  omega

theorem natDigits_isDigit (n : Nat) : ∀ c ∈ natDigits n, isDigit c = true :=
  fixedDigits_isDigit _ _

theorem signChars_not_digit (s : Bool) : ∀ c ∈ signChars s, c = '-' := by
  intro c hc
  cases s <;> simp [signChars] at hc
  exact hc

theorem TrimRight_append_stop (A F : List Char) (c : Char) (cut : List Char)
    (hc : cut.contains c = false) :
    TrimRight (A ++ c :: F) cut = A ++ c :: TrimRight F cut := by
  unfold TrimRight
  induction F using List.reverseRecOn with
  | nil =>
    have hc' : c ∉ cut := by simpa using hc
    rw [List.rdropWhile_concat]
    simp [hc']
  | append_singleton F x ih =>
    have e : A ++ c :: (F ++ [x]) = (A ++ c :: F) ++ [x] := by simp
    rw [e, List.rdropWhile_concat, List.rdropWhile_concat, ih]
    split_ifs <;> simp

theorem TrimRight_last (l : List Char) (cut : List Char) (h : TrimRight l cut ≠ []) :
    cut.contains ((TrimRight l cut).getLast h) = false := by
  unfold TrimRight at h ⊢
  have := List.rdropWhile_last_not (fun c => cut.contains c) l h
  simpa using this

theorem TrimRight_subset (l : List Char) (cut : List Char) :
    ∀ c ∈ TrimRight l cut, c ∈ l := by
  intro c hc
  exact (List.rdropWhile_prefix (fun c => cut.contains c) l).subset hc

theorem dropFinalPoint_concat_point (A : List Char) :
    dropFinalPoint (A ++ ['.']) = some A := by
  simp [dropFinalPoint]

theorem dropFinalPoint_of_last (l : List Char) (h : l ≠ []) (hl : l.getLast h ≠ '.') :
    dropFinalPoint l = some l := by
  unfold dropFinalPoint
  rw [List.getLast?_eq_getLast l h]
  simp [hl]

/-- Trimming the zeros and the final point of a fixed-point rendering with at least one
fractional digit gives the rendering of the specification. -/
theorem strip_fixedPoint (s : Bool) (k d : Nat) (hd : 0 < d) :
    dropFinalPoint (TrimRight (fixedPoint s k d) ['0']) = some (specDecimal s k d) := by
  unfold fixedPoint specDecimal
  rw [if_neg (by omega), TrimRight_append_stop _ _ _ _ (by decide)]
  simp only
  by_cases hf : TrimRight (fixedDigits d k) ['0'] = []
  · rw [hf, if_pos rfl]
    simp only [List.append_nil]
    exact dropFinalPoint_concat_point _
  · rw [if_neg hf]
    have hne : signChars s ++ natDigits (k / 10 ^ d) ++ '.' :: TrimRight (fixedDigits d k) ['0'] ≠ [] := by
      simp
    apply dropFinalPoint_of_last _ hne
    have : (signChars s ++ natDigits (k / 10 ^ d) ++ '.' :: TrimRight (fixedDigits d k) ['0']).getLast hne
        = (TrimRight (fixedDigits d k) ['0']).getLast hf := by
      rw [List.getLast_append' _ _ (by simp)]
      rw [List.getLast_cons hf]
    rw [this]
    apply isDigit_ne_point
    apply fixedDigits_isDigit d k
    apply TrimRight_subset
    exact List.getLast_mem hf

/-! ### Powers of ten -/

theorem Pow10_exact_table :
    ∀ n : Nat, n < 23 → F64.isExactNat (Pow10 (n : Int)) (10 ^ n) = true := by
  decide!

theorem Pow10_finite_table :
    ∀ n : Nat, n < 309 → F64.isPosFinite (Pow10 (n : Int)) = true := by
  decide!

theorem Pow10_exact (n : Nat) (h : n ≤ 22) :
    ∃ m e, Pow10 (n : Int) = F64.fin false m e ∧ F64.Canon (F64.fin false m e) ∧ m ≠ 0 ∧
      m * scaleNum e = 10 ^ n * scaleDen e := by
  have := Pow10_exact_table n (by omega)
  unfold F64.isExactNat at this
  split at this
  · rename_i m e heq
    simp only [Bool.and_eq_true, decide_eq_true_eq] at this
    exact ⟨m, e, heq, this.1.1, this.1.2, this.2⟩
  · exact absurd this (by simp)

theorem Pow10_finite (n : Nat) (h : n ≤ 308) :
    ∃ m e, Pow10 (n : Int) = F64.fin false m e ∧ F64.Canon (F64.fin false m e) ∧ m ≠ 0 := by
  have := Pow10_finite_table n (by omega)
  unfold F64.isPosFinite at this
  split at this
  · rename_i m e heq
    simp only [Bool.and_eq_true, decide_eq_true_eq] at this
    exact ⟨m, e, heq, this.1, this.2⟩
  · exact absurd this (by simp)

namespace F64

/-- Relative error of the rounding in the normal range. -/
theorem ofRatio_rel_err (s : Bool) (n d : Nat) (hn : 0 < n) (hd : 0 < d)
    (hlo : (2 : ℚ) ^ (-1022 : ℤ) ≤ (n : ℚ) / d) (hhi : (n : ℚ) / d < (2 : ℚ) ^ (1023 : ℤ)) :
    ∃ m e, ofRatio s n d = fin s m e ∧ Canon (fin s m e) ∧
      |(m : ℚ) * (2 : ℚ) ^ e - (n : ℚ) / d| ≤ (n : ℚ) / d * (2 : ℚ) ^ (-53 : ℤ) := by
  obtain ⟨s1, s2⟩ := ratLog2_spec n d hn hd
  rcases ofRatio_cases s n d hn hd with ⟨_, h⟩ | ⟨m, e, h1, h2, h3⟩
  · exact absurd h (not_le.mpr hhi)
  · refine ⟨m, e, h1, h2, le_trans h3 ?_⟩
    have hL : -1022 ≤ ratLog2 n d := by
      have : (2 : ℚ) ^ (-1022 : ℤ) < (2 : ℚ) ^ (ratLog2 n d + 1) := lt_of_le_of_lt hlo s2
      rw [zpow_lt_zpow_iff_right₀ (by norm_num : (1 : ℚ) < 2)] at this
      omega
    rw [max_eq_left (by omega)]
    have : ratLog2 n d - 52 - 1 = ratLog2 n d + (-53) := by ring
    rw [this, zpow_add₀ (by norm_num : (2 : ℚ) ≠ 0)]
    exact mul_le_mul_of_nonneg_right s1 (two_zpow_pos _).le

theorem ofRatio_zero (s : Bool) (d : Nat) : ofRatio s 0 d = fin s 0 (-1074) := by
  simp [ofRatio]

end F64

/-! ### Products, quotients and `math.Round` -/

namespace F64

theorem ofRatio_congr_rat (s : Bool) (n d n' d' : Nat) (hd : 0 < d) (hd' : 0 < d')
    (h : (n : ℚ) / d = (n' : ℚ) / d') : ofRatio s n d = ofRatio s n' d' := by
  apply ofRatio_congr s n d n' d' hd hd'
  have h1 : (d : ℚ) ≠ 0 := by exact_mod_cast hd.ne'
  have h2 : (d' : ℚ) ≠ 0 := by exact_mod_cast hd'.ne'
  rw [div_eq_div_iff h1 h2] at h
  exact_mod_cast h

theorem ratio_value (m : Nat) (e : Int) :
    ((m * scaleNum e : ℕ) : ℚ) / (scaleDen e : ℚ) = (m : ℚ) * (2 : ℚ) ^ e := by
  rw [← scale_ratio]; push_cast; ring

/-- The value of an exact table entry. -/
theorem value_of_exact (mP : Nat) (eP : Int) (v : Nat)
    (h : mP * scaleNum eP = v * scaleDen eP) : (mP : ℚ) * (2 : ℚ) ^ eP = (v : ℚ) := by
  have h2 : (0 : ℚ) < scaleDen eP := by exact_mod_cast scaleDen_pos eP
  rw [← ratio_value, div_eq_iff h2.ne']
  exact_mod_cast h

theorem mul_fin (s : Bool) (m : Nat) (e : Int) (mP : Nat) (eP : Int) (v : Nat)
    (hv : (mP : ℚ) * (2 : ℚ) ^ eP = (v : ℚ)) :
    mul (fin s m e) (fin false mP eP) = ofRatio s (m * v * scaleNum e) (scaleDen e) := by
  simp only [mul]
  have hs : (s != false) = s := by cases s <;> rfl
  rw [hs]
  apply ofRatio_congr_rat _ _ _ _ _ (scaleDen_pos _) (scaleDen_pos _)
  rw [ratio_value, ratio_value]
  push_cast
  rw [zpow_add₀ (by norm_num : (2 : ℚ) ≠ 0), ← hv]
  ring

theorem div_fin (s : Bool) (mk : Nat) (ek : Int) (mP : Nat) (eP : Int) (k v : Nat)
    (hP : mP ≠ 0) (hv0 : 0 < v)
    (hk : (mk : ℚ) * (2 : ℚ) ^ ek = (k : ℚ)) (hv : (mP : ℚ) * (2 : ℚ) ^ eP = (v : ℚ)) :
    div (fin s mk ek) (fin false mP eP) = ofRatio s k v := by
  simp only [div]
  rw [if_neg hP]
  have hs : (s != false) = s := by cases s <;> rfl
  rw [hs]
  have hPpos : 0 < mP := Nat.pos_of_ne_zero hP
  apply ofRatio_congr_rat _ _ _ _ _
    (Nat.mul_pos (Nat.mul_pos hPpos (scaleNum_pos _)) (scaleDen_pos _)) hv0
  rw [← hk, ← hv]
  have h1 : (0 : ℚ) < scaleNum ek := by exact_mod_cast scaleNum_pos ek
  have h2 : (0 : ℚ) < scaleDen ek := by exact_mod_cast scaleDen_pos ek
  have h3 : (0 : ℚ) < scaleNum eP := by exact_mod_cast scaleNum_pos eP
  have h4 : (0 : ℚ) < scaleDen eP := by exact_mod_cast scaleDen_pos eP
  have h5 : (0 : ℚ) < mP := by exact_mod_cast hPpos
  have e1 : (scaleNum ek : ℚ) = (2 : ℚ) ^ ek * scaleDen ek := by
    rw [← scale_ratio]; field_simp
  have e2 : (scaleNum eP : ℚ) = (2 : ℚ) ^ eP * scaleDen eP := by
    rw [← scale_ratio]; field_simp
  have p1 := (two_zpow_pos ek).ne'
  have p2 := (two_zpow_pos eP).ne'
  push_cast
  rw [e1, e2]
  field_simp
  ring

/-- `math.Round` of a canonical value is the float of the nearest integer. -/
theorem Round_eq (s : Bool) (m : Nat) (e : Int) (hc : Canon (fin s m e)) :
    Round (fin s m e) = ofRatio s (roundAwayNat (fin s m e)) 1 := by
  simp only [Round, roundAwayNat]
  split_ifs with h
  · rw [scaleDen_of_nonneg e h]
    have : roundHalfUp (m * scaleNum e) 1 = m * scaleNum e := by
      unfold roundHalfUp; omega
    rw [this]
    symm
    apply ofRatio_eq_of_value s _ 1 m e (by norm_num) hc
    have := ratio_value m e
    rw [scaleDen_of_nonneg e h] at this
    exact this
  · rw [scaleNum_of_nonpos e (by omega), Nat.mul_one]

theorem roundAwayNat_le (s : Bool) (m : Nat) (e : Int) (B : Nat)
    (h : (m : ℚ) * (2 : ℚ) ^ e < (B : ℚ) + 1 / 2) : roundAwayNat (fin s m e) ≤ B := by
  simp only [roundAwayNat]
  have h1 := abs_le.mp (roundHalfUp_err (m * scaleNum e) (scaleDen e) (scaleDen_pos e))
  rw [ratio_value] at h1
  have : ((roundHalfUp (m * scaleNum e) (scaleDen e) : ℕ) : ℚ) < (B : ℚ) + 1 := by
    linarith [h1.2]
  have : roundHalfUp (m * scaleNum e) (scaleDen e) < B + 1 := by exact_mod_cast this
  omega

end F64

/-- The float nearest to `k / 10^n`, scaled back by `10^n`, is within `k * 2^-53` of `k`. -/
theorem ofRatio_pow10_near (s : Bool) (k n : Nat) (hk : k ≤ 2 ^ 51) (hn : n ≤ 22) :
    ∃ m e, F64.ofRatio s k (10 ^ n) = F64.fin s m e ∧ F64.Canon (F64.fin s m e) ∧
      |(m : ℚ) * (2 : ℚ) ^ e * ((10 ^ n : ℕ) : ℚ) - (k : ℚ)| ≤ (k : ℚ) * (2 : ℚ) ^ (-53 : ℤ) := by
  rcases Nat.eq_zero_or_pos k with h0 | h0
  · subst h0
    refine ⟨0, -1074, F64.ofRatio_zero s _, ⟨by norm_num, by norm_num, by norm_num, Or.inl rfl⟩, ?_⟩
    simp
  · have hd : 0 < 10 ^ n := by positivity
    have hkq : (1 : ℚ) ≤ k := by exact_mod_cast h0
    have hkq2 : (k : ℚ) ≤ (2 : ℚ) ^ (51 : ℤ) := by
      have : (2 : ℚ) ^ (51 : ℤ) = ((2 ^ 51 : ℕ) : ℚ) := by norm_num
      rw [this]; exact_mod_cast hk
    have hdq : (0 : ℚ) < ((10 ^ n : ℕ) : ℚ) := by exact_mod_cast hd
    have hd1 : (1 : ℚ) ≤ ((10 ^ n : ℕ) : ℚ) := by exact_mod_cast hd
    have hd2 : ((10 ^ n : ℕ) : ℚ) ≤ (2 : ℚ) ^ (74 : ℤ) := by
      have h1 : 10 ^ n ≤ 10 ^ 22 := Nat.pow_le_pow_right (by norm_num) hn
      have h2 : (10 : ℕ) ^ 22 ≤ 2 ^ 74 := by norm_num
      have : (2 : ℚ) ^ (74 : ℤ) = ((2 ^ 74 : ℕ) : ℚ) := by norm_num
      rw [this]; exact_mod_cast le_trans h1 h2
    have hlo : (2 : ℚ) ^ (-1022 : ℤ) ≤ (k : ℚ) / ((10 ^ n : ℕ) : ℚ) := by
      rw [le_div_iff₀ hdq]
      calc (2 : ℚ) ^ (-1022 : ℤ) * ((10 ^ n : ℕ) : ℚ)
          ≤ (2 : ℚ) ^ (-1022 : ℤ) * (2 : ℚ) ^ (74 : ℤ) :=
            mul_le_mul_of_nonneg_left hd2 (two_zpow_pos _).le
        _ = (2 : ℚ) ^ (-948 : ℤ) := by
            rw [← zpow_add₀ (by norm_num : (2 : ℚ) ≠ 0)]; norm_num
        _ ≤ (2 : ℚ) ^ (0 : ℤ) := zpow_le_zpow_right₀ (by norm_num) (by norm_num)
        _ = 1 := by norm_num
        _ ≤ k := hkq
    have hhi : (k : ℚ) / ((10 ^ n : ℕ) : ℚ) < (2 : ℚ) ^ (1023 : ℤ) := by
      rw [div_lt_iff₀ hdq]
      calc (k : ℚ) ≤ (2 : ℚ) ^ (51 : ℤ) := hkq2
        _ < (2 : ℚ) ^ (1023 : ℤ) := zpow_lt_zpow_right₀ (by norm_num) (by norm_num)
        _ = (2 : ℚ) ^ (1023 : ℤ) * 1 := by ring
        _ ≤ (2 : ℚ) ^ (1023 : ℤ) * ((10 ^ n : ℕ) : ℚ) :=
            mul_le_mul_of_nonneg_left hd1 (two_zpow_pos _).le
    obtain ⟨m, e, h1, h2, h3⟩ := F64.ofRatio_rel_err s k (10 ^ n) h0 hd hlo hhi
    refine ⟨m, e, h1, h2, ?_⟩
    have hfac : (m : ℚ) * (2 : ℚ) ^ e * ((10 ^ n : ℕ) : ℚ) - (k : ℚ) =
        ((m : ℚ) * (2 : ℚ) ^ e - (k : ℚ) / ((10 ^ n : ℕ) : ℚ)) * ((10 ^ n : ℕ) : ℚ) := by
      field_simp
    rw [hfac, abs_mul, abs_of_pos hdq]
    calc |(m : ℚ) * (2 : ℚ) ^ e - (k : ℚ) / ((10 ^ n : ℕ) : ℚ)| * ((10 ^ n : ℕ) : ℚ)
        ≤ (k : ℚ) / ((10 ^ n : ℕ) : ℚ) * (2 : ℚ) ^ (-53 : ℤ) * ((10 ^ n : ℕ) : ℚ) :=
          mul_le_mul_of_nonneg_right h3 hdq.le
      _ = (k : ℚ) * (2 : ℚ) ^ (-53 : ℤ) := by field_simp; ring

/-- Rendering the float nearest to `k / 10^n` with `n` fractional digits gives back `k`. -/
theorem NewFloatText_ofRatio (s : Bool) (k n : Nat) (hk : k ≤ 2 ^ 51) (hn : n ≤ 22) :
    NewFloatText (F64.ofRatio s k (10 ^ n)) (n : Int) = some (fixedPoint s k n) := by
  obtain ⟨m, e, h1, _, h3⟩ := ofRatio_pow10_near s k n hk hn
  have hkq2 : (k : ℚ) ≤ (2 : ℚ) ^ (51 : ℤ) := by
    have : (2 : ℚ) ^ (51 : ℤ) = ((2 ^ 51 : ℕ) : ℚ) := by norm_num
    rw [this]; exact_mod_cast hk
  rw [h1]
  unfold NewFloatText
  simp only [Int.natCast_nonneg, if_true, Int.toNat_ofNat]
  congr 2
  apply roundHalfEven_eq_of_near _ _ _ (scaleDen_pos e)
  have hval : ((m * scaleNum e * 10 ^ n : ℕ) : ℚ) / (scaleDen e : ℚ) =
      (m : ℚ) * (2 : ℚ) ^ e * ((10 ^ n : ℕ) : ℚ) := by
    rw [← F64.ratio_value]; push_cast; ring
  rw [hval]
  calc |(m : ℚ) * (2 : ℚ) ^ e * ((10 ^ n : ℕ) : ℚ) - (k : ℚ)|
      ≤ (k : ℚ) * (2 : ℚ) ^ (-53 : ℤ) := h3
    _ ≤ (2 : ℚ) ^ (51 : ℤ) * (2 : ℚ) ^ (-53 : ℤ) :=
        mul_le_mul_of_nonneg_right hkq2 (two_zpow_pos _).le
    _ < 1 / 2 := by norm_num

/-! ### `RoundOrderSize` as a decimal rendering -/

namespace F64

/-- Rounding a value of at most `2^51` gives a finite float within a quarter of it. -/
theorem ofRatio_small (s : Bool) (n d : Nat) (hd : 0 < d)
    (hq : (n : ℚ) / d ≤ (2 : ℚ) ^ (51 : ℤ)) :
    ∃ m e, ofRatio s n d = fin s m e ∧ Canon (fin s m e) ∧
      |(m : ℚ) * (2 : ℚ) ^ e - (n : ℚ) / d| ≤ 1 / 4 := by
  rcases Nat.eq_zero_or_pos n with h0 | h0
  · subst h0
    refine ⟨0, -1074, ofRatio_zero s d, ⟨by norm_num, by norm_num, by norm_num, Or.inl rfl⟩, ?_⟩
    simp
  · obtain ⟨s1, s2⟩ := ratLog2_spec n d h0 hd
    rcases ofRatio_cases s n d h0 hd with ⟨_, h⟩ | ⟨m, e, h1, h2, h3⟩
    · exfalso
      have : (2 : ℚ) ^ (1023 : ℤ) ≤ (2 : ℚ) ^ (51 : ℤ) := le_trans h hq
      rw [zpow_le_zpow_iff_right₀ (by norm_num : (1 : ℚ) < 2)] at this
      omega
    · refine ⟨m, e, h1, h2, le_trans h3 ?_⟩
      have hL : ratLog2 n d ≤ 51 := by
        have : (2 : ℚ) ^ (ratLog2 n d) ≤ (2 : ℚ) ^ (51 : ℤ) := le_trans s1 hq
        rwa [zpow_le_zpow_iff_right₀ (by norm_num : (1 : ℚ) < 2)] at this
      calc (2 : ℚ) ^ (max (ratLog2 n d - 52) (-1074) - 1)
          ≤ (2 : ℚ) ^ (-2 : ℤ) := by
            apply zpow_le_zpow_right₀ (by norm_num)
            have := max_le (show ratLog2 n d - 52 ≤ -1 by omega) (show (-1074 : ℤ) ≤ -1 by norm_num)
            omega
        _ = 1 / 4 := by norm_num

end F64

theorem fracDigits_specDecimal (s : Bool) (k d : Nat) :
    fracDigits (specDecimal s k d) = TrimRight (fixedDigits d k) ['0'] := by
  unfold fracDigits specDecimal
  simp only
  have hA : ∀ c ∈ signChars s ++ natDigits (k / 10 ^ d), (c != '.') = true := by
    intro c hc
    rw [List.mem_append] at hc
    rcases hc with hc | hc
    · rw [signChars_not_digit s c hc]; decide
    · have := isDigit_ne_point c (natDigits_isDigit _ c hc)
      simpa using this
  split_ifs with hf
  · rw [hf, List.append_nil]
    have : List.dropWhile (fun c => c != '.') (signChars s ++ natDigits (k / 10 ^ d)) = [] := by
      rw [List.dropWhile_eq_nil_iff]; exact hA
    rw [this]; rfl
  · rw [List.dropWhile_append_of_pos hA]
    simp [List.dropWhile]

theorem fracDigits_specDecimal_length (s : Bool) (k d : Nat) :
    (fracDigits (specDecimal s k d)).length ≤ d := by
  rw [fracDigits_specDecimal]
  have := (List.rdropWhile_prefix (fun c => ['0'].contains c) (fixedDigits d k)).length_le
  rw [fixedDigits_length] at this
  exact this

/-- For a finite `x` and `1 ≤ szDecimals ≤ 22` with `|x| * 10^szDecimals ≤ 2^51`,
`RoundOrderSize` returns the decimal rendering of `k / 10^szDecimals`, where `k` is the
float64 product `x * 10^szDecimals` rounded to the nearest integer, ties away from zero. -/
theorem roundOrderSize_decimal (x : F64) (szDecimals : Int)
    (hx : x.isFinite = true) (h1 : 1 ≤ szDecimals) (h2 : szDecimals ≤ 22)
    (hb : x.absRat * 10 ^ szDecimals.toNat ≤ 2 ^ 51) :
    RoundOrderSize x szDecimals =
      some (specDecimal x.signBit (F64.roundAwayNat (F64.mul x (Pow10 szDecimals)))
        szDecimals.toNat) ∧
    (fracDigits (specDecimal x.signBit (F64.roundAwayNat (F64.mul x (Pow10 szDecimals)))
        szDecimals.toNat)).length ≤ szDecimals.toNat := by
  refine ⟨?_, fracDigits_specDecimal_length _ _ _⟩
  obtain ⟨n, rfl⟩ : ∃ n : ℕ, szDecimals = (n : ℤ) := ⟨szDecimals.toNat, by omega⟩
  have hn1 : 1 ≤ n := by omega
  have hn2 : n ≤ 22 := by omega
  simp only [Int.toNat_ofNat] at hb ⊢
  cases x with
  | inf s => simp [F64.isFinite] at hx
  | nan => simp [F64.isFinite] at hx
  | fin s m e =>
    obtain ⟨mP, eP, hP, hPc, hP0, hPv⟩ := Pow10_exact n hn2
    have hv := F64.value_of_exact mP eP (10 ^ n) hPv
    have hv0 : 0 < 10 ^ n := by positivity
    -- the product
    have hq : ((m * 10 ^ n * scaleNum e : ℕ) : ℚ) / (scaleDen e : ℚ) ≤ (2 : ℚ) ^ (51 : ℤ) := by
      have : ((m * 10 ^ n * scaleNum e : ℕ) : ℚ) / (scaleDen e : ℚ) =
          (m : ℚ) * (2 : ℚ) ^ e * 10 ^ n := by
        rw [← F64.ratio_value]; push_cast; ring
      rw [this]
      simp only [F64.absRat] at hb
      calc (m : ℚ) * (2 : ℚ) ^ e * 10 ^ n ≤ 2 ^ 51 := hb
        _ = (2 : ℚ) ^ (51 : ℤ) := by norm_num
    obtain ⟨mz, ez, hz, hzc, hzerr⟩ :=
      F64.ofRatio_small s (m * 10 ^ n * scaleNum e) (scaleDen e) (scaleDen_pos e) hq
    have hmul : F64.mul (F64.fin s m e) (Pow10 (n : ℤ)) = F64.fin s mz ez := by
      rw [hP, F64.mul_fin s m e mP eP (10 ^ n) hv, hz]
    have hk : F64.roundAwayNat (F64.fin s mz ez) ≤ 2 ^ 51 := by
      apply F64.roundAwayNat_le
      have := (abs_le.mp hzerr).2
      have h51 : (2 : ℚ) ^ (51 : ℤ) = ((2 ^ 51 : ℕ) : ℚ) := by norm_num
      rw [h51] at hq
      linarith
    set k := F64.roundAwayNat (F64.fin s mz ez) with hkdef
    obtain ⟨mk, ek, hk1, hk2, hk3⟩ := F64.ofRatio_nat s k 1 (by norm_num) k (by omega) (by ring)
    have hnz : ((n : ℤ) = 0) = False := by
      apply propext; constructor
      · intro h; omega
      · intro h; exact h.elim
    unfold RoundOrderSize
    simp only [hnz, if_false, hmul, F64.signBit]
    rw [F64.Round_eq s mz ez hzc, ← hkdef, hk1, hP,
      F64.div_fin s mk ek mP eP k (10 ^ n) hP0 hv0 hk3 hv, NewFloatText_ofRatio s k n hk hn2]
    exact strip_fixedPoint s k n (by omega)

/-! ### Values of digit strings -/

theorem digitChar_toNat (n : Nat) (h : n < 10) : (digitChar n).toNat - 48 = n := by
  interval_cases n <;> rfl

theorem digitChar_eq_zero_iff (n : Nat) (h : n < 10) : digitChar n = '0' ↔ n = 0 := by
  interval_cases n <;> simp [digitChar]

theorem digitsValue_concat (l : List Char) (c : Char) :
    digitsValue (l ++ [c]) = 10 * digitsValue l + (c.toNat - 48) := by
  simp [digitsValue, List.foldl_append]

theorem digitsValue_fixedDigits (d k : Nat) : digitsValue (fixedDigits d k) = k % 10 ^ d := by
  induction d generalizing k with
  | zero => simp [fixedDigits, digitsValue, Nat.mod_one]
  | succ d ih =>
    rw [fixedDigits, digitsValue_concat, ih, digitChar_toNat _ (Nat.mod_lt _ (by norm_num))]
    rw [pow_succ, Nat.mul_comm (10 ^ d) 10, Nat.mod_mul]
    omega

theorem digitsValue_replicate_zero (j : Nat) : digitsValue (List.replicate j '0') = 0 := by
  induction j with
  | zero => rfl
  | succ j ih =>
    rw [List.replicate_succ', digitsValue_concat, ih]; rfl

theorem digitsValue_append (a b : List Char) :
    digitsValue (a ++ b) = digitsValue a * 10 ^ b.length + digitsValue b := by
  induction b using List.reverseRecOn with
  | nil => simp [digitsValue]
  | append_singleton b c ih =>
    rw [← List.append_assoc, digitsValue_concat, ih, digitsValue_concat]
    simp [pow_succ]
    ring

theorem numDigitsAux_spec : ∀ f n, n ≤ f → n < 10 ^ numDigitsAux f n ∧
    (n ≠ 0 → 10 ^ (numDigitsAux f n - 1) ≤ n) := by
  intro f
  induction f with
  | zero => intro n h; have : n = 0 := by omega
            subst this; simp [numDigitsAux]
  | succ f ih =>
    intro n h
    simp only [numDigitsAux]
    split_ifs with h1
    · simp; omega
    · obtain ⟨a, b⟩ := ih (n / 10) (by omega)
      constructor
      · rw [pow_succ]; omega
      · intro _
        have := b (by omega)
        have hp := numDigitsAux_pos f (n / 10)
        have e : numDigitsAux f (n / 10) + 1 - 1 = (numDigitsAux f (n / 10) - 1) + 1 := by omega
        rw [e, pow_succ]; omega

theorem numDigits_spec (n : Nat) : n < 10 ^ numDigits n ∧ (n ≠ 0 → 10 ^ (numDigits n - 1) ≤ n) :=
  numDigitsAux_spec n n le_rfl

theorem digitsValue_natDigits (n : Nat) : digitsValue (natDigits n) = n := by
  rw [natDigits, digitsValue_fixedDigits, Nat.mod_eq_of_lt (numDigits_spec n).1]

theorem natDigits_length (n : Nat) : (natDigits n).length = numDigits n := by
  rw [natDigits, fixedDigits_length]

theorem digitsValue_all_zero (l : List Char) (h : ∀ c ∈ l, c = '0') : digitsValue l = 0 := by
  have : l = List.replicate l.length '0' := List.eq_replicate_of_mem h
  rw [this, digitsValue_replicate_zero]

theorem TrimRight_zero_eq_nil (l : List Char) (h : TrimRight l ['0'] = []) : ∀ c ∈ l, c = '0' := by
  unfold TrimRight at h
  rw [List.rdropWhile_eq_nil_iff] at h
  intro c hc
  simpa using h c hc

theorem TrimRight_natDigits_ne_nil (c : Nat) (hc : c ≠ 0) : TrimRight (natDigits c) ['0'] ≠ [] := by
  intro h
  have := digitsValue_all_zero _ (TrimRight_zero_eq_nil _ h)
  rw [digitsValue_natDigits] at this
  exact hc this

/-! ### Shape of the formatted strings -/

theorem isDigit_ne_minus (c : Char) (h : isDigit c = true) : c ≠ '-' := by
  rintro rfl
  revert h
  decide

theorem not_point_mem_sign_digits (s : Bool) (I : List Char) (hI : ∀ c ∈ I, isDigit c = true) :
    '.' ∉ signChars s ++ I := by
  intro h
  rw [List.mem_append] at h
  rcases h with h | h
  · have := signChars_not_digit s _ h
    exact absurd this (by decide)
  · exact isDigit_ne_point _ (hI _ h) rfl

theorem wellTrimmed_sign_digits (s : Bool) (I : List Char) (hI : ∀ c ∈ I, isDigit c = true)
    (hne : I ≠ []) : WellTrimmed (signChars s ++ I) := by
  refine ⟨by simp [hne], ?_, fun h => absurd h (not_point_mem_sign_digits s I hI)⟩
  rw [List.getLast?_append_of_ne_nil _ hne, List.getLast?_eq_getLast _ hne]
  intro h
  have h1 : I.getLast hne = '.' := by simpa using h
  exact isDigit_ne_point _ (hI _ (List.getLast_mem hne)) h1

theorem wellTrimmed_with_fraction (A M : List Char) (hM : M ≠ [])
    (h1 : M.getLast hM ≠ '0') (h2 : M.getLast hM ≠ '.') : WellTrimmed (A ++ '.' :: M) := by
  have hl : (A ++ '.' :: M).getLast? = some (M.getLast hM) := by
    rw [show A ++ '.' :: M = (A ++ ['.']) ++ M by simp, List.getLast?_append_of_ne_nil _ hM,
      List.getLast?_eq_getLast _ hM]
  refine ⟨by simp, ?_, fun _ => ?_⟩
  · rw [hl]; simpa using h2
  · rw [hl]; simpa using h1

theorem wellTrimmed_specDecimal (s : Bool) (k d : Nat) : WellTrimmed (specDecimal s k d) := by
  unfold specDecimal
  simp only
  split_ifs with hf
  · rw [List.append_nil]
    exact wellTrimmed_sign_digits s _ (natDigits_isDigit _) (natDigits_ne_nil _)
  · apply wellTrimmed_with_fraction _ _ hf
    · have := TrimRight_last (fixedDigits d k) ['0'] hf
      intro h; rw [h] at this; exact absurd this (by decide)
    · apply isDigit_ne_point
      exact fixedDigits_isDigit d k _ (TrimRight_subset _ _ _ (List.getLast_mem hf))

theorem DecimalSlice.at_isDigit (ds : DecimalSlice) (hd : ∀ c ∈ ds.d, isDigit c = true) (j : Int) :
    isDigit (ds.at j) = true := by
  unfold DecimalSlice.at
  split_ifs with h
  · have hj : j.toNat < ds.d.length := by omega
    rw [List.getD_eq_getElem _ _ hj]
    exact hd _ (List.getElem_mem _)
  · decide

theorem fmtInt_ne_nil (ds : DecimalSlice) : fmtInt ds ≠ [] := by
  unfold fmtInt
  split_ifs with h
  · intro hc
    have := congrArg List.length hc
    rw [List.length_append, List.length_take, List.length_replicate, List.length_nil,
      Nat.min_def] at this
    split_ifs at this <;> omega
  · simp

theorem fmtInt_isDigit (ds : DecimalSlice) (hd : ∀ c ∈ ds.d, isDigit c = true) :
    ∀ c ∈ fmtInt ds, isDigit c = true := by
  intro c hc
  unfold fmtInt at hc
  split_ifs at hc with h
  · rw [List.mem_append] at hc
    rcases hc with hc | hc
    · exact hd _ (List.mem_of_mem_take hc)
    · rw [List.eq_of_mem_replicate hc]; decide
  · rw [List.mem_singleton.mp hc]; decide

theorem fmtFrac_isDigit (ds : DecimalSlice) (hd : ∀ c ∈ ds.d, isDigit c = true) (prec : Nat) :
    ∀ c ∈ fmtFrac ds prec, isDigit c = true := by
  intro c hc
  unfold fmtFrac at hc
  rw [List.mem_map] at hc
  obtain ⟨i, _, rfl⟩ := hc
  exact DecimalSlice.at_isDigit ds hd _

theorem fmtFrac_length (ds : DecimalSlice) (prec : Nat) : (fmtFrac ds prec).length = prec := by
  simp [fmtFrac]

/-- The shortest `%f` layout of a digit buffer without trailing zero is well trimmed. -/
theorem wellTrimmed_fmtShortest (neg : Bool) (ds : DecimalSlice)
    (hd : ∀ c ∈ ds.d, isDigit c = true) (hl : ∀ h : ds.d ≠ [], ds.d.getLast h ≠ '0')
    (h0 : ds.d = [] → ds.dp = 0) : WellTrimmed (fmtShortest neg ds) := by
  unfold fmtShortest fmtF
  split_ifs with hp
  · -- a fraction
    obtain ⟨p, hp'⟩ : ∃ p, ((ds.d.length : ℤ) - ds.dp).toNat = p + 1 :=
      ⟨_, (Nat.succ_pred_eq_of_pos hp).symm⟩
    have hnd : ds.d ≠ [] := by
      intro hc
      have := h0 hc
      rw [hc, this] at hp'
      simp at hp'
    rw [hp']
    unfold fmtFrac
    rw [List.range_succ, List.map_append, List.map_singleton]
    have hidx : ds.dp + (p : ℤ) = ((ds.d.length - 1 : ℕ) : ℤ) := by
      have : 0 < ds.d.length := List.length_pos.mpr hnd
      omega
    have hat : ds.at (ds.dp + (p : ℤ)) = ds.d.getLast hnd := by
      unfold DecimalSlice.at
      have : 0 < ds.d.length := List.length_pos.mpr hnd
      rw [hidx, if_pos (by omega), Int.toNat_ofNat, List.getD_eq_getElem _ _ (by omega),
        List.getLast_eq_getElem]
    set M := List.map (fun i : ℕ => ds.at (ds.dp + (i : ℤ))) (List.range p) ++
      [ds.at (ds.dp + (p : ℤ))] with hM
    have hMne : M ≠ [] := by simp [hM]
    have hMl : M.getLast hMne = ds.d.getLast hnd := by
      simp only [hM, List.getLast_append_singleton]
      exact hat
    apply wellTrimmed_with_fraction _ _ hMne
    · rw [hMl]; exact hl hnd
    · rw [hMl]; exact isDigit_ne_point _ (hd _ (List.getLast_mem hnd))
  · rw [List.append_nil]
    exact wellTrimmed_sign_digits neg _ (fmtInt_isDigit ds hd) (fmtInt_ne_nil ds)

theorem toDecimalSlice_ok (c : Nat) (s : Int) :
    (∀ ch ∈ (toDecimalSlice c s).d, isDigit ch = true) ∧
    (∀ h : (toDecimalSlice c s).d ≠ [], (toDecimalSlice c s).d.getLast h ≠ '0') ∧
    ((toDecimalSlice c s).d = [] → (toDecimalSlice c s).dp = 0) := by
  unfold toDecimalSlice
  split_ifs with h
  · simp
  · refine ⟨?_, ?_, ?_⟩
    · intro ch hch
      exact natDigits_isDigit c _ (TrimRight_subset _ _ _ hch)
    · intro hne hc
      have := TrimRight_last (natDigits c) ['0'] hne
      simp only at hc
      rw [hc] at this
      exact absurd this (by decide)
    · intro hc
      exact absurd hc (TrimRight_natDigits_ne_nil c h)

theorem wellTrimmed_FormatFloat (x : F64) (hx : x.isFinite = true) :
    WellTrimmed (FormatFloat x) := by
  cases x with
  | inf s => simp [F64.isFinite] at hx
  | nan => simp [F64.isFinite] at hx
  | fin s m e =>
    unfold FormatFloat
    simp only
    split_ifs with h
    · exact wellTrimmed_fmtShortest s ⟨[], 0⟩ (by simp) (by simp) (by simp)
    · obtain ⟨a, b, c⟩ := toDecimalSlice_ok (shortestDecimal (roundTrips m e) m e).1
        (shortestDecimal (roundTrips m e) m e).2
      exact wellTrimmed_fmtShortest s _ a b c

namespace F64

theorem ofRatio_fin_or_inf (s : Bool) (n d : Nat) :
    (∃ m e, ofRatio s n d = fin s m e) ∨ ofRatio s n d = inf s := by
  unfold ofRatio
  simp only
  split_ifs
  · exact Or.inl ⟨_, _, rfl⟩
  · exact Or.inr rfl
  · exact Or.inl ⟨_, _, rfl⟩
  · exact Or.inr rfl
  · exact Or.inl ⟨_, _, rfl⟩

theorem Round_fin_or_inf (s : Bool) (m : Nat) (e : Int) :
    (∃ m' e', Round (fin s m e) = fin s m' e') ∨ Round (fin s m e) = inf s := by
  simp only [Round]
  split_ifs
  · exact Or.inl ⟨_, _, rfl⟩
  · exact ofRatio_fin_or_inf s _ _

end F64

theorem fixedDigits_zero (d : Nat) : ∀ c ∈ fixedDigits d 0, c = '0' := by
  induction d with
  | zero => simp [fixedDigits]
  | succ d ih =>
    intro c hc
    simp only [fixedDigits, Nat.zero_div, Nat.zero_mod, List.mem_append,
      List.mem_singleton] at hc
    rcases hc with hc | hc
    · exact ih c hc
    · rw [hc]; rfl

theorem TrimRight_all_zero (l : List Char) (h : ∀ c ∈ l, c = '0') : TrimRight l ['0'] = [] := by
  unfold TrimRight
  rw [List.rdropWhile_eq_nil_iff]
  intro c hc
  simp [h c hc]

theorem specDecimal_zero (s : Bool) (d : Nat) : specDecimal s 0 d = signChars s ++ ['0'] := by
  unfold specDecimal
  simp only [TrimRight_all_zero _ (fixedDigits_zero d), if_true, Nat.zero_div, List.append_nil]
  rfl

/-- The outcomes of `RoundOrderSize` on a finite value for `1 ≤ szDecimals ≤ 308`: a decimal
rendering carrying the sign of `x`, or an infinity. -/
theorem RoundOrderSize_pos_cases (s : Bool) (m : Nat) (e : Int) (n : Nat)
    (h1 : 1 ≤ n) (h2 : n ≤ 308) :
    (∃ k, RoundOrderSize (F64.fin s m e) (n : Int) = some (specDecimal s k n)) ∨
    RoundOrderSize (F64.fin s m e) (n : Int) = some (if s then "-Inf".toList else "+Inf".toList) := by
  obtain ⟨mP, eP, hP, hPc, hP0⟩ := Pow10_finite n h2
  have hnz : ((n : ℤ) = 0) = False := by
    apply propext; constructor
    · intro h; omega
    · intro h; exact h.elim
  have hs : (s != false) = s := by cases s <;> rfl
  have hinf : ∀ y, y = F64.inf s →
      (match NewFloatText y (n : ℤ) with
        | none => none
        | some str => dropFinalPoint (TrimRight str ['0'])) =
      some (if s then "-Inf".toList else "+Inf".toList) := by
    intro y hy
    subst hy
    cases s <;> simp only [NewFloatText] <;> decide
  have hfin : ∀ m' e', ∃ k,
      (match NewFloatText (F64.fin s m' e') (n : ℤ) with
        | none => none
        | some str => dropFinalPoint (TrimRight str ['0'])) = some (specDecimal s k n) := by
    intro m' e'
    refine ⟨roundHalfEven (m' * scaleNum e' * 10 ^ n) (scaleDen e'), ?_⟩
    simp only [NewFloatText, Int.natCast_nonneg, if_true, Int.toNat_ofNat]
    exact strip_fixedPoint s _ n (by omega)
  have hdiv : ∀ m' e', (∃ m2 e2, F64.div (F64.fin s m' e') (F64.fin false mP eP) = F64.fin s m2 e2)
      ∨ F64.div (F64.fin s m' e') (F64.fin false mP eP) = F64.inf s := by
    intro m' e'
    simp only [F64.div, if_neg hP0, hs]
    exact F64.ofRatio_fin_or_inf s _ _
  have hdivinf : F64.div (F64.inf s) (F64.fin false mP eP) = F64.inf s := by
    simp only [F64.div, hs]
  unfold RoundOrderSize
  simp only [hnz, if_false, hP]
  have hmul : F64.mul (F64.fin s m e) (F64.fin false mP eP) =
      F64.ofRatio s (m * mP * scaleNum (e + eP)) (scaleDen (e + eP)) := by
    simp only [F64.mul, hs]
  rw [hmul]
  rcases F64.ofRatio_fin_or_inf s (m * mP * scaleNum (e + eP)) (scaleDen (e + eP)) with
    ⟨mz, ez, hz⟩ | hz
  · rw [hz]
    rcases F64.Round_fin_or_inf s mz ez with ⟨mr, er, hr⟩ | hr
    · rw [hr]
      rcases hdiv mr er with ⟨m2, e2, hd⟩ | hd
      · rw [hd]; exact Or.inl (hfin m2 e2)
      · exact Or.inr (hinf _ hd)
    · rw [hr, hdivinf]; exact Or.inr (hinf _ rfl)
  · rw [hz]
    have : F64.Round (F64.inf s) = F64.inf s := rfl
    rw [this, hdivinf]; exact Or.inr (hinf _ rfl)

theorem RoundOrderSize_zero (s : Bool) (e : Int) (digits : Int)
    (h0 : 0 ≤ digits) (h1 : digits ≤ 308) :
    RoundOrderSize (F64.fin s 0 e) digits = some (signChars s ++ ['0']) := by
  obtain ⟨n, rfl⟩ : ∃ n : ℕ, digits = (n : ℤ) := ⟨digits.toNat, by omega⟩
  rcases Nat.eq_zero_or_pos n with hn | hn
  · subst hn
    cases s <;> rfl
  · obtain ⟨mP, eP, hP, hPc, hP0⟩ := Pow10_finite n (by omega)
    have hnz : ((n : ℤ) = 0) = False := by
      apply propext; constructor
      · intro h; omega
      · intro h; exact h.elim
    have hs : (s != false) = s := by cases s <;> rfl
    unfold RoundOrderSize
    simp only [hnz, if_false, hP]
    have hmul : F64.mul (F64.fin s 0 e) (F64.fin false mP eP) = F64.fin s 0 (-1074) := by
      simp only [F64.mul, hs, Nat.zero_mul, F64.ofRatio_zero]
    have hround : F64.Round (F64.fin s 0 (-1074)) = F64.fin s 0 (-1074) := by
      simp only [F64.Round]
      rw [if_neg (by norm_num)]
      have : roundHalfUp 0 (scaleDen (-1074)) = 0 := by
        unfold roundHalfUp
        have := scaleDen_pos (-1074)
        rw [Nat.mul_zero, Nat.zero_add]
        exact Nat.div_eq_of_lt (by omega)
      rw [this, F64.ofRatio_zero]
    have hdiv : F64.div (F64.fin s 0 (-1074)) (F64.fin false mP eP) = F64.fin s 0 (-1074) := by
      simp only [F64.div, if_neg hP0, hs, Nat.zero_mul, F64.ofRatio_zero]
    rw [hmul, hround, hdiv]
    simp only [NewFloatText, Int.natCast_nonneg, if_true, Int.toNat_ofNat, Nat.zero_mul]
    have : roundHalfEven 0 (scaleDen (-1074)) = 0 := by
      unfold roundHalfEven; simp
    rw [this, strip_fixedPoint s 0 n hn, specDecimal_zero]

/-- For every finite `x` and `0 ≤ digits ≤ 308`, `RoundOrderSize` returns a well-trimmed
string, and a zero yields `"0"` behind its sign. -/
theorem roundOrderSize_trimmed (x : F64) (digits : Int) (hx : x.isFinite = true)
    (h0 : 0 ≤ digits) (h1 : digits ≤ 308) :
    (∃ str, RoundOrderSize x digits = some str ∧ WellTrimmed str) ∧
    (∀ s e, x = F64.fin s 0 e → RoundOrderSize x digits = some (signChars s ++ ['0'])) := by
  refine ⟨?_, fun s e hxe => by rw [hxe]; exact RoundOrderSize_zero s e digits h0 h1⟩
  obtain ⟨n, rfl⟩ : ∃ n : ℕ, digits = (n : ℤ) := ⟨digits.toNat, by omega⟩
  rcases Nat.eq_zero_or_pos n with hn | hn
  · subst hn
    refine ⟨FormatFloat x, by simp [RoundOrderSize], wellTrimmed_FormatFloat x hx⟩
  · cases x with
    | inf s => simp [F64.isFinite] at hx
    | nan => simp [F64.isFinite] at hx
    | fin s m e =>
      rcases RoundOrderSize_pos_cases s m e n hn (by omega) with ⟨k, hk⟩ | hk
      · exact ⟨_, hk, wellTrimmed_specDecimal s k n⟩
      · refine ⟨_, hk, ?_⟩
        cases s <;> simp only [WellTrimmed] <;> decide

/-! ### Reading decimal strings back -/

theorem Split_of_not_mem (l : List Char) (sep : Char) (h : sep ∉ l) : Split l sep = [l] := by
  induction l with
  | nil => rfl
  | cons c cs ih =>
    have h1 : c ≠ sep := fun hc => h (by rw [hc]; exact List.mem_cons_self _ _)
    have h2 : sep ∉ cs := fun hc => h (List.mem_cons_of_mem _ hc)
    simp only [Split, if_neg h1, ih h2]

theorem Split_ne_nil (l : List Char) (sep : Char) : Split l sep ≠ [] := by
  induction l with
  | nil => simp [Split]
  | cons c cs ih =>
    simp only [Split]
    split_ifs
    · simp
    · split <;> simp

theorem Split_append_sep (A B : List Char) (sep : Char) (h : sep ∉ A) :
    Split (A ++ sep :: B) sep = A :: Split B sep := by
  induction A with
  | nil => simp [Split]
  | cons c cs ih =>
    have h1 : c ≠ sep := fun hc => h (by rw [hc]; exact List.mem_cons_self _ _)
    have h2 : sep ∉ cs := fun hc => h (List.mem_cons_of_mem _ hc)
    have := ih h2
    rw [List.cons_append]
    simp only [Split, if_neg h1]
    rw [this]

theorem TrimRight_decomp (l : List Char) :
    ∃ j, l = TrimRight l ['0'] ++ List.replicate j '0' := by
  unfold TrimRight
  induction l using List.reverseRecOn with
  | nil => exact ⟨0, by simp⟩
  | append_singleton l c ih =>
    obtain ⟨j, hj⟩ := ih
    rw [List.rdropWhile_concat]
    split_ifs with h
    · have hc : c = '0' := by simpa using h
      refine ⟨j + 1, ?_⟩
      rw [List.replicate_succ', ← List.append_assoc, ← hj, hc]
    · exact ⟨0, by simp⟩

theorem all_isDigit_of_forall (l : List Char) (h : ∀ c ∈ l, isDigit c = true) :
    l.all isDigit = true := by
  rw [List.all_eq_true]; exact h

theorem not_point_mem_digits (l : List Char) (h : ∀ c ∈ l, isDigit c = true) : '.' ∉ l :=
  fun hc => isDigit_ne_point _ (h _ hc) rfl

/-- Reading a sign-free decimal string: integer digits, and possibly a point and
fractional digits. -/
theorem parseUnsigned_digits (s : Bool) (I : List Char) (hI : ∀ c ∈ I, isDigit c = true)
    (hne : I ≠ []) : parseUnsigned s I = some (F64.ofRatio s (digitsValue I) 1) := by
  unfold parseUnsigned
  have h1 : I ≠ "Inf".toList := by
    intro h
    have := hI 'I' (by rw [h]; decide)
    revert this; decide
  rw [if_neg h1, Split_of_not_mem _ _ (not_point_mem_digits I hI)]
  simp only [all_isDigit_of_forall I hI, and_true, if_pos hne]

theorem parseUnsigned_fraction (s : Bool) (I M : List Char) (hI : ∀ c ∈ I, isDigit c = true)
    (hM : ∀ c ∈ M, isDigit c = true) (hne : I ≠ []) :
    parseUnsigned s (I ++ '.' :: M) =
      some (F64.ofRatio s (digitsValue (I ++ M)) (10 ^ M.length)) := by
  unfold parseUnsigned
  have h1 : I ++ '.' :: M ≠ "Inf".toList := by
    intro h
    have : '.' ∈ "Inf".toList := by rw [← h]; simp
    revert this; decide
  rw [if_neg h1, Split_append_sep _ _ _ (not_point_mem_digits I hI),
    Split_of_not_mem _ _ (not_point_mem_digits M hM)]
  simp only [all_isDigit_of_forall I hI, all_isDigit_of_forall M hM, and_true]
  rw [if_pos (Or.inl hne)]

theorem ParseFloat_signed (s : Bool) (R : List Char) (hne : R ≠ [])
    (hd : isDigit (R.head hne) = true) :
    ParseFloat (signChars s ++ R) = parseUnsigned s R := by
  cases s with
  | true => simp [signChars, ParseFloat]
  | false =>
    obtain ⟨c, cs, rfl⟩ := List.exists_cons_of_ne_nil hne
    simp only [List.head_cons] at hd
    simp only [signChars, Bool.false_eq_true, if_false, List.nil_append]
    unfold ParseFloat
    split
    · rename_i h
      rw [List.cons.injEq] at h
      rw [h.1] at hd; exact absurd hd (by decide)
    · rename_i h
      rw [List.cons.injEq] at h
      rw [h.1] at hd; exact absurd hd (by decide)
    · rfl

theorem ParseFloat_specDecimal (s : Bool) (k d : Nat) :
    ParseFloat (specDecimal s k d) = some (F64.ofRatio s k (10 ^ d)) := by
  unfold specDecimal
  simp only
  have hI := natDigits_isDigit (k / 10 ^ d)
  have hIne := natDigits_ne_nil (k / 10 ^ d)
  have hpos : 0 < 10 ^ d := by positivity
  obtain ⟨j, hj⟩ := TrimRight_decomp (fixedDigits d k)
  have hval : k % 10 ^ d = digitsValue (TrimRight (fixedDigits d k) ['0']) * 10 ^ j := by
    rw [← digitsValue_fixedDigits]
    conv_lhs => rw [hj]
    rw [digitsValue_append, digitsValue_replicate_zero, List.length_replicate, Nat.add_zero]
  have hlen : d = (TrimRight (fixedDigits d k) ['0']).length + j := by
    have := congrArg List.length hj
    rw [fixedDigits_length, List.length_append, List.length_replicate] at this
    exact this
  have hk := Nat.div_add_mod k (10 ^ d)
  rw [List.append_assoc]
  split_ifs with hf
  · rw [List.append_nil, ParseFloat_signed s _ hIne (hI _ (List.head_mem hIne)),
      parseUnsigned_digits s _ hI hIne, digitsValue_natDigits]
    congr 1
    apply F64.ofRatio_congr _ _ _ _ _ (by norm_num) hpos
    rw [hf] at hval
    simp only [digitsValue, List.foldl_nil, Nat.zero_mul] at hval
    rw [hval] at hk
    rw [Nat.mul_one, Nat.mul_comm]
    omega
  · have hM : ∀ c ∈ TrimRight (fixedDigits d k) ['0'], isDigit c = true :=
      fun c hc => fixedDigits_isDigit d k c (TrimRight_subset _ _ c hc)
    have hne2 : natDigits (k / 10 ^ d) ++ '.' :: TrimRight (fixedDigits d k) ['0'] ≠ [] := by simp
    have hhead : (natDigits (k / 10 ^ d) ++ '.' :: TrimRight (fixedDigits d k) ['0']).head hne2 =
        (natDigits (k / 10 ^ d)).head hIne := by
      rw [List.head_append_of_ne_nil]
    rw [ParseFloat_signed s _ hne2 (by rw [hhead]; exact hI _ (List.head_mem hIne)),
      parseUnsigned_fraction s _ _ hI hM hIne, digitsValue_append, digitsValue_natDigits]
    congr 1
    apply F64.ofRatio_congr _ _ _ _ _ (by positivity) hpos
    set T := TrimRight (fixedDigits d k) ['0'] with hT
    have e1 : 10 ^ d = 10 ^ T.length * 10 ^ j := by rw [← pow_add, ← hlen]
    rw [e1]
    have e2 : k = 10 ^ T.length * 10 ^ j * (k / (10 ^ T.length * 10 ^ j)) + digitsValue T * 10 ^ j := by
      rw [← e1, ← hval]; exact hk.symm
    conv_rhs => rw [e2]
    ring

/-- Bound on the rounded product of a finite float and an exact power of ten. -/
theorem mul_pow10_small (s : Bool) (m : Nat) (e : Int) (n : Nat) (hn : n ≤ 22)
    (hb : (m : ℚ) * (2 : ℚ) ^ e * 10 ^ n ≤ 2 ^ 51) :
    ∃ mz ez, F64.mul (F64.fin s m e) (Pow10 (n : ℤ)) = F64.fin s mz ez ∧
      F64.Canon (F64.fin s mz ez) ∧
      |(mz : ℚ) * (2 : ℚ) ^ ez - (m : ℚ) * (2 : ℚ) ^ e * 10 ^ n| ≤ 1 / 4 := by
  obtain ⟨mP, eP, hP, hPc, hP0, hPv⟩ := Pow10_exact n hn
  have hv := F64.value_of_exact mP eP (10 ^ n) hPv
  have hval : ((m * 10 ^ n * scaleNum e : ℕ) : ℚ) / (scaleDen e : ℚ) =
      (m : ℚ) * (2 : ℚ) ^ e * 10 ^ n := by
    rw [← F64.ratio_value]; push_cast; ring
  have hq : ((m * 10 ^ n * scaleNum e : ℕ) : ℚ) / (scaleDen e : ℚ) ≤ (2 : ℚ) ^ (51 : ℤ) := by
    rw [hval]
    calc (m : ℚ) * (2 : ℚ) ^ e * 10 ^ n ≤ 2 ^ 51 := hb
      _ = (2 : ℚ) ^ (51 : ℤ) := by norm_num
  obtain ⟨mz, ez, hz, hzc, hzerr⟩ :=
    F64.ofRatio_small s (m * 10 ^ n * scaleNum e) (scaleDen e) (scaleDen_pos e) hq
  rw [hval] at hzerr
  exact ⟨mz, ez, by rw [hP, F64.mul_fin s m e mP eP (10 ^ n) hv, hz], hzc, hzerr⟩

/-- Formatting the float nearest to `k / 10^n` again gives the rendering of `k / 10^n`. -/
theorem RoundOrderSize_ofRatio (s : Bool) (k n : Nat) (hk : k ≤ 2 ^ 50) (h1 : 1 ≤ n)
    (hn : n ≤ 22) :
    RoundOrderSize (F64.ofRatio s k (10 ^ n)) (n : ℤ) = some (specDecimal s k n) := by
  obtain ⟨m, e, hy, hyc, hnear⟩ := ofRatio_pow10_near s k n (by omega) hn
  have hk50 : (k : ℚ) ≤ 2 ^ 50 := by exact_mod_cast hk
  have hk8 : (k : ℚ) * (2 : ℚ) ^ (-53 : ℤ) ≤ 1 / 8 := by
    calc (k : ℚ) * (2 : ℚ) ^ (-53 : ℤ) ≤ 2 ^ 50 * (2 : ℚ) ^ (-53 : ℤ) :=
          mul_le_mul_of_nonneg_right hk50 (two_zpow_pos _).le
      _ = 1 / 8 := by norm_num
  have hn' := abs_le.mp (le_trans hnear hk8)
  push_cast at hn'
  have hb : (m : ℚ) * (2 : ℚ) ^ e * 10 ^ n ≤ 2 ^ 51 := by
    have : (2 : ℚ) ^ 50 + 1 / 8 ≤ 2 ^ 51 := by norm_num
    linarith [hn'.2]
  have hC1 := (roundOrderSize_decimal (F64.fin s m e) (n : ℤ) rfl (by omega) (by omega)
    (by simpa [F64.absRat] using hb)).1
  rw [hy, hC1]
  simp only [F64.signBit, Int.toNat_ofNat]
  obtain ⟨mz, ez, hz, hzc, hzerr⟩ := mul_pow10_small s m e n hn hb
  rw [hz]
  congr 2
  simp only [F64.roundAwayNat]
  apply roundHalfUp_eq_of_near _ _ _ (scaleDen_pos ez)
  rw [F64.ratio_value]
  have hz' := abs_le.mp hzerr
  rw [abs_lt]
  constructor <;> linarith [hz'.1, hz'.2, hn'.1, hn'.2]

/-! ### The shortest digits round-trip -/

theorem F64.ofRatio_sign (s : Bool) (n d m : Nat) (e : Int)
    (h : F64.ofRatio false n d = F64.fin false m e) : F64.ofRatio s n d = F64.fin s m e := by
  unfold F64.ofRatio at h ⊢
  simp only at h ⊢
  split_ifs at h ⊢
  all_goals (injection h with h1 h2 h3; subst h2; subst h3; rfl)

theorem shortestSearch_ok (ok : Nat → Int → Bool) (n d : Nat) (exact : Nat × Int)
    (hex : ok exact.1 exact.2 = true) : ∀ fuel s,
    ok (shortestSearch ok n d exact fuel s).1 (shortestSearch ok n d exact fuel s).2 = true := by
  intro fuel
  induction fuel with
  | zero => intro s; exact hex
  | succ f ih =>
    intro s
    simp only [shortestSearch]
    split_ifs with h1 h2 h3 h4 h5 h6
    all_goals first
      | exact ih _
      | (simp only [Bool.and_eq_true] at h1; first | exact h1.1 | exact h1.2)
      | assumption

theorem roundTrips_exact (m : Nat) (e : Int) (hc : F64.Canon (F64.fin false m e)) :
    roundTrips m e (exactDecimal m e).1 (exactDecimal m e).2 = true := by
  unfold roundTrips exactDecimal
  rw [decide_eq_true_eq]
  split_ifs with h
  · apply F64.ofRatio_eq_of_value false _ _ m e (tenDen_pos _) hc
    simp only [tenNum, tenDen]
    obtain ⟨k, rfl⟩ : ∃ k : ℕ, e = (k : ℤ) := ⟨e.toNat, by omega⟩
    simp
  · apply F64.ofRatio_eq_of_value false _ _ m e (tenDen_pos _) hc
    obtain ⟨k, rfl⟩ : ∃ k : ℕ, e = -((k : ℤ)) := ⟨(-e).toNat, by omega⟩
    simp only [tenNum, tenDen, neg_neg, Int.toNat_ofNat]
    have : (-(k : ℤ)).toNat = 0 := by omega
    rw [this, zpow_neg, zpow_natCast]
    push_cast
    have h10 : (10 : ℚ) ^ k = 2 ^ k * 5 ^ k := by rw [← mul_pow]; norm_num
    rw [h10]
    field_simp
    ring

theorem shortestDecimal_roundTrips (m : Nat) (e : Int) (hc : F64.Canon (F64.fin false m e)) :
    roundTrips m e (shortestDecimal (roundTrips m e) m e).1
      (shortestDecimal (roundTrips m e) m e).2 = true :=
  shortestSearch_ok _ _ _ _ (roundTrips_exact m e hc) _ _

theorem fmtFrac_eq (ds : DecimalSlice) (prec : Nat)
    (hprec : (prec : ℤ) = (ds.d.length : ℤ) - ds.dp) :
    fmtFrac ds prec = List.replicate (-ds.dp).toNat '0' ++ ds.d.drop ds.dp.toNat := by
  apply List.ext_getElem
  · rw [fmtFrac_length, List.length_append, List.length_replicate, List.length_drop]
    omega
  · intro i h1 h2
    rw [fmtFrac_length] at h1
    unfold fmtFrac
    rw [List.getElem_map, List.getElem_range]
    unfold DecimalSlice.at
    by_cases hi : i < (-ds.dp).toNat
    · rw [List.getElem_append_left (by rw [List.length_replicate]; exact hi),
        List.getElem_replicate, if_neg (by omega)]
    · rw [List.getElem_append_right (by rw [List.length_replicate]; omega), List.getElem_drop,
        if_pos (by omega), List.getD_eq_getElem _ _ (by omega)]
      congr 1
      rw [List.length_replicate]
      omega

theorem digitsValue_leading_zeros (j : Nat) (l : List Char) :
    digitsValue (List.replicate j '0' ++ l) = digitsValue l := by
  rw [digitsValue_append, digitsValue_replicate_zero]; simp

/-- Reading back the shortest layout of the digit buffer `d`, `dp`: the value is
`digitsValue d * 10^(dp - length d)`, stated for a buffer that is `c * 10^s` with
`c = digitsValue d * 10^tz`. -/
theorem ParseFloat_fmtShortest_aux (sg : Bool) (d : List Char) (tz : Nat) (s : Int) (c : Nat)
    (hd : ∀ ch ∈ d, isDigit ch = true) (hne : d ≠ [])
    (hc : c = digitsValue d * 10 ^ tz) :
    ParseFloat (fmtShortest sg ⟨d, ((d.length + tz : ℕ) : ℤ) + s⟩) =
      some (F64.ofRatio sg (c * tenNum s) (tenDen s)) := by
  have hnd : 0 < d.length := List.length_pos.mpr hne
  set ds : DecimalSlice := ⟨d, ((d.length + tz : ℕ) : ℤ) + s⟩ with hds
  have hdd : ds.d = d := rfl
  have hdp : ds.dp = ((d.length + tz : ℕ) : ℤ) + s := rfl
  have hI := fmtInt_isDigit ds (by rw [hdd]; exact hd)
  have hIne := fmtInt_ne_nil ds
  unfold fmtShortest fmtF
  rw [List.append_assoc]
  have hhead : ∀ X : List Char, ∀ h : fmtInt ds ++ X ≠ [],
      isDigit ((fmtInt ds ++ X).head h) = true := by
    intro X h
    rw [List.head_append_of_ne_nil hIne]
    exact hI _ (List.head_mem hIne)
  split_ifs with hp
  · -- a fractional part
    have hM := fmtFrac_isDigit ds (by rw [hdd]; exact hd) (((ds.d.length : ℤ) - ds.dp).toNat)
    rw [ParseFloat_signed sg _ (by simp [hIne]) (hhead _ _),
      parseUnsigned_fraction sg _ _ hI hM hIne, fmtFrac_length, digitsValue_append,
      fmtFrac_length, fmtFrac_eq ds _ (by omega), digitsValue_leading_zeros]
    congr 1
    have hs : s < 0 := by rw [hdd, hdp] at hp; omega
    obtain ⟨k, rfl⟩ : ∃ k : ℕ, s = -((k : ℤ)) := ⟨(-s).toNat, by omega⟩
    have hk : k = tz + ((ds.d.length : ℤ) - ds.dp).toNat := by rw [hdd, hdp] at hp ⊢; omega
    apply F64.ofRatio_congr _ _ _ _ _ (by positivity) (tenDen_pos _)
    have e1 : tenNum (-(k : ℤ)) = 1 := by
      unfold tenNum
      have : (-(k : ℤ)).toNat = 0 := by omega
      rw [this]; rfl
    have e2 : tenDen (-(k : ℤ)) = 10 ^ k := by
      unfold tenDen
      simp
    rw [e1, e2, Nat.mul_one, hc]
    set p := ((ds.d.length : ℤ) - ds.dp).toNat with hpdef
    have hnum : digitsValue (fmtInt ds) * 10 ^ p + digitsValue (List.drop ds.dp.toNat ds.d) =
        digitsValue d := by
      unfold fmtInt
      split_ifs with h0
      · have hlen : (List.drop ds.dp.toNat ds.d).length = p := by
          rw [List.length_drop, hdd]; rw [hdd, hdp] at hpdef; rw [hdp]; omega
        have hz : ds.dp.toNat - ds.d.length = 0 := by
          have := hpdef
          rw [hdd, hdp] at this ⊢
          omega
        rw [hz, List.replicate_zero, List.append_nil, ← hlen, ← digitsValue_append,
          List.take_append_drop]
      · have hz : ds.dp.toNat = 0 := by omega
        rw [hz, List.drop_zero]
        simp [digitsValue]
    rw [hnum, hk, pow_add]
    ring
  · -- an integer
    rw [List.append_nil, ParseFloat_signed sg _ hIne (by
      have := hhead [] (by simp [hIne])
      simpa using this), parseUnsigned_digits sg _ hI hIne]
    congr 1
    have hge : (d.length : ℤ) ≤ ds.dp := by
      rw [hdd] at hp
      omega
    have hpos : 0 < ds.dp := by omega
    have hI2 : fmtInt ds = d ++ List.replicate (ds.dp.toNat - d.length) '0' := by
      unfold fmtInt
      rw [if_pos hpos, hdd, List.take_of_length_le (by omega)]
    rw [hI2, digitsValue_append, digitsValue_replicate_zero, List.length_replicate, Nat.add_zero]
    apply F64.ofRatio_congr _ _ _ _ _ (by norm_num) (tenDen_pos _)
    rw [hc, Nat.mul_one]
    rcases le_total 0 s with h | h
    · obtain ⟨k, rfl⟩ : ∃ k : ℕ, s = (k : ℤ) := ⟨s.toNat, by omega⟩
      have e1 : tenNum (k : ℤ) = 10 ^ k := by unfold tenNum; simp
      have e2 : tenDen (k : ℤ) = 1 := by
        unfold tenDen
        have : (-(k : ℤ)).toNat = 0 := by omega
        rw [this]; rfl
      have e3 : ds.dp.toNat - d.length = tz + k := by rw [hdp]; omega
      rw [e1, e2, e3, pow_add]
      ring
    · obtain ⟨k, rfl⟩ : ∃ k : ℕ, s = -((k : ℤ)) := ⟨(-s).toNat, by omega⟩
      have e1 : tenNum (-(k : ℤ)) = 1 := by
        unfold tenNum
        have : (-(k : ℤ)).toNat = 0 := by omega
        rw [this]; rfl
      have e2 : tenDen (-(k : ℤ)) = 10 ^ k := by
        unfold tenDen
        simp
      have e3 : tz = (ds.dp.toNat - d.length) + k := by rw [hdp] at hge ⊢; omega
      rw [e1, e2, e3, pow_add]
      ring

theorem ParseFloat_fmtShortest (sg : Bool) (c : Nat) (s : Int) (hc : c ≠ 0) :
    ParseFloat (fmtShortest sg (toDecimalSlice c s)) =
      some (F64.ofRatio sg (c * tenNum s) (tenDen s)) := by
  obtain ⟨tz, htz⟩ := TrimRight_decomp (natDigits c)
  have hne := TrimRight_natDigits_ne_nil c hc
  have hd : ∀ ch ∈ TrimRight (natDigits c) ['0'], isDigit ch = true :=
    fun ch hch => natDigits_isDigit c ch (TrimRight_subset _ _ ch hch)
  have hval : c = digitsValue (TrimRight (natDigits c) ['0']) * 10 ^ tz := by
    conv_lhs => rw [← digitsValue_natDigits c, htz]
    rw [digitsValue_append, digitsValue_replicate_zero, List.length_replicate, Nat.add_zero]
  have hlen : numDigits c = (TrimRight (natDigits c) ['0']).length + tz := by
    rw [← natDigits_length]
    conv_lhs => rw [htz]
    rw [List.length_append, List.length_replicate]
  have := ParseFloat_fmtShortest_aux sg _ tz s c hd hne hval
  unfold toDecimalSlice
  rw [if_neg hc, hlen]
  exact this

/-- `ParseFloat` inverts `FormatFloat` on every canonical finite float. -/
theorem ParseFloat_FormatFloat (x : F64) (hx : x.isFinite = true) (hc : F64.Canon x) :
    ParseFloat (FormatFloat x) = some x := by
  cases x with
  | inf s => simp [F64.isFinite] at hx
  | nan => simp [F64.isFinite] at hx
  | fin sg m e =>
    unfold FormatFloat
    simp only
    split_ifs with h0
    · subst h0
      obtain ⟨_, _, _, h4⟩ := hc
      have he : e = -1074 := by
        rcases h4 with h4 | h4
        · exact h4
        · norm_num at h4
      subst he
      cases sg <;> rfl
    · have hcf : F64.Canon (F64.fin false m e) := hc
      have hrt := shortestDecimal_roundTrips m e hcf
      set cs := shortestDecimal (roundTrips m e) m e with hcs
      unfold roundTrips at hrt
      rw [decide_eq_true_eq] at hrt
      have hc0 : cs.1 ≠ 0 := by
        intro h
        rw [h, Nat.zero_mul, F64.ofRatio_zero] at hrt
        injection hrt with _ h2 _
        exact h0 h2.symm
      rw [ParseFloat_fmtShortest sg cs.1 cs.2 hc0, F64.ofRatio_sign sg _ _ m e hrt]

/-- C7 (amended): for a canonical finite `x`, formatting is idempotent through parsing when
`digits = 0`, and when `1 ≤ digits ≤ 22` with `|x| * 10^digits ≤ 2^50`: the string
`RoundOrderSize(x, digits)` parses to a float that `RoundOrderSize` formats to the same
string. -/
theorem RoundOrderSize_idempotent (x : F64) (digits : Int) (hx : x.isFinite = true)
    (hc : F64.Canon x)
    (h : digits = 0 ∨ (1 ≤ digits ∧ digits ≤ 22 ∧ x.absRat * 10 ^ digits.toNat ≤ 2 ^ 50)) :
    ∃ str y, RoundOrderSize x digits = some str ∧ ParseFloat str = some y ∧
      RoundOrderSize y digits = some str := by
  rcases h with h | ⟨h1, h2, hb⟩
  · subst h
    exact ⟨FormatFloat x, x, by simp [RoundOrderSize], ParseFloat_FormatFloat x hx hc,
      by simp [RoundOrderSize]⟩
  · obtain ⟨n, rfl⟩ : ∃ n : ℕ, digits = (n : ℤ) := ⟨digits.toNat, by omega⟩
    simp only [Int.toNat_ofNat] at hb
    cases x with
    | inf s => simp [F64.isFinite] at hx
    | nan => simp [F64.isFinite] at hx
    | fin s m e =>
      simp only [F64.absRat] at hb
      have hb51 : (m : ℚ) * (2 : ℚ) ^ e * 10 ^ n ≤ 2 ^ 51 := by
        have : (2 : ℚ) ^ 50 ≤ 2 ^ 51 := by norm_num
        linarith
      have hC1 := (roundOrderSize_decimal (F64.fin s m e) (n : ℤ) rfl h1 h2
        (by simpa [F64.absRat] using hb51)).1
      simp only [F64.signBit, Int.toNat_ofNat] at hC1
      obtain ⟨mz, ez, hz, hzc, hzerr⟩ := mul_pow10_small s m e n (by omega) hb51
      rw [hz] at hC1
      have hk : F64.roundAwayNat (F64.fin s mz ez) ≤ 2 ^ 50 := by
        apply F64.roundAwayNat_le
        have := (abs_le.mp hzerr).2
        push_cast
        linarith
      exact ⟨_, _, hC1, ParseFloat_specDecimal s _ n,
        RoundOrderSize_ofRatio s _ n hk (by omega) (by omega)⟩

/-- C7 (counterexample): `RoundOrderSize(4446658668.6, 6)` is `"4446658668.600001"`; that
string parses to a float which `RoundOrderSize(., 6)` formats as `"4446658668.600002"`. -/
theorem RoundOrderSize_not_idempotent :
    RoundOrderSize (F64.lit 44466586686 1) 6 = some "4446658668.600001".toList ∧
    ParseFloat "4446658668.600001".toList = some (F64.lit 4446658668600001 6) ∧
    RoundOrderSize (F64.lit 4446658668600001 6) 6 = some "4446658668.600002".toList := by
  decide!

/-- The float64 nearest to `1.23456`. -/
theorem lit_123456 : F64.lit 123456 5 = F64.fin false 5559963955966520 (-52) := by
  decide!

/-- C7 (witness): the size `1.23456` with three digits. -/
theorem RoundOrderSize_idempotent_witness :
    ∃ str y, RoundOrderSize (F64.lit 123456 5) 3 = some str ∧ ParseFloat str = some y ∧
      RoundOrderSize y 3 = some str :=
  RoundOrderSize_idempotent (F64.lit 123456 5) 3 (by decide!) (by decide!)
    (Or.inr ⟨by decide, by decide, by
      have h3 : Int.toNat 3 = 3 := rfl
      rw [lit_123456, h3]
      simp only [F64.absRat]
      norm_num⟩)

/-! ### Integers -/

theorem numDigits_unique (n L : Nat) (h1 : n < 10 ^ L) (h2 : 10 ^ (L - 1) ≤ n) (hL : 0 < L) :
    numDigits n = L := by
  obtain ⟨a, b⟩ := numDigits_spec n
  have hp := numDigits_pos n
  have hn : n ≠ 0 := by
    have : 0 < 10 ^ (L - 1) := by positivity
    omega
  have b' := b hn
  have c1 : 10 ^ (L - 1) < 10 ^ numDigits n := lt_of_le_of_lt h2 a
  have c2 : 10 ^ (numDigits n - 1) < 10 ^ L := lt_of_le_of_lt b' h1
  rw [Nat.pow_lt_pow_iff_right (by norm_num)] at c1 c2
  omega

theorem numDigits_mul_ten (k : Nat) (hk : k ≠ 0) : numDigits (k * 10) = numDigits k + 1 := by
  obtain ⟨a, b⟩ := numDigits_spec k
  have hp := numDigits_pos k
  apply numDigits_unique
  · rw [pow_succ]; omega
  · have := b hk
    have e : numDigits k + 1 - 1 = (numDigits k - 1) + 1 := by omega
    rw [e, pow_succ]; omega
  · omega

theorem natDigits_mul_ten (k : Nat) (hk : k ≠ 0) : natDigits (k * 10) = natDigits k ++ ['0'] := by
  unfold natDigits
  rw [numDigits_mul_ten k hk, fixedDigits, Nat.mul_div_cancel _ (by norm_num : 0 < 10),
    Nat.mul_mod_left]
  rfl

theorem natDigits_mul_pow (k t : Nat) (hk : k ≠ 0) :
    natDigits (k * 10 ^ t) = natDigits k ++ List.replicate t '0' := by
  induction t with
  | zero => simp
  | succ t ih =>
    rw [pow_succ, ← Nat.mul_assoc, natDigits_mul_ten _ (by positivity), ih,
      List.replicate_succ', List.append_assoc]

/-- The shortest layout of an integer decimal `c * 10^t` is the digit string of the integer. -/
theorem fmtShortest_integer (c t : Nat) (hc : c ≠ 0) :
    fmtShortest false (toDecimalSlice c (t : ℤ)) = natDigits (c * 10 ^ t) := by
  obtain ⟨tz, htz⟩ := TrimRight_decomp (natDigits c)
  have hlen : numDigits c = (TrimRight (natDigits c) ['0']).length + tz := by
    rw [← natDigits_length]
    conv_lhs => rw [htz]
    rw [List.length_append, List.length_replicate]
  have hp := numDigits_pos c
  rw [natDigits_mul_pow c t hc]
  unfold fmtShortest fmtF toDecimalSlice
  rw [if_neg hc]
  simp only
  have h0 : ((((TrimRight (natDigits c) ['0']).length : ℤ) - ((numDigits c : ℤ) + (t : ℤ))).toNat) = 0 := by
    omega
  rw [h0]
  simp only [lt_irrefl, if_false, List.append_nil, signChars, Bool.false_eq_true,
    List.nil_append]
  unfold fmtInt
  simp only
  rw [if_pos (by omega), List.take_of_length_le (by omega)]
  have e : ((numDigits c : ℤ) + (t : ℤ)).toNat - (TrimRight (natDigits c) ['0']).length = tz + t := by
    omega
  rw [e, List.replicate_add, ← List.append_assoc, ← htz]

/-- What the search for the shortest decimal returns on an integer value `n = n' / d'`, when
every accepted candidate at an exponent `0 ≤ s ≤ S` is exactly `n` and `n` itself is
accepted. -/
theorem shortestSearch_integer (ok : Nat → Int → Bool) (n' d' n S : Nat) (exact : Nat × Int)
    (H1 : ∀ c (s : Nat), s ≤ S → c ≤ n' * tenDen (s : ℤ) / (d' * tenNum (s : ℤ)) + 1 →
      ok c (s : ℤ) = true → c * 10 ^ s = n)
    (H2 : ok (n' * tenDen 0 / (d' * tenNum 0)) 0 = true) :
    ∀ fuel (s : Nat), s < fuel → s ≤ S →
      ∃ c t : Nat, shortestSearch ok n' d' exact fuel (s : ℤ) = (c, (t : ℤ)) ∧ c * 10 ^ t = n := by
  intro fuel
  induction fuel with
  | zero => intro s h; omega
  | succ f ih =>
    intro s hs hS
    simp only [shortestSearch]
    split_ifs with h1 h2 h3 h4 h5 h6
    · simp only [Bool.and_eq_true] at h1
      exact ⟨_, s, rfl, H1 _ s hS (by omega) h1.1⟩
    · simp only [Bool.and_eq_true] at h1
      exact ⟨_, s, rfl, H1 _ s hS le_rfl h1.2⟩
    · simp only [Bool.and_eq_true] at h1
      exact ⟨_, s, rfl, H1 _ s hS (by omega) h1.1⟩
    · simp only [Bool.and_eq_true] at h1
      exact ⟨_, s, rfl, H1 _ s hS le_rfl h1.2⟩
    · exact ⟨_, s, rfl, H1 _ s hS (by omega) h5⟩
    · exact ⟨_, s, rfl, H1 _ s hS le_rfl h6⟩
    · rcases Nat.eq_zero_or_pos s with h0 | h0
      · subst h0
        exact absurd H2 (by simpa using h5)
      · have : ((s : ℤ) - 1) = ((s - 1 : ℕ) : ℤ) := by omega
        rw [this]
        exact ih (s - 1) (by omega) (by omega)

theorem tenNum_natCast (s : Nat) : tenNum (s : ℤ) = 10 ^ s := by
  unfold tenNum; simp

theorem tenDen_natCast (s : Nat) : tenDen (s : ℤ) = 1 := by
  unfold tenDen
  have : (-(s : ℤ)).toNat = 0 := by omega
  rw [this]; rfl

/-- `FormatFloat` writes a positive integer below `2^49` as its digit string. -/
theorem FormatFloat_integer (m : Nat) (e : Int) (n : Nat)
    (hc : F64.Canon (F64.fin false m e)) (hv : (m : ℚ) * (2 : ℚ) ^ e = (n : ℚ))
    (hn : 0 < n) (hn' : n < 2 ^ 49) : FormatFloat (F64.fin false m e) = natDigits n := by
  have hm : m ≠ 0 := by
    rintro rfl
    have h0 : (n : ℚ) = 0 := by rw [← hv]; simp
    have : n = 0 := by exact_mod_cast h0
    omega
  have hd' : 0 < scaleDen e := scaleDen_pos e
  have hnd : m * scaleNum e = n * scaleDen e := by
    have h2 : (0 : ℚ) < scaleDen e := by exact_mod_cast hd'
    have := F64.ratio_value m e
    rw [hv, div_eq_iff h2.ne'] at this
    exact_mod_cast this
  have hdiv : m * scaleNum e / scaleDen e = n := by
    rw [hnd, Nat.mul_div_cancel _ hd']
  obtain ⟨hL1, hL2⟩ := numDigits_spec n
  have hLpos := numDigits_pos n
  have h10 : 10 ^ numDigits n ≤ 10 * n := by
    have := hL2 (by omega)
    have e1 : numDigits n = (numDigits n - 1) + 1 := by omega
    rw [e1, pow_succ]; omega
  have H1 : ∀ c (s : Nat), s ≤ numDigits n →
      c ≤ m * scaleNum e * tenDen (s : ℤ) / (scaleDen e * tenNum (s : ℤ)) + 1 →
      roundTrips m e c (s : ℤ) = true → c * 10 ^ s = n := by
    intro c s hs hcb hok
    unfold roundTrips at hok
    rw [decide_eq_true_eq, tenNum_natCast, tenDen_natCast] at hok
    rw [tenNum_natCast, tenDen_natCast, Nat.mul_one, hnd, Nat.mul_comm (scaleDen e) (10 ^ s),
      Nat.mul_div_mul_right _ _ hd'] at hcb
    have hs10 : 10 ^ s ≤ 10 ^ numDigits n := Nat.pow_le_pow_right (by norm_num) hs
    have hcs : c * 10 ^ s ≤ n + 10 ^ s := by
      calc c * 10 ^ s ≤ (n / 10 ^ s + 1) * 10 ^ s := Nat.mul_le_mul_right _ hcb
        _ = n / 10 ^ s * 10 ^ s + 10 ^ s := by ring
        _ ≤ n + 10 ^ s := Nat.add_le_add_right (Nat.div_mul_le_self n _) _
    have hK : c * 10 ^ s < 2 ^ 53 := by
      have : (11 : ℕ) * 2 ^ 49 ≤ 2 ^ 53 := by norm_num
      omega
    obtain ⟨m2, e2, h1, h2, h3⟩ :=
      F64.ofRatio_nat false (c * 10 ^ s) 1 (by norm_num) (c * 10 ^ s) hK (by ring)
    rw [h1] at hok
    injection hok with _ hm2 he2
    subst hm2; subst he2
    rw [hv] at h3
    exact_mod_cast h3.symm
  have H2 : roundTrips m e (m * scaleNum e * tenDen 0 / (scaleDen e * tenNum 0)) 0 = true := by
    have e1 : tenDen 0 = 1 := rfl
    have e2 : tenNum 0 = 1 := rfl
    rw [e1, e2, Nat.mul_one, Nat.mul_one, hdiv]
    unfold roundTrips
    rw [decide_eq_true_eq, e1, e2, Nat.mul_one]
    apply F64.ofRatio_eq_of_value false n 1 m e (by norm_num) hc
    rw [hv]; simp
  unfold FormatFloat
  simp only [if_neg hm]
  unfold shortestDecimal
  simp only [hdiv]
  obtain ⟨c, t, hct, hval⟩ := shortestSearch_integer (roundTrips m e) (m * scaleNum e)
    (scaleDen e) n (numDigits n) (exactDecimal m e) H1 H2
    (numDigits n + (-e).toNat + 1) (numDigits n) (by omega) le_rfl
  rw [hct]
  simp only
  have hc0 : c ≠ 0 := by
    rintro rfl
    simp at hval
    omega
  rw [fmtShortest_integer c t hc0, hval]

theorem fixedDigits_mul_pow (d a : Nat) : ∀ c ∈ fixedDigits d (a * 10 ^ d), c = '0' := by
  induction d generalizing a with
  | zero => simp [fixedDigits]
  | succ d ih =>
    intro c hc
    have e1 : a * 10 ^ (d + 1) / 10 = a * 10 ^ d := by
      rw [pow_succ, ← Nat.mul_assoc, Nat.mul_div_cancel _ (by norm_num : 0 < 10)]
    have e2 : a * 10 ^ (d + 1) % 10 = 0 := by
      rw [pow_succ, ← Nat.mul_assoc, Nat.mul_mod_left]
    simp only [fixedDigits, e1, e2, List.mem_append, List.mem_singleton] at hc
    rcases hc with hc | hc
    · exact ih a c hc
    · rw [hc]; rfl

theorem specDecimal_whole (n p : Nat) : specDecimal false (n * 10 ^ p) p = natDigits n := by
  unfold specDecimal
  simp only [TrimRight_all_zero _ (fixedDigits_mul_pow p n), if_true, List.append_nil,
    Nat.mul_div_cancel _ (by positivity : 0 < 10 ^ p), signChars, Bool.false_eq_true, if_false,
    List.nil_append]

theorem trimDecimalZeros_digits (l : List Char) (h : ∀ c ∈ l, isDigit c = true) :
    trimDecimalZeros l = l := by
  unfold trimDecimalZeros
  rw [Split_of_not_mem _ _ (not_point_mem_digits l h)]

theorem numDigits_lt_five (n : Nat) (h : n < 10000) : numDigits n ≤ 4 := by
  obtain ⟨a, b⟩ := numDigits_spec n
  rcases Nat.eq_zero_or_pos n with h0 | h0
  · subst h0; decide
  · have := b (by omega)
    have c : 10 ^ (numDigits n - 1) < 10 ^ 4 := by omega
    rw [Nat.pow_lt_pow_iff_right (by norm_num)] at c
    omega

theorem wrapInt_of_range (z : Int) (h1 : -(2 : ℤ) ^ 63 ≤ z) (h2 : z < (2 : ℤ) ^ 63) :
    wrapInt z = z := by
  unfold wrapInt
  rw [Int.emod_eq_of_lt (by omega) (by omega)]
  omega

/-- C4 (amended): for every whole-number price `1 ≤ n < 10000` and `0 ≤ szDecimals ≤
maxDecimals`, `RoundOrderPrice` returns the bare digits of the integer, without a decimal
point and without a `.0` suffix. -/
theorem RoundOrderPrice_whole (n : Nat) (szDecimals maxDecimals : Int)
    (h1 : 1 ≤ n) (h2 : n < 10000) (hs0 : 0 ≤ szDecimals) (hs1 : szDecimals ≤ maxDecimals)
    (hmax : maxDecimals < 2 ^ 63) :
    RoundOrderPrice (F64.ofNat n) szDecimals maxDecimals = some (natDigits n) ∧
    '.' ∉ natDigits n := by
  refine ⟨?_, not_point_mem_digits _ (natDigits_isDigit n)⟩
  obtain ⟨m, e, hof, hc, hv⟩ := F64.ofRatio_nat false n 1 (by norm_num) n (by omega) (by ring)
  have hofn : F64.ofNat n = F64.fin false m e := hof
  have hd' : 0 < scaleDen e := scaleDen_pos e
  have hnd : m * scaleNum e = n * scaleDen e := by
    have h2 : (0 : ℚ) < scaleDen e := by exact_mod_cast hd'
    have := F64.ratio_value m e
    rw [hv, div_eq_iff h2.ne'] at this
    exact_mod_cast this
  have hdiv : m * scaleNum e / scaleDen e = n := by
    rw [hnd, Nat.mul_div_cancel _ hd']
  have hInt : F64.toInt (F64.fin false m e) = (n : ℤ) := by
    simp only [F64.toInt, hdiv, Bool.false_eq_true, if_false]
    rw [if_pos]
    constructor <;> omega
  have hItoa : Itoa (n : ℤ) = natDigits n := by
    unfold Itoa
    rw [if_neg (by omega), Int.toNat_ofNat]
  have hone : F64.ofNat 1 = F64.fin false 4503599627370496 (-52) := by decide!
  have hlt : F64.lt (F64.fin false m e) (F64.fin false 4503599627370496 (-52)) = false := by
    have e1 : scaleNum (-52) = 1 := scaleNum_of_nonpos _ (by norm_num)
    have e2 : scaleDen (-52) = 4503599627370496 := by
      unfold scaleDen
      have : (-(-52 : ℤ)).toNat = 52 := by rfl
      rw [this]
      norm_num
    simp only [F64.lt]
    rw [decide_eq_false_iff_not, not_lt, hnd, e1, e2]
    have : scaleDen e ≤ n * scaleDen e := Nat.le_mul_of_pos_left _ h1
    omega
  have hL := numDigits_lt_five n h2
  have hLpos := numDigits_pos n
  have hwrap : wrapInt (maxDecimals - szDecimals) = maxDecimals - szDecimals :=
    wrapInt_of_range _ (by omega) (by omega)
  unfold RoundOrderPrice
  simp only [hofn, hInt, hItoa, natDigits_length, hone, hlt, hwrap]
  rw [if_neg (by omega)]
  simp only [Bool.false_eq_true, if_false]
  set p : ℤ := min (5 - (numDigits n : ℤ)) (maxDecimals - szDecimals) with hp
  have hp0 : 0 ≤ p := le_min (by omega) (by omega)
  have hp4 : p ≤ 4 := le_trans (min_le_left _ _) (by omega)
  have hres : RoundOrderSize (F64.fin false m e) p = some (natDigits n) := by
    obtain ⟨q, hq⟩ : ∃ q : ℕ, p = (q : ℤ) := ⟨p.toNat, by omega⟩
    rw [hq]
    rcases Nat.eq_zero_or_pos q with h0 | h0
    · subst h0
      simp only [RoundOrderSize, Nat.cast_zero, if_true]
      rw [FormatFloat_integer m e n hc hv h1 (by omega)]
    · have hq4 : q ≤ 4 := by omega
      have h104 : 10 ^ q ≤ 10 ^ 4 := Nat.pow_le_pow_right (by norm_num) hq4
      have hb : (m : ℚ) * (2 : ℚ) ^ e * 10 ^ q ≤ 2 ^ 51 := by
        rw [hv]
        have : n * 10 ^ q ≤ 2 ^ 51 := by
          calc n * 10 ^ q ≤ 10000 * 10 ^ 4 := Nat.mul_le_mul (by omega) h104
            _ ≤ 2 ^ 51 := by norm_num
        exact_mod_cast this
      have hC1 := (roundOrderSize_decimal (F64.fin false m e) (q : ℤ) rfl (by omega)
        (by omega) (by simpa [F64.absRat] using hb)).1
      simp only [F64.signBit, Int.toNat_ofNat] at hC1
      rw [hC1]
      obtain ⟨mP, eP, hP, hPc, hP0, hPv⟩ := Pow10_exact q (by omega)
      have hvP := F64.value_of_exact mP eP (10 ^ q) hPv
      have hK : n * 10 ^ q < 2 ^ 53 := by
        calc n * 10 ^ q ≤ 10000 * 10 ^ 4 := Nat.mul_le_mul (by omega) h104
          _ < 2 ^ 53 := by norm_num
      obtain ⟨mz, ez, hz1, hz2, hz3⟩ := F64.ofRatio_nat false (n * 10 ^ q) (scaleDen e) hd'
        (m * 10 ^ q * scaleNum e) hK (by rw [Nat.mul_right_comm, hnd]; ring)
      rw [hP, F64.mul_fin false m e mP eP (10 ^ q) hvP, hz1]
      have hk : F64.roundAwayNat (F64.fin false mz ez) = n * 10 ^ q := by
        simp only [F64.roundAwayNat]
        apply roundHalfUp_eq_of_near _ _ _ (scaleDen_pos ez)
        rw [F64.ratio_value, hz3]
        simp
      rw [hk, specDecimal_whole]
  rw [hres]
  simp only [Option.map_some']
  rw [trimDecimalZeros_digits _ (natDigits_isDigit n)]

/-! ### Request mapping -/

/-- `RoundOrderPrice` returns a string for a finite price when the allowed number of decimals
`maxDecimals - szDecimals` is between `0` and `308`. -/
theorem RoundOrderPrice_isSome (x : F64) (szDecimals maxDecimals : Int)
    (hx : x.isFinite = true) (h0 : 0 ≤ maxDecimals - szDecimals)
    (h1 : maxDecimals - szDecimals ≤ 308) :
    ∃ str, RoundOrderPrice x szDecimals maxDecimals = some str := by
  have hwrap : wrapInt (maxDecimals - szDecimals) = maxDecimals - szDecimals :=
    wrapInt_of_range _ (by omega) (by omega)
  unfold RoundOrderPrice
  simp only [hwrap]
  split_ifs with h5 hlt
  · exact ⟨FormatFloat x, by simp [RoundOrderSize]⟩
  · obtain ⟨str, hs, _⟩ := (roundOrderSize_trimmed x _ hx h0 h1).1
    rw [hs]
    exact ⟨_, rfl⟩
  · have hlen : 0 ≤ ((Itoa (F64.toInt x)).length : ℤ) := Int.natCast_nonneg _
    obtain ⟨str, hs, _⟩ := (roundOrderSize_trimmed x
      (min (5 - ((Itoa (F64.toInt x)).length : ℤ)) (maxDecimals - szDecimals)) hx
      (le_min (by omega) h0) (le_trans (min_le_right _ _) h1)).1
    rw [hs]
    exact ⟨_, rfl⟩

/-- C8: when the metadata map contains the request's coin, every wire order returned by
`OrderRequestToWire` has `Asset = info.AssetId + 10000` (Go `int` addition) on a spot market
and `Asset = info.AssetId` on a perpetual market; a wire order is returned whenever price and
size are finite and `0 ≤ SzDecimals ≤` the decimal ceiling; and the Go addition is the
mathematical sum as long as it fits into an `int`. -/
theorem OrderRequestToWire_asset (req : OrderRequest) (meta : String → Option AssetInfo)
    (isSpot : Bool) (info : AssetInfo) (hmeta : meta req.Coin = some info) :
    (∀ w, OrderRequestToWire req meta isSpot = some w →
      w.Asset = if isSpot then wrapInt (info.AssetId + 10000) else info.AssetId) ∧
    (req.LimitPx.isFinite = true → req.Sz.isFinite = true → 0 ≤ info.SzDecimals →
      info.SzDecimals ≤ (if isSpot then 8 else 6) →
      ∃ w, OrderRequestToWire req meta isSpot = some w) ∧
    (-(2 : ℤ) ^ 63 ≤ info.AssetId + 10000 → info.AssetId + 10000 < (2 : ℤ) ^ 63 →
      wrapInt (info.AssetId + 10000) = info.AssetId + 10000) := by
  have hinfo : lookupInfo meta req.Coin = info := by
    unfold lookupInfo; rw [hmeta]; rfl
  refine ⟨?_, ?_, fun a b => wrapInt_of_range _ a b⟩
  · intro w hw
    unfold OrderRequestToWire at hw
    simp only [hinfo] at hw
    split at hw
    · exact absurd hw (by simp)
    · split at hw
      · exact absurd hw (by simp)
      · injection hw with hw
        rw [← hw]
        rfl
  · intro hpx hsz hd0 hd1
    have hmaxd : wireMaxDecimals isSpot = if isSpot then 8 else 6 := by
      cases isSpot <;> rfl
    have hle : (if isSpot then (8 : ℤ) else 6) ≤ 8 := by split_ifs <;> norm_num
    obtain ⟨px, hpx'⟩ := RoundOrderPrice_isSome req.LimitPx info.SzDecimals
      (wireMaxDecimals isSpot) hpx (by rw [hmaxd]; omega) (by rw [hmaxd]; omega)
    obtain ⟨sz, hsz', _⟩ := (roundOrderSize_trimmed req.Sz info.SzDecimals hsz hd0
      (by omega)).1
    unfold OrderRequestToWire
    simp only [hinfo, hpx', hsz']
    exact ⟨_, rfl⟩

/-- C8 (witness): with `AssetId = 7` the wire asset is `10007` on the spot market and `7` on
the perpetual market. -/
theorem OrderRequestToWire_asset_witness :
    (∀ w, OrderRequestToWire sampleRequest sampleMeta true = some w → w.Asset = 10007) ∧
    (∀ w, OrderRequestToWire sampleRequest sampleMeta false = some w → w.Asset = 7) ∧
    (∃ w, OrderRequestToWire sampleRequest sampleMeta true = some w) ∧
    (∃ w, OrderRequestToWire sampleRequest sampleMeta false = some w) :=
  ⟨(OrderRequestToWire_asset sampleRequest sampleMeta true ⟨5, 7⟩ rfl).1,
   (OrderRequestToWire_asset sampleRequest sampleMeta false ⟨5, 7⟩ rfl).1,
   (OrderRequestToWire_asset sampleRequest sampleMeta true ⟨5, 7⟩ rfl).2.1
      (by decide!) (by decide!) (by decide) (by decide),
   (OrderRequestToWire_asset sampleRequest sampleMeta false ⟨5, 7⟩ rfl).2.1
      (by decide!) (by decide!) (by decide) (by decide)⟩

/-! ### Concrete evaluations and structural mapping -/

/-- C2 (failing input): the price `12345.678` has a five-digit integer part, and
`RoundOrderPrice(12345.678, 2, 6)` returns `"12345.678"`: the fractional part is kept, the
price is not rounded to 0 fractional digits. -/
theorem RoundOrderPrice_five_digits_keeps_fraction :
    (Itoa (F64.toInt (F64.lit 12345678 3))).length = 5 ∧
    RoundOrderPrice (F64.lit 12345678 3) 2 6 = some "12345.678".toList := by
  decide!

/-- C3 (failing input): with `szDecimals = 5` and `maxDecimals = 6` one fractional digit is
allowed, and `RoundOrderPrice(65432.12, 5, 6)` returns `"65432.12"`, which has two. -/
theorem RoundOrderPrice_exceeds_allowed_decimals :
    RoundOrderPrice (F64.lit 6543212 2) 5 6 = some "65432.12".toList ∧
    (fracDigits "65432.12".toList).length = 2 ∧ (6 : Int) - 5 = 1 := by
  decide!

/-- C5 (counterexample): `RoundOrderPrice(0.00001234, 2, 6)` is not `"0.000012"`. -/
theorem RoundOrderPrice_small_price_counterexample :
    RoundOrderPrice (F64.lit 1234 8) 2 6 ≠ some "0.000012".toList := by
  decide!

/-- C5 (amended): `RoundOrderPrice(0.00001234, 2, 6)` returns `"0"`, because the price is
first rounded to `maxDecimals - szDecimals = 4` fractional digits; with `szDecimals = 0`
(six fractional digits allowed) the result is `"0.000012"`, the rounding of the price to six
fractional digits. -/
theorem RoundOrderPrice_small_price :
    RoundOrderPrice (F64.lit 1234 8) 2 6 = some "0".toList ∧
    RoundOrderSize (F64.lit 1234 8) 4 = some "0".toList ∧
    RoundOrderPrice (F64.lit 1234 8) 0 6 = some "0.000012".toList := by
  decide!

/-- C9: for an order type with exactly one variant populated, `OrderTypeToWire` populates
exactly that variant, field for field, and leaves the other one absent. -/
theorem OrderTypeToWire_exactly_one (orderType : OrderType)
    (h : orderType.Limit.isSome ≠ orderType.Trigger.isSome) :
    (∀ limit, orderType.Limit = some limit →
        (OrderTypeToWire orderType).Limit = some { Tif := limit.Tif } ∧
        (OrderTypeToWire orderType).Trigger = none) ∧
    (∀ trigger, orderType.Trigger = some trigger →
        (OrderTypeToWire orderType).Trigger =
          some { TpSl := trigger.TpSl, TriggerPx := trigger.TriggerPx,
                 IsMarket := trigger.IsMarket } ∧
        (OrderTypeToWire orderType).Limit = none) := by
  obtain ⟨l, t⟩ := orderType
  cases l <;> cases t <;> simp_all [OrderTypeToWire]

/-- C9 (witness): a limit order type and a trigger order type, each with one variant. -/
theorem OrderTypeToWire_exactly_one_witness :
    ((∀ limit, (OrderType.mk (some ⟨"Gtc"⟩) none).Limit = some limit →
        (OrderTypeToWire (OrderType.mk (some ⟨"Gtc"⟩) none)).Limit = some { Tif := limit.Tif } ∧
        (OrderTypeToWire (OrderType.mk (some ⟨"Gtc"⟩) none)).Trigger = none) ∧
    (∀ trigger, (OrderType.mk (some ⟨"Gtc"⟩) none).Trigger = some trigger →
        (OrderTypeToWire (OrderType.mk (some ⟨"Gtc"⟩) none)).Trigger =
          some { TpSl := trigger.TpSl, TriggerPx := trigger.TriggerPx,
                 IsMarket := trigger.IsMarket } ∧
        (OrderTypeToWire (OrderType.mk (some ⟨"Gtc"⟩) none)).Limit = none)) :=
  OrderTypeToWire_exactly_one (OrderType.mk (some ⟨"Gtc"⟩) none) (by decide)

/-- C10: `ModifyOrderRequestToWire` carries the request's `OrderId`, and its nested order is
the order `OrderRequestToWire` builds from the same `Coin`, `IsBuy`, `LimitPx`, `Sz`,
`ReduceOnly` and `OrderType` (whatever the client order id), with `Cloid` left unset; the
one call panics exactly when the other does. -/
theorem ModifyOrderRequestToWire_eq (req : ModifyOrderRequest)
    (meta : String → Option AssetInfo) (isSpot : Bool) (cloid : Option String) :
    ModifyOrderRequestToWire req meta isSpot =
      (OrderRequestToWire
        { Coin := req.Coin, IsBuy := req.IsBuy, Sz := req.Sz, LimitPx := req.LimitPx,
          OrderType := req.OrderType, ReduceOnly := req.ReduceOnly, Cloid := cloid }
        meta isSpot).map
        (fun w => { OrderId := req.OrderId, Order := { w with Cloid := none } }) := by
  unfold ModifyOrderRequestToWire OrderRequestToWire
  dsimp only
  cases RoundOrderPrice req.LimitPx (lookupInfo meta req.Coin).SzDecimals
      (wireMaxDecimals isSpot) with
  | none => rfl
  | some limitPx =>
    cases RoundOrderSize req.Sz (lookupInfo meta req.Coin).SzDecimals with
    | none => rfl
    | some sizePx => rfl

/-! ### Size rounding and whole-number prices -/

/-- C1 (amended): for a finite `x` and `1 ≤ szDecimals ≤ 22` with `|x| * 10^szDecimals ≤ 2^51`,
`RoundOrderSize(x, szDecimals)` is the decimal rendering of `k / 10^szDecimals`, where `k` is
the float64 product `x * 10^szDecimals` rounded to the nearest integer, ties away from zero:
the sign of `x`, the integer digits, and at most `szDecimals` fractional digits with the
trailing zeros and a dangling decimal point removed. -/
theorem RoundOrderSize_eq_specDecimal (x : F64) (szDecimals : Int)
    (hx : x.isFinite = true) (h1 : 1 ≤ szDecimals) (h2 : szDecimals ≤ 22)
    (hb : x.absRat * 10 ^ szDecimals.toNat ≤ 2 ^ 51) :
    RoundOrderSize x szDecimals =
      some (specDecimal x.signBit (F64.roundAwayNat (F64.mul x (Pow10 szDecimals)))
        szDecimals.toNat) ∧
    (fracDigits (specDecimal x.signBit (F64.roundAwayNat (F64.mul x (Pow10 szDecimals)))
        szDecimals.toNat)).length ≤ szDecimals.toNat :=
  roundOrderSize_decimal x szDecimals hx h1 h2 hb

/-- C1 (witness): `RoundOrderSize(1.23456, 3) = "1.235"`. -/
theorem RoundOrderSize_eq_specDecimal_witness :
    RoundOrderSize (F64.lit 123456 5) 3 = some "1.235".toList :=
  (RoundOrderSize_eq_specDecimal (F64.lit 123456 5) 3 (by decide!) (by decide) (by decide)
    (by
      have h3 : Int.toNat 3 = 3 := rfl
      rw [lit_123456, h3]
      simp only [F64.absRat]
      norm_num)).1.trans (by decide!)

/-- C1 (counterexample): `1e308` is finite, and `RoundOrderSize(1e308, 1)` returns `"+Inf"`,
which is not the decimal rendering of any number. Two more inputs show what the amended
claim has to say: `RoundOrderSize(0.15, 1)` is `"0.2"` although the exact value of the float
`0.15` scaled by ten rounds to `1` (the code rounds the float64 product, which is `1.5`); and
for `x = 6755399441055745` the result `"6755399441055745"` is not the rendering of the
rounded float64 product `67553994410557448` divided by ten. -/
theorem RoundOrderSize_overflow :
    ((F64.lit (10 ^ 308) 0).isFinite = true ∧ F64.Canon (F64.lit (10 ^ 308) 0) ∧
      RoundOrderSize (F64.lit (10 ^ 308) 0) 1 = some "+Inf".toList ∧
      (∀ neg k d, specDecimal neg k d ≠ "+Inf".toList)) ∧
    (RoundOrderSize (F64.lit 15 2) 1 = some "0.2".toList ∧
      specDecimal false (F64.roundScaledNat (F64.lit 15 2) 1) 1 = "0.1".toList) ∧
    (RoundOrderSize (F64.lit 6755399441055745 0) 1 = some "6755399441055745".toList ∧
      specDecimal false
        (F64.roundAwayNat (F64.mul (F64.lit 6755399441055745 0) (Pow10 1))) 1 =
        "6755399441055744.8".toList) := by
  refine ⟨⟨by decide!, by decide!, by decide!, ?_⟩, by decide!, by decide!⟩
  intro neg k d h
  unfold specDecimal at h
  simp only at h
  obtain ⟨c, cs, hcs⟩ := List.exists_cons_of_ne_nil (natDigits_ne_nil (k / 10 ^ d))
  have hc : isDigit c = true := natDigits_isDigit (k / 10 ^ d) c (by rw [hcs]; simp)
  rw [hcs] at h
  cases neg with
  | true =>
    simp only [signChars, if_true, List.cons_append, List.nil_append] at h
    injection h with h1 _
    exact absurd h1 (by decide)
  | false =>
    simp only [signChars, Bool.false_eq_true, if_false, List.nil_append, List.cons_append] at h
    injection h with h1 _
    rw [h1] at hc
    exact absurd hc (by decide)

/-- C4 (counterexample): `RoundOrderPrice(3, 0, 6)` returns `"3"`, not `"3.0"`. -/
theorem RoundOrderPrice_three :
    RoundOrderPrice (F64.ofNat 3) 0 6 = some "3".toList ∧
    RoundOrderPrice (F64.ofNat 3) 0 6 ≠ some "3.0".toList := by
  decide!

/-- C4 (witness): the price `3` with `szDecimals = 0` and `maxDecimals = 6`. -/
theorem RoundOrderPrice_whole_witness :
    RoundOrderPrice (F64.ofNat 3) 0 6 = some (natDigits 3) ∧ '.' ∉ natDigits 3 :=
  RoundOrderPrice_whole 3 0 6 (by decide) (by decide) (by decide) (by decide) (by norm_num)

/-- C6 (amended): for every finite `x` and `0 ≤ digits ≤ 308`, `RoundOrderSize` returns a
string that is not empty, does not end in a decimal point and, when it contains a decimal
point, does not end in a zero; a zero yields `"0"`, preceded by `-` when its sign bit is
set. -/
theorem RoundOrderSize_wellTrimmed (x : F64) (digits : Int) (hx : x.isFinite = true)
    (h0 : 0 ≤ digits) (h1 : digits ≤ 308) :
    (∃ str, RoundOrderSize x digits = some str ∧ WellTrimmed str) ∧
    (∀ s e, x = F64.fin s 0 e → RoundOrderSize x digits = some (signChars s ++ ['0'])) :=
  roundOrderSize_trimmed x digits hx h0 h1

/-- C6 (witness): the size `1.23456` with three digits. -/
theorem RoundOrderSize_wellTrimmed_witness :
    (∃ str, RoundOrderSize (F64.lit 123456 5) 3 = some str ∧ WellTrimmed str) ∧
    (∀ s e, F64.lit 123456 5 = F64.fin s 0 e →
      RoundOrderSize (F64.lit 123456 5) 3 = some (signChars s ++ ['0'])) :=
  RoundOrderSize_wellTrimmed (F64.lit 123456 5) 3 (by decide!) (by decide) (by decide)

/-- C6 (counterexample): with `digits = 309` the call `RoundOrderSize(1, 309)` panics and
returns no string; and the negative zero yields `"-0"`, not `"0"`. -/
theorem RoundOrderSize_panics_beyond_308 :
    (F64.lit 1 0).isFinite = true ∧ RoundOrderSize (F64.lit 1 0) 309 = none ∧
    RoundOrderSize (F64.fin true 0 (-1074)) 3 = some "-0".toList := by
  decide!

/-! ### Hexadecimal encoding and signatures -/

theorem byte_hex_roundtrip : ∀ v : Byte,
    fromHexChar (hextable.getD (v.val / 16) '0') = some (v.val / 16) ∧
    fromHexChar (hextable.getD (v.val % 16) '0') = some (v.val % 16) ∧
    isLowerHex (hextable.getD (v.val / 16) '0') = true ∧
    isLowerHex (hextable.getD (v.val % 16) '0') = true := by
  decide!

theorem EncodeToString_length (b : List Byte) : (EncodeToString b).length = 2 * b.length := by
  induction b with
  | nil => rfl
  | cons v rest ih => simp only [EncodeToString, List.length_cons, ih]; omega

theorem EncodeToString_lower (b : List Byte) : ∀ c ∈ EncodeToString b, isLowerHex c = true := by
  induction b with
  | nil => intro c hc; simp [EncodeToString] at hc
  | cons v rest ih =>
    intro c hc
    simp only [EncodeToString, List.mem_cons] at hc
    rcases hc with hc | hc | hc
    · rw [hc]; exact (byte_hex_roundtrip v).2.2.1
    · rw [hc]; exact (byte_hex_roundtrip v).2.2.2
    · exact ih c hc

theorem EncodeToString_digits (b : List Byte) : ∀ i, i < b.length →
    fromHexChar ((EncodeToString b).getD (2 * i) ' ') = some ((b.getD i 0).val / 16) ∧
    fromHexChar ((EncodeToString b).getD (2 * i + 1) ' ') = some ((b.getD i 0).val % 16) := by
  induction b with
  | nil => intro i hi; simp at hi
  | cons v rest ih =>
    intro i hi
    cases i with
    | zero =>
      simp only [EncodeToString, Nat.mul_zero, List.getD_cons_zero, Nat.zero_add,
        List.getD_cons_succ]
      exact ⟨(byte_hex_roundtrip v).1, (byte_hex_roundtrip v).2.1⟩
    | succ i =>
      have hi' : i < rest.length := by simpa using hi
      have e1 : 2 * (i + 1) = (2 * i + 1) + 1 := by ring
      rw [e1]
      simp only [EncodeToString, List.getD_cons_succ]
      exact ih i hi'

theorem byte_recompose (v : Byte) : (Fin.ofNat (v.val / 16 * 16 + v.val % 16) : Byte) = v := by
  apply Fin.ext
  simp only [Fin.ofNat, Fin.val_mk]
  have := v.isLt
  omega

theorem DecodeString_EncodeToString (b : List Byte) :
    DecodeString (EncodeToString b) = (b, false) := by
  induction b with
  | nil => rfl
  | cons v rest ih =>
    simp only [EncodeToString, DecodeString, (byte_hex_roundtrip v).1,
      (byte_hex_roundtrip v).2.1, ih, byte_recompose]

theorem Replace_of_lead (t : List Char) :
    Replace ('0' :: 'x' :: t) "0x".toList "".toList 1 = t := by
  have e : "0x".toList = ['0', 'x'] := rfl
  simp only [Replace, List.length_cons, ReplaceAux, e, List.isPrefixOf, beq_self_eq_true,
    Bool.and_self, if_true]
  cases h : t.length + 1 + 1 with
  | zero => simp [ReplaceAux]
  | succ k => cases t <;> simp [ReplaceAux]

theorem HexToBytes_with_lead (t : List Char) :
    HexToBytes ("0x".toList ++ t) = (DecodeString t).1 := by
  have e : "0x".toList ++ t = '0' :: 'x' :: t := rfl
  rw [e]
  unfold HexToBytes
  rw [Replace_of_lead]
  simp [HasPrefix, List.isPrefixOf]

theorem fromHexChar_x : fromHexChar 'x' = none := by decide

/-- A string of hexadecimal digits (either letter case) does not start with `0x`. -/
theorem hex_string_no_lead (h : List Char) (hh : ∀ c ∈ h, (fromHexChar c).isSome = true) :
    HasPrefix h "0x".toList = false := by
  match h, hh with
  | [], _ => rfl
  | [c], _ =>
    have e : "0x".toList = ['0', 'x'] := rfl
    simp [HasPrefix, e, List.isPrefixOf]
  | c :: d :: rest, hh =>
    have hd := hh d (by simp)
    have : d ≠ 'x' := by
      intro e; rw [e, fromHexChar_x] at hd; simp at hd
    have e : "0x".toList = ['0', 'x'] := rfl
    simp [HasPrefix, e, List.isPrefixOf, this.symm]

theorem DecodeString_complete : ∀ (n : Nat) (h : List Char), h.length = 2 * n →
    (∀ c ∈ h, (fromHexChar c).isSome = true) →
    (DecodeString h).2 = false ∧ (DecodeString h).1.length = n := by
  intro n
  induction n with
  | zero =>
    intro h hl _
    have : h = [] := List.length_eq_zero.mp (by omega)
    subst this
    exact ⟨rfl, rfl⟩
  | succ n ih =>
    intro h hl hh
    match h, hl, hh with
    | [], hl, _ => simp at hl
    | [_], hl, _ => simp at hl; omega
    | p :: q :: rest, hl, hh =>
      have hp := hh p (by simp)
      have hq := hh q (by simp)
      obtain ⟨a, ha⟩ := Option.isSome_iff_exists.mp hp
      obtain ⟨b, hb⟩ := Option.isSome_iff_exists.mp hq
      have hrest := ih rest (by simp at hl; omega) (fun c hc => hh c (by simp [hc]))
      simp only [DecodeString, ha, hb, List.length_cons, hrest.1, hrest.2, and_self]

/-- C14: for all 32-byte arrays `r`, `s` and every byte `v`, `ToTypedSig` (a total function)
returns `V = v` and strings `R`, `S` of 66 characters that start with `"0x"`, continue with
lowercase hexadecimal digits only, and encode the arrays byte for byte: the two characters at
the positions `2 + 2 i` and `3 + 2 i` are the high and the low hexadecimal digit of byte
`i`. -/
theorem ToTypedSig_encoding (r s : Bytes32) (v : Byte) :
    (ToTypedSig r s v).V = v ∧
    ((ToTypedSig r s v).R.length = 66 ∧ (ToTypedSig r s v).R.take 2 = "0x".toList ∧
      ((ToTypedSig r s v).R.drop 2).length = 64 ∧
      (∀ c ∈ (ToTypedSig r s v).R.drop 2, isLowerHex c = true) ∧
      ∀ i, i < 32 →
        fromHexChar ((ToTypedSig r s v).R.getD (2 + 2 * i) ' ') = some ((r.val.getD i 0).val / 16) ∧
        fromHexChar ((ToTypedSig r s v).R.getD (3 + 2 * i) ' ') =
          some ((r.val.getD i 0).val % 16)) ∧
    ((ToTypedSig r s v).S.length = 66 ∧ (ToTypedSig r s v).S.take 2 = "0x".toList ∧
      ((ToTypedSig r s v).S.drop 2).length = 64 ∧
      (∀ c ∈ (ToTypedSig r s v).S.drop 2, isLowerHex c = true) ∧
      ∀ i, i < 32 →
        fromHexChar ((ToTypedSig r s v).S.getD (2 + 2 * i) ' ') = some ((s.val.getD i 0).val / 16) ∧
        fromHexChar ((ToTypedSig r s v).S.getD (3 + 2 * i) ' ') =
          some ((s.val.getD i 0).val % 16)) := by
  have key : ∀ b : Bytes32,
      (hexutilEncode b.val).length = 66 ∧ (hexutilEncode b.val).take 2 = "0x".toList ∧
      ((hexutilEncode b.val).drop 2).length = 64 ∧
      (∀ c ∈ (hexutilEncode b.val).drop 2, isLowerHex c = true) ∧
      ∀ i, i < 32 →
        fromHexChar ((hexutilEncode b.val).getD (2 + 2 * i) ' ') =
          some ((b.val.getD i 0).val / 16) ∧
        fromHexChar ((hexutilEncode b.val).getD (3 + 2 * i) ' ') =
          some ((b.val.getD i 0).val % 16) := by
    intro b
    have e : hexutilEncode b.val = '0' :: 'x' :: EncodeToString b.val := rfl
    have hl := EncodeToString_length b.val
    rw [b.property] at hl
    rw [e]
    refine ⟨by simp [hl], rfl, by simp [hl], ?_, ?_⟩
    · intro c hc
      exact EncodeToString_lower b.val c (by simpa using hc)
    · intro i hi
      have e1 : 2 + 2 * i = (2 * i) + 1 + 1 := by ring
      have e2 : 3 + 2 * i = (2 * i + 1) + 1 + 1 := by ring
      rw [e1, e2]
      simp only [List.getD_cons_succ]
      exact EncodeToString_digits b.val i (by rw [b.property]; exact hi)
  exact ⟨rfl, key r, key s⟩

/-- C20: `HexToBytes` inverts the signature encoding (`R` decodes to `r` and `S` to `s`); for
every string `h` that does not start with `"0x"`, `HexToBytes("0x" + h) = HexToBytes(h)`; and
a string of `2 n` hexadecimal digits does not start with `"0x"` and decodes, with or
without the `"0x"` in front, to `n` bytes. -/
theorem HexToBytes_inverts_encoding :
    (∀ (r s : Bytes32) (v : Byte),
      HexToBytes (ToTypedSig r s v).R = r.val ∧ HexToBytes (ToTypedSig r s v).S = s.val) ∧
    (∀ h : List Char, HasPrefix h "0x".toList = false →
      HexToBytes ("0x".toList ++ h) = HexToBytes h) ∧
    (∀ (h : List Char) (n : Nat), h.length = 2 * n →
      (∀ c ∈ h, (fromHexChar c).isSome = true) →
      HasPrefix h "0x".toList = false ∧ HexToBytes ("0x".toList ++ h) = HexToBytes h ∧
      (HexToBytes h).length = n) := by
  have hgen : ∀ h : List Char, HasPrefix h "0x".toList = false →
      HexToBytes ("0x".toList ++ h) = HexToBytes h := by
    intro h hh
    rw [HexToBytes_with_lead]
    unfold HexToBytes
    rw [hh]
    simp
  refine ⟨?_, hgen, ?_⟩
  · intro r s v
    constructor
    · show HexToBytes ("0x".toList ++ EncodeToString r.val) = r.val
      rw [HexToBytes_with_lead, DecodeString_EncodeToString]
    · show HexToBytes ("0x".toList ++ EncodeToString s.val) = s.val
      rw [HexToBytes_with_lead, DecodeString_EncodeToString]
  · intro h n hl hh
    have h1 := hex_string_no_lead h hh
    refine ⟨h1, hgen h h1, ?_⟩
    unfold HexToBytes
    rw [h1]
    simp only [Bool.false_eq_true, if_false]
    exact (DecodeString_complete n h hl hh).2

/-- C19: for every `OrderType` value, `OrderTypeToWire` returns the `Limit` variant alone
whenever `Limit` is populated (whatever `Trigger` is), the `Trigger` variant alone when only
`Trigger` is populated, the empty wire type when neither is populated, and never a wire type
with both variants populated. -/
theorem OrderTypeToWire_priority (orderType : OrderType) :
    (∀ l, orderType.Limit = some l →
      OrderTypeToWire orderType = { Limit := some { Tif := l.Tif }, Trigger := none }) ∧
    (∀ t, orderType.Limit = none → orderType.Trigger = some t →
      OrderTypeToWire orderType =
        { Limit := none,
          Trigger := some { TpSl := t.TpSl, TriggerPx := t.TriggerPx, IsMarket := t.IsMarket } }) ∧
    (orderType.Limit = none → orderType.Trigger = none →
      OrderTypeToWire orderType = { Limit := none, Trigger := none }) ∧
    ¬ ((OrderTypeToWire orderType).Limit.isSome = true ∧
        (OrderTypeToWire orderType).Trigger.isSome = true) := by
  obtain ⟨l, t⟩ := orderType
  cases l <;> cases t <;> simp [OrderTypeToWire]

/-! ### Missing metadata, panics and field mapping -/

theorem lookupInfo_missing (meta : String → Option AssetInfo) (coin : String)
    (h : meta coin = none) : lookupInfo meta coin = ⟨0, 0⟩ := by
  unfold lookupInfo; rw [h]; rfl

theorem wireMaxDecimals_eq (isSpot : Bool) :
    wireMaxDecimals isSpot = if isSpot then 8 else 6 := by
  cases isSpot <;> rfl

/-- C11 (amended): for every request with a finite price whose coin is not a key of the
metadata map, `OrderRequestToWire` returns a wire order; its `Asset` is `0` on a perpetual
market and `10000` on a spot market, its price is `RoundOrderPrice(req.LimitPx, 0, ceiling)`
and its size is `RoundOrderSize(req.Sz, 0)`, the shortest decimal of `req.Sz`. -/
theorem OrderRequestToWire_missing_coin (req : OrderRequest)
    (meta : String → Option AssetInfo) (isSpot : Bool) (hmiss : meta req.Coin = none)
    (hfin : req.LimitPx.isFinite = true) :
    ∃ w, OrderRequestToWire req meta isSpot = some w ∧
      w.Asset = (if isSpot then 10000 else 0) ∧
      RoundOrderPrice req.LimitPx 0 (if isSpot then 8 else 6) = some w.LimitPx ∧
      RoundOrderSize req.Sz 0 = some w.SizePx ∧ w.SizePx = FormatFloat req.Sz := by
  have hinfo := lookupInfo_missing meta req.Coin hmiss
  have hmaxd := wireMaxDecimals_eq isSpot
  have hpx : ∃ px, RoundOrderPrice req.LimitPx 0 (if isSpot then 8 else 6) = some px := by
    apply RoundOrderPrice_isSome _ _ _ hfin
    · split_ifs <;> norm_num
    · split_ifs <;> norm_num
  obtain ⟨px, hpx⟩ := hpx
  have hsz : RoundOrderSize req.Sz 0 = some (FormatFloat req.Sz) := by
    simp [RoundOrderSize]
  refine ⟨{ Asset := if isSpot then 10000 else 0, IsBuy := req.IsBuy, LimitPx := px,
            SizePx := FormatFloat req.Sz, ReduceOnly := req.ReduceOnly,
            OrderType := OrderTypeToWire req.OrderType, Cloid := req.Cloid }, ?_, rfl, hpx,
          hsz, rfl⟩
  unfold OrderRequestToWire
  simp only [hinfo, hmaxd, hpx, hsz]
  cases isSpot
  · rfl
  · have : wireAssetId ⟨0, 0⟩ true = 10000 := by decide
    simp only [this, if_true]

/-- C11 (witness): the coin `ETH` is not in `sampleMeta`, and the price `65432.1` is
finite. -/
theorem OrderRequestToWire_missing_coin_witness :
    ∃ w, OrderRequestToWire missingCoinRequest sampleMeta false = some w ∧
      w.Asset = 0 ∧
      RoundOrderPrice missingCoinRequest.LimitPx 0 6 = some w.LimitPx ∧
      RoundOrderSize missingCoinRequest.Sz 0 = some w.SizePx ∧
      w.SizePx = FormatFloat missingCoinRequest.Sz :=
  OrderRequestToWire_missing_coin missingCoinRequest sampleMeta false (by decide) (by decide!)

/-- C11 (counterexample): on the spot market a request for a coin that is not in the
metadata map gets `Asset = 10000`, not `0`. -/
theorem OrderRequestToWire_missing_coin_spot :
    sampleMeta missingCoinRequest.Coin = none ∧
    (OrderRequestToWire missingCoinRequest sampleMeta true).map (fun w => w.Asset) =
      some 10000 := by
  decide!

/-- C12 (failing input): with `szDecimals = 7` and `maxDecimals = 6` the zero price makes
`RoundOrderPrice` panic: `RoundOrderSize(0, -1)` formats `"0"`, the trimming of the zeros
leaves the empty string, and the index `str[len(str)-1]` is out of range. The same happens for
the price `0.5`. -/
theorem RoundOrderPrice_panics_on_empty_string :
    (F64.lit 0 0).isFinite = true ∧
    NewFloatText (F64.div (F64.Round (F64.mul (F64.lit 0 0) (Pow10 (-1)))) (Pow10 (-1))) (-1) =
      some "0".toList ∧
    TrimRight "0".toList ['0'] = [] ∧ dropFinalPoint [] = none ∧
    RoundOrderSize (F64.lit 0 0) (-1) = none ∧
    RoundOrderPrice (F64.lit 0 0) 7 6 = none ∧
    RoundOrderPrice (F64.lit 5 1) 7 6 = none := by
  decide!

/-- C13: for every request, `OrderRequestToWire` returns the wire order `w` exactly when
`RoundOrderPrice(req.LimitPx, info.SzDecimals, ceiling)` returns `w.LimitPx`,
`RoundOrderSize(req.Sz, info.SzDecimals)` returns `w.SizePx`, the fields `IsBuy`,
`ReduceOnly` and `Cloid` are those of the request, `w.OrderType` is
`OrderTypeToWire(req.OrderType)` and `w.Asset` is the asset id; here `info = meta[req.Coin]`
and the ceiling is `SPOT_MAX_DECIMALS = 8` when `isSpot` holds and `PERP_MAX_DECIMALS = 6`
otherwise. A wire order is returned whenever price and size are finite and
`0 ≤ info.SzDecimals ≤ ceiling`. -/
theorem OrderRequestToWire_fields (req : OrderRequest) (meta : String → Option AssetInfo)
    (isSpot : Bool) :
    (∀ w, OrderRequestToWire req meta isSpot = some w ↔
      (RoundOrderPrice req.LimitPx (lookupInfo meta req.Coin).SzDecimals
          (if isSpot then 8 else 6) = some w.LimitPx ∧
        RoundOrderSize req.Sz (lookupInfo meta req.Coin).SzDecimals = some w.SizePx ∧
        w.IsBuy = req.IsBuy ∧ w.ReduceOnly = req.ReduceOnly ∧ w.Cloid = req.Cloid ∧
        w.OrderType = OrderTypeToWire req.OrderType ∧
        w.Asset = wireAssetId (lookupInfo meta req.Coin) isSpot)) ∧
    (∀ info, meta req.Coin = some info → lookupInfo meta req.Coin = info) ∧
    (SPOT_MAX_DECIMALS = 8 ∧ PERP_MAX_DECIMALS = 6) ∧
    (req.LimitPx.isFinite = true → req.Sz.isFinite = true →
      0 ≤ (lookupInfo meta req.Coin).SzDecimals →
      (lookupInfo meta req.Coin).SzDecimals ≤ (if isSpot then 8 else 6) →
      ∃ w, OrderRequestToWire req meta isSpot = some w) := by
  have hmaxd := wireMaxDecimals_eq isSpot
  refine ⟨?_, ?_, ⟨rfl, rfl⟩, ?_⟩
  · intro w
    unfold OrderRequestToWire
    simp only [hmaxd]
    cases hpx : RoundOrderPrice req.LimitPx (lookupInfo meta req.Coin).SzDecimals
        (if isSpot then 8 else 6) with
    | none => simp
    | some px =>
      cases hsz : RoundOrderSize req.Sz (lookupInfo meta req.Coin).SzDecimals with
      | none => simp
      | some sz =>
        simp only [Option.some.injEq]
        constructor
        · intro h
          rw [← h]
          exact ⟨rfl, rfl, rfl, rfl, rfl, rfl, rfl⟩
        · rintro ⟨h1, h2, h3, h4, h5, h6, h7⟩
          obtain ⟨a, b, c, d, e, f, g⟩ := w
          simp only at h1 h2 h3 h4 h5 h6 h7
          subst h1 h2 h3 h4 h5 h6 h7
          rfl
  · intro info h
    unfold lookupInfo; rw [h]; rfl
  · intro hpx hsz hd0 hd1
    have hle : (if isSpot then (8 : ℤ) else 6) ≤ 8 := by split_ifs <;> norm_num
    obtain ⟨px, hpx'⟩ := RoundOrderPrice_isSome req.LimitPx (lookupInfo meta req.Coin).SzDecimals
      (if isSpot then 8 else 6) hpx (by omega) (by omega)
    obtain ⟨sz, hsz', _⟩ := (roundOrderSize_trimmed req.Sz (lookupInfo meta req.Coin).SzDecimals
      hsz hd0 (by omega)).1
    unfold OrderRequestToWire
    simp only [hmaxd, hpx', hsz']
    exact ⟨_, rfl⟩

/-- C15 (failing input): `StructToMap(42)`. `json.Marshal` returns the document `42`,
`json.Unmarshal` refuses it with an error and leaves the map nil, and `StructToMap` returns
the nil map with a nil error. Whatever the two library functions do, the error returned by
`StructToMap` is nil as soon as `json.Marshal` succeeds. -/
theorem StructToMap_drops_unmarshal_error :
    jsonMarshal (GoValue.int 42) = Except.ok (JsonDoc.number 42) ∧
    (jsonUnmarshal (JsonDoc.number 42)).2 = some JsonError.unmarshalType ∧
    StructToMap jsonMarshal jsonUnmarshal (some []) (GoValue.int 42) = (none, none) ∧
    (∀ (α β μ ε : Type) (Marshal : α → Except ε β) (Unmarshal : β → μ × Option ε)
        (emptyMap : μ) (strct : α) (a : β), Marshal strct = Except.ok a →
      StructToMap Marshal Unmarshal emptyMap strct = ((Unmarshal a).1, none)) := by
  refine ⟨rfl, rfl, rfl, ?_⟩
  intro α β μ ε Marshal Unmarshal emptyMap strct a h
  unfold StructToMap
  rw [h]

/-! ### `trimDecimalZeros` -/

theorem Split_length (l : List Char) (sep : Char) :
    (Split l sep).length = l.count sep + 1 := by
  induction l with
  | nil => rfl
  | cons c cs ih =>
    by_cases h : c = sep
    · subst h
      simp only [Split, if_true, List.length_cons, ih, List.count_cons_self]
    · have hne : (c == sep) = false := by simpa using h
      simp only [Split, if_neg h, List.count_cons, hne, Bool.false_eq_true, if_false,
        Nat.add_zero]
      rw [← ih]
      cases hs : Split cs sep with
      | nil => exact absurd hs (Split_ne_nil cs sep)
      | cons p ps => rfl

theorem exists_split_of_count_one (l : List Char) (sep : Char) (h : l.count sep = 1) :
    ∃ a b, l = a ++ sep :: b ∧ sep ∉ a ∧ sep ∉ b := by
  have hmem : sep ∈ l := List.count_pos_iff.mp (by omega)
  obtain ⟨a, b, hab⟩ := List.append_of_mem hmem
  refine ⟨a, b, hab, ?_, ?_⟩
  · intro ha
    have := List.count_pos_iff.mpr ha
    rw [hab, List.count_append, List.count_cons_self] at h
    omega
  · intro hb
    have := List.count_pos_iff.mpr hb
    rw [hab, List.count_append, List.count_cons_self] at h
    omega

theorem Split_one_sep (a b : List Char) (sep : Char) (ha : sep ∉ a) (hb : sep ∉ b) :
    Split (a ++ sep :: b) sep = [a, b] := by
  rw [Split_append_sep a b sep ha, Split_of_not_mem b sep hb]

theorem trimDecimalZeros_of_other_count (s : List Char) (h : s.count '.' ≠ 1) :
    trimDecimalZeros s = s := by
  have hl := Split_length s '.'
  unfold trimDecimalZeros
  split
  · rename_i p0 p1 heq
    rw [heq] at hl
    simp at hl
    omega
  · rfl

theorem TrimRight_of_last (l : List Char) (h : l.getLast? ≠ some '0') :
    TrimRight l ['0'] = l := by
  unfold TrimRight
  rw [List.rdropWhile_eq_self_iff]
  intro hne
  rw [List.getLast?_eq_getLast _ hne] at h
  simpa using h

theorem TrimRight_append_zeros (b : List Char) (j : Nat) (h : b.getLast? ≠ some '0') :
    TrimRight (b ++ List.replicate j '0') ['0'] = b := by
  induction j with
  | zero => simpa using TrimRight_of_last b h
  | succ j ih =>
    have e : b ++ List.replicate (j + 1) '0' = (b ++ List.replicate j '0') ++ ['0'] := by
      rw [List.replicate_succ', List.append_assoc]
    rw [e]
    unfold TrimRight at ih ⊢
    rw [List.rdropWhile_concat]
    simpa using ih

theorem trimDecimalZeros_one_point (a b : List Char) (j : Nat) (ha : '.' ∉ a) (hb : '.' ∉ b)
    (hl : b.getLast? ≠ some '0') :
    trimDecimalZeros (a ++ '.' :: (b ++ List.replicate j '0')) =
      if b = [] then a ++ ".0".toList else a ++ '.' :: b := by
  have hb' : '.' ∉ b ++ List.replicate j '0' := by
    intro hm
    rcases List.mem_append.mp hm with h | h
    · exact hb h
    · have := List.eq_of_mem_replicate h
      exact absurd this (by decide)
  unfold trimDecimalZeros
  rw [Split_one_sep a _ '.' ha hb']
  simp only [TrimRight_append_zeros b j hl]
  split_ifs
  · rfl
  · simp

theorem trimDecimalZeros_idem (s : List Char) :
    trimDecimalZeros (trimDecimalZeros s) = trimDecimalZeros s := by
  by_cases h : s.count '.' = 1
  · obtain ⟨a, b, hab, ha, hb⟩ := exists_split_of_count_one s '.' h
    obtain ⟨j, hj⟩ := TrimRight_decomp b
    have hlast : (TrimRight b ['0']).getLast? ≠ some '0' := by
      intro hc
      have hne : TrimRight b ['0'] ≠ [] := by
        intro e; rw [e] at hc; simp at hc
      have := TrimRight_last b ['0'] hne
      rw [List.getLast?_eq_getLast _ hne] at hc
      injection hc with hc
      rw [hc] at this
      simp at this
    have hb2 : '.' ∉ TrimRight b ['0'] := fun hm => hb (TrimRight_subset b ['0'] _ hm)
    have e1 : trimDecimalZeros s =
        if TrimRight b ['0'] = [] then a ++ ".0".toList else a ++ '.' :: TrimRight b ['0'] := by
      rw [hab]
      nth_rewrite 1 [hj]
      exact trimDecimalZeros_one_point a _ j ha hb2 hlast
    rw [e1]
    split_ifs with h0
    · have := trimDecimalZeros_one_point a [] 1 ha (by simp) (by simp)
      simpa using this
    · have := trimDecimalZeros_one_point a (TrimRight b ['0']) 0 ha hb2 hlast
      simpa [h0] using this
  · have e := trimDecimalZeros_of_other_count s h
    rw [e, e]

/-- C18: a string `s` with exactly one `'.'` is `a ++ "." ++ b ++ zeros`, where `a` has no
point, `b` does not end in `'0'` and `zeros` are the trailing zeros of the fractional part;
`trimDecimalZeros(s)` is `a ++ ".0"` when `b` is empty (the fractional part is empty or all
zeros) and `a ++ "." ++ b` otherwise. A string without exactly one `'.'` is returned
unchanged, `trimDecimalZeros` is idempotent, and `"3.00"` becomes `"3.0"`, which is not
`"3"`. -/
theorem trimDecimalZeros_spec :
    (∀ s : List Char, s.count '.' = 1 →
      ∃ a b j, s = a ++ '.' :: (b ++ List.replicate j '0') ∧ '.' ∉ a ∧ '.' ∉ b ∧
        b.getLast? ≠ some '0' ∧
        trimDecimalZeros s = if b = [] then a ++ ".0".toList else a ++ '.' :: b) ∧
    (∀ s : List Char, s.count '.' ≠ 1 → trimDecimalZeros s = s) ∧
    (∀ s : List Char, trimDecimalZeros (trimDecimalZeros s) = trimDecimalZeros s) ∧
    trimDecimalZeros "3.00".toList = "3.0".toList ∧ "3.0".toList ≠ "3".toList := by
  refine ⟨?_, trimDecimalZeros_of_other_count, trimDecimalZeros_idem, by decide, by decide⟩
  intro s h
  obtain ⟨a, b, hab, ha, hb⟩ := exists_split_of_count_one s '.' h
  obtain ⟨j, hj⟩ := TrimRight_decomp b
  have hlast : (TrimRight b ['0']).getLast? ≠ some '0' := by
    intro hc
    have hne : TrimRight b ['0'] ≠ [] := by
      intro e; rw [e] at hc; simp at hc
    have := TrimRight_last b ['0'] hne
    rw [List.getLast?_eq_getLast _ hne] at hc
    injection hc with hc
    rw [hc] at this
    simp at this
  have hb2 : '.' ∉ TrimRight b ['0'] := fun hm => hb (TrimRight_subset b ['0'] _ hm)
  refine ⟨a, TrimRight b ['0'], j, ?_, ha, hb2, hlast, ?_⟩
  · rw [hab]; nth_rewrite 1 [hj]; rfl
  · rw [hab]
    nth_rewrite 1 [hj]
    exact trimDecimalZeros_one_point a _ j ha hb2 hlast

/-! ### Prices between 1 and 10000 -/

theorem TrimRight_digits_last (l : List Char) :
    (TrimRight l ['0']).getLast? ≠ some '0' := by
  intro hc
  have hne : TrimRight l ['0'] ≠ [] := by
    intro e; rw [e] at hc; simp at hc
  have := TrimRight_last l ['0'] hne
  rw [List.getLast?_eq_getLast _ hne] at hc
  injection hc with hc
  rw [hc] at this
  simp at this

theorem trimDecimalZeros_specDecimal (s : Bool) (k d : Nat) :
    trimDecimalZeros (specDecimal s k d) = specDecimal s k d := by
  unfold specDecimal
  have hdig : ∀ c ∈ TrimRight (fixedDigits d k) ['0'], isDigit c = true := fun c hc =>
    fixedDigits_isDigit d k c (TrimRight_subset _ _ c hc)
  have hA : '.' ∉ signChars s ++ natDigits (k / 10 ^ d) :=
    not_point_mem_sign_digits s _ (natDigits_isDigit _)
  by_cases hf : TrimRight (fixedDigits d k) ['0'] = []
  · simp only [hf, if_true, List.append_nil]
    unfold trimDecimalZeros
    rw [Split_of_not_mem _ _ hA]
  · simp only [hf, if_false]
    have := trimDecimalZeros_one_point (signChars s ++ natDigits (k / 10 ^ d))
      (TrimRight (fixedDigits d k) ['0']) 0 hA (not_point_mem_digits _ hdig)
      (TrimRight_digits_last _)
    simpa [hf] using this

theorem isDigit_point : isDigit '.' = false := by decide

theorem countP_specDecimal (k d : Nat) :
    (specDecimal false k d).countP isDigit =
      numDigits (k / 10 ^ d) + (TrimRight (fixedDigits d k) ['0']).length := by
  unfold specDecimal
  have hdig : ∀ c ∈ TrimRight (fixedDigits d k) ['0'], isDigit c = true := fun c hc =>
    fixedDigits_isDigit d k c (TrimRight_subset _ _ c hc)
  have h1 : (natDigits (k / 10 ^ d)).countP isDigit = numDigits (k / 10 ^ d) := by
    rw [List.countP_eq_length.mpr (natDigits_isDigit _), natDigits_length]
  have h2 : (TrimRight (fixedDigits d k) ['0']).countP isDigit =
      (TrimRight (fixedDigits d k) ['0']).length := List.countP_eq_length.mpr hdig
  simp only [signChars, Bool.false_eq_true, if_false, List.nil_append, List.countP_append, h1]
  split_ifs with hf
  · simp [hf]
  · rw [List.countP_cons_of_neg _ _ (by simp [isDigit_point]), h2]

theorem TrimRight_length_le (l : List Char) (cut : List Char) :
    (TrimRight l cut).length ≤ l.length := by
  unfold TrimRight
  exact (List.rdropWhile_prefix _ l).length_le

theorem numDigits_le_of_lt (I n : Nat) (hn : 1 ≤ n) (h : I < 10 ^ n) : numDigits I ≤ n := by
  obtain ⟨a, b⟩ := numDigits_spec I
  rcases Nat.eq_zero_or_pos I with h0 | h0
  · subst h0
    have : numDigits 0 = 1 := by decide
    omega
  · have := b (by omega)
    have c : 10 ^ (numDigits I - 1) < 10 ^ n := by omega
    rw [Nat.pow_lt_pow_iff_right (by norm_num)] at c
    omega

/-- The number of digit characters of the rendering of `k / 10^p`, without and with a carry
into the digit `n + 1` of the integer part. -/
theorem countP_specDecimal_le (k n p : Nat) (hn : 1 ≤ n) :
    (k < 10 ^ (n + p) → (specDecimal false k p).countP isDigit ≤ n + p) ∧
    (k = 10 ^ (n + p) → (specDecimal false k p).countP isDigit = n + 1) := by
  rw [countP_specDecimal]
  have hpp : 0 < 10 ^ p := by positivity
  constructor
  · intro hk'
    have h1 : k / 10 ^ p < 10 ^ n := by
      apply Nat.div_lt_of_lt_mul
      rw [← pow_add, Nat.add_comm]
      exact hk'
    have h2 := numDigits_le_of_lt _ n hn h1
    have h3 := TrimRight_length_le (fixedDigits p k) ['0']
    rw [fixedDigits_length] at h3
    omega
  · intro hk'
    have e : k = 10 ^ n * 10 ^ p := by rw [hk', pow_add]
    rw [e, TrimRight_all_zero _ (fixedDigits_mul_pow p (10 ^ n)), Nat.mul_div_cancel _ hpp,
      numDigits_unique (10 ^ n) (n + 1) (Nat.pow_lt_pow_right (by norm_num) (by omega))
        (by simp) (by omega)]
    simp

theorem one_eq_fin : F64.ofNat 1 = F64.fin false 4503599627370496 (-52) := by decide!

theorem lt_one_iff (m : Nat) (e : Int) :
    F64.lt (F64.fin false m e) (F64.ofNat 1) = decide ((m : ℚ) * (2 : ℚ) ^ e < 1) := by
  rw [one_eq_fin]
  have e1 : scaleNum (-52) = 1 := scaleNum_of_nonpos _ (by norm_num)
  have e2 : scaleDen (-52) = 4503599627370496 := by
    unfold scaleDen
    have : (-(-52 : ℤ)).toNat = 52 := by rfl
    rw [this]
    norm_num
  have hd : (0 : ℚ) < scaleDen e := by exact_mod_cast scaleDen_pos e
  have hv := F64.ratio_value m e
  simp only [F64.lt, e1, e2]
  congr 1
  rw [eq_iff_iff, ← hv, div_lt_one hd]
  constructor
  · intro h
    have : m * scaleNum e < scaleDen e := by
      by_contra hc
      push_neg at hc
      have := Nat.mul_le_mul_left 4503599627370496 hc
      omega
    exact_mod_cast this
  · intro h
    have : m * scaleNum e < scaleDen e := by exact_mod_cast h
    have := Nat.mul_lt_mul_of_pos_left this (by norm_num : 0 < 4503599627370496)
    omega

theorem toInt_of_small (m : Nat) (e : Int) (T : Nat)
    (hT : m * scaleNum e / scaleDen e = T) (hlt : T < 2 ^ 63) :
    F64.toInt (F64.fin false m e) = (T : ℤ) := by
  simp only [F64.toInt, hT, Bool.false_eq_true, if_false]
  rw [if_pos]
  constructor
  · have : (0 : ℤ) ≤ (T : ℤ) := Int.natCast_nonneg _
    omega
  · exact_mod_cast hlt

theorem Itoa_natCast (T : Nat) : Itoa (T : ℤ) = natDigits T := by
  unfold Itoa
  rw [if_neg (by omega), Int.toNat_ofNat]

/-- C16 (amended): for a finite price `x` whose integer part has `n` digits (`10^(n-1) ≤ x < 10^n`,
`1 ≤ n ≤ 4`, so `1 ≤ x < 10000`) and `0 ≤ szDecimals < maxDecimals`, let
`p = min (5 - n) (maxDecimals - szDecimals)`. `RoundOrderPrice` returns the decimal rendering of
`k / 10^p` with trailing fractional zeros removed, where `k` is the float64 product
`x * 10^p` rounded to the nearest integer (ties away from zero, as `RoundOrderSize(x, p)`
rounds); `k` is within `3/4` of the exact `x * 10^p`. The result has at most 5 digit
characters and at most `p` fractional digits; when the rounding carries into a new integer
digit (`k = 10^(n+p)`) it has `n + 1` digits. -/
theorem RoundOrderPrice_mid_range (x : F64) (szDecimals maxDecimals : Int) (n p : Nat)
    (hx : x.isFinite = true) (hn1 : 1 ≤ n) (hn4 : n ≤ 4)
    (hlo : (10 : ℚ) ^ (n - 1) ≤ x.toRat) (hhi : x.toRat < (10 : ℚ) ^ n)
    (hs0 : 0 ≤ szDecimals) (hs1 : szDecimals < maxDecimals) (hmax : maxDecimals < 2 ^ 63)
    (hp : (p : ℤ) = min (5 - (n : ℤ)) (maxDecimals - szDecimals)) :
    ∃ k : Nat, k = F64.roundAwayNat (F64.mul x (Pow10 (p : ℤ))) ∧
      |(k : ℚ) - x.toRat * 10 ^ p| ≤ 3 / 4 ∧
      RoundOrderSize x (p : ℤ) = some (specDecimal false k p) ∧
      RoundOrderPrice x szDecimals maxDecimals = some (specDecimal false k p) ∧
      (specDecimal false k p).countP isDigit ≤ 5 ∧
      (fracDigits (specDecimal false k p)).length ≤ p ∧
      (k = 10 ^ (n + p) → (specDecimal false k p).countP isDigit = n + 1) := by
  obtain ⟨s, m, e, rfl⟩ : ∃ s m e, x = F64.fin s m e := by
    cases x with
    | fin s m e => exact ⟨s, m, e, rfl⟩
    | inf s => simp [F64.isFinite] at hx
    | nan => simp [F64.isFinite] at hx
  have hvnn : (0 : ℚ) ≤ (m : ℚ) * (2 : ℚ) ^ e := by positivity
  have h10pos : (0 : ℚ) < (10 : ℚ) ^ (n - 1) := by positivity
  have hs : s = false := by
    cases s with
    | false => rfl
    | true =>
      simp only [F64.toRat, if_true] at hlo
      linarith
  subst hs
  simp only [F64.toRat, Bool.false_eq_true, if_false] at hlo hhi ⊢
  -- the integer part
  have hd' : 0 < scaleDen e := scaleDen_pos e
  have hdq : (0 : ℚ) < scaleDen e := by exact_mod_cast hd'
  have hv := F64.ratio_value m e
  have hloN : 10 ^ (n - 1) * scaleDen e ≤ m * scaleNum e := by
    have : ((10 ^ (n - 1) : ℕ) : ℚ) ≤ ((m * scaleNum e : ℕ) : ℚ) / (scaleDen e : ℚ) := by
      rw [hv]; push_cast; exact hlo
    rw [le_div_iff₀ hdq] at this
    exact_mod_cast this
  have hhiN : m * scaleNum e < 10 ^ n * scaleDen e := by
    have : ((m * scaleNum e : ℕ) : ℚ) / (scaleDen e : ℚ) < ((10 ^ n : ℕ) : ℚ) := by
      rw [hv]; push_cast; exact hhi
    rw [div_lt_iff₀ hdq] at this
    exact_mod_cast this
  have hT1 : 10 ^ (n - 1) ≤ m * scaleNum e / scaleDen e :=
    (Nat.le_div_iff_mul_le hd').mpr hloN
  have hT2 : m * scaleNum e / scaleDen e < 10 ^ n :=
    (Nat.div_lt_iff_lt_mul hd').mpr hhiN
  have h10n : 10 ^ n ≤ 10 ^ 4 := Nat.pow_le_pow_right (by norm_num) hn4
  have hInt := toInt_of_small m e _ rfl (by omega : m * scaleNum e / scaleDen e < 2 ^ 63)
  have hlen : numDigits (m * scaleNum e / scaleDen e) = n :=
    numDigits_unique _ n hT2 hT1 (by omega)
  have hge1 : (1 : ℚ) ≤ (m : ℚ) * (2 : ℚ) ^ e :=
    le_trans (one_le_pow₀ (by norm_num)) hlo
  have hlt : F64.lt (F64.fin false m e) (F64.ofNat 1) = false := by
    rw [lt_one_iff, decide_eq_false_iff_not]
    linarith
  have hwrap : wrapInt (maxDecimals - szDecimals) = maxDecimals - szDecimals :=
    wrapInt_of_range _ (by omega) (by omega)
  have hp1 : 1 ≤ p := by
    have : (1 : ℤ) ≤ min (5 - (n : ℤ)) (maxDecimals - szDecimals) := le_min (by omega) (by omega)
    omega
  have hp4 : n + p ≤ 5 := by
    have : min (5 - (n : ℤ)) (maxDecimals - szDecimals) ≤ 5 - (n : ℤ) := min_le_left _ _
    omega
  -- the rounding of the size
  have h10p : (10 : ℚ) ^ p ≤ 10 ^ 4 := pow_le_pow_right₀ (by norm_num) (by omega)
  have hvlt : (m : ℚ) * (2 : ℚ) ^ e < 10 ^ 4 :=
    lt_of_lt_of_le hhi (pow_le_pow_right₀ (by norm_num) hn4)
  have hb : (m : ℚ) * (2 : ℚ) ^ e * 10 ^ p ≤ 2 ^ 51 := by
    calc (m : ℚ) * (2 : ℚ) ^ e * 10 ^ p ≤ 10 ^ 4 * 10 ^ 4 :=
          mul_le_mul hvlt.le h10p (by positivity) (by positivity)
      _ ≤ 2 ^ 51 := by norm_num
  have hC1 := roundOrderSize_decimal (F64.fin false m e) (p : ℤ) rfl (by omega) (by omega)
    (by simpa [F64.absRat] using hb)
  simp only [F64.signBit, Int.toNat_ofNat] at hC1
  obtain ⟨mz, ez, hz1, hz2, hz3⟩ := mul_pow10_small false m e p (by omega) hb
  have hkz : |((F64.roundAwayNat (F64.fin false mz ez) : ℕ) : ℚ) - (mz : ℚ) * (2 : ℚ) ^ ez| ≤
      1 / 2 := by
    have := roundHalfUp_err (mz * scaleNum ez) (scaleDen ez) (scaleDen_pos ez)
    rw [F64.ratio_value] at this
    exact this
  have hzlt : (mz : ℚ) * (2 : ℚ) ^ ez < ((10 ^ (n + p) : ℕ) : ℚ) + 1 / 2 := by
    have h1 : (m : ℚ) * (2 : ℚ) ^ e * 10 ^ p < 10 ^ n * 10 ^ p :=
      mul_lt_mul_of_pos_right hhi (by positivity)
    have h2 := (abs_le.mp hz3).2
    push_cast
    rw [pow_add]
    linarith
  have hkle := F64.roundAwayNat_le false mz ez (10 ^ (n + p)) hzlt
  refine ⟨F64.roundAwayNat (F64.mul (F64.fin false m e) (Pow10 (p : ℤ))), rfl, ?_, hC1.1, ?_,
    ?_, hC1.2, ?_⟩
  · rw [hz1]
    have h2 := abs_le.mp hz3
    have h3 := abs_le.mp hkz
    rw [abs_le]
    constructor <;> linarith [h2.1, h2.2, h3.1, h3.2]
  · unfold RoundOrderPrice
    simp only [hInt, Itoa_natCast, natDigits_length, hlen, hlt, hwrap]
    rw [if_neg (by omega)]
    simp only [Bool.false_eq_true, if_false]
    rw [← hp, hC1.1]
    simp only [Option.map_some', trimDecimalZeros_specDecimal]
  · rw [hz1]
    rcases Nat.lt_or_ge (F64.roundAwayNat (F64.fin false mz ez)) (10 ^ (n + p)) with h | h
    · have := (countP_specDecimal_le _ n p hn1).1 h
      omega
    · have := (countP_specDecimal_le _ n p hn1).2 (le_antisymm hkle h)
      omega
  · intro hk
    exact (countP_specDecimal_le _ n p hn1).2 hk

/-! ### Prices below 1 -/

theorem scanSignFigures_started (text : List Char) : ∀ (rest : List Char) (i a : Nat),
    1 ≤ a → scanSignFigures text rest i true (a : ℤ) =
      if a ≤ rest.length then trimDecimalZeros (text.take (i + a)) else trimDecimalZeros text := by
  intro rest
  induction rest with
  | nil =>
    intro i a ha
    simp only [scanSignFigures, List.length_nil]
    rw [if_neg (by omega)]
  | cons c r ih =>
    intro i a ha
    simp only [scanSignFigures, List.length_cons]
    rw [if_neg (by simp)]
    by_cases h1 : a = 1
    · subst h1
      simp
    · rw [if_neg (by omega)]
      have e : ((a : ℤ) - 1) = ((a - 1 : ℕ) : ℤ) := by omega
      rw [e, ih (i + 1) (a - 1) (by omega)]
      have e2 : i + 1 + (a - 1) = i + a := by omega
      rw [e2]
      by_cases h2 : a - 1 ≤ r.length
      · rw [if_pos h2, if_pos (by omega)]
      · rw [if_neg h2, if_neg (by omega)]

theorem dropWhile_zero_length_le (l : List Char) :
    (l.dropWhile (fun c => c == '0')).length ≤ l.length :=
  (List.dropWhile_suffix _).length_le

theorem scanSignFigures_leading (text : List Char) : ∀ (rest : List Char) (i a : Nat),
    1 ≤ a → scanSignFigures text rest i false (a : ℤ) =
      if a ≤ (rest.dropWhile (fun c => c == '0')).length then
        trimDecimalZeros
          (text.take (i + (rest.length - (rest.dropWhile (fun c => c == '0')).length) + a))
      else trimDecimalZeros text := by
  intro rest
  induction rest with
  | nil =>
    intro i a ha
    simp only [scanSignFigures, List.dropWhile_nil, List.length_nil]
    rw [if_neg (by omega)]
  | cons c r ih =>
    intro i a ha
    by_cases hc : c = '0'
    · subst hc
      have hd : ('0' :: r).dropWhile (fun c => c == '0') = r.dropWhile (fun c => c == '0') := by
        simp [List.dropWhile_cons]
      have hle := dropWhile_zero_length_le r
      simp only [scanSignFigures, hd, List.length_cons]
      rw [if_pos (by simp), ih (i + 1) a ha]
      have e : i + 1 + (r.length - (r.dropWhile (fun c => c == '0')).length) =
          i + (r.length + 1 - (r.dropWhile (fun c => c == '0')).length) := by omega
      rw [e]
    · have hd : (c :: r).dropWhile (fun c => c == '0') = c :: r := by
        simp [List.dropWhile_cons, hc]
      simp only [scanSignFigures, hd, List.length_cons]
      rw [if_neg (by simp [hc])]
      by_cases h1 : a = 1
      · subst h1
        simp
      · rw [if_neg (by omega)]
        have e : ((a : ℤ) - 1) = ((a - 1 : ℕ) : ℤ) := by omega
        rw [e, scanSignFigures_started text r (i + 1) (a - 1) (by omega)]
        have e2 : i + 1 + (a - 1) = i + (r.length + 1 - (r.length + 1)) + a := by omega
        rw [e2]
        by_cases h2 : a - 1 ≤ r.length
        · rw [if_pos h2, if_pos (by omega)]
        · rw [if_neg h2, if_neg (by omega)]

theorem fracDigits_of_not_mem (t : List Char) (h : '.' ∉ t) : fracDigits t = [] := by
  unfold fracDigits
  have : t.dropWhile (fun c => c != '.') = [] := by
    rw [List.dropWhile_eq_nil_iff]
    intro c hc
    have : c ≠ '.' := fun e => h (e ▸ hc)
    simpa using this
  rw [this]; rfl

theorem fracDigits_one_digit (c : Char) (M : List Char) (hc : c ≠ '.') :
    fracDigits (c :: '.' :: M) = M := by
  unfold fracDigits
  simp [List.dropWhile_cons, hc]

/-- The loop of `RoundOrderPrice` against the cut written from the specification, on a string
without a point and of at most four characters. -/
theorem scan_of_plain (t : List Char) (hp : '.' ∉ t) (hl : t.length ≤ 4) :
    scanSignFigures t (t.drop 2) 2 false 4 = trimDecimalZeros (cutAfterSignificant 4 t) ∧
    cutAfterSignificant 4 t = t ∧ trimDecimalZeros t = t := by
  have hcut : cutAfterSignificant 4 t = t := by
    unfold cutAfterSignificant significantDigits
    rw [fracDigits_of_not_mem t hp]
    simp
  have htrim : trimDecimalZeros t = t := by
    unfold trimDecimalZeros
    rw [Split_of_not_mem _ _ hp]
  refine ⟨?_, hcut, htrim⟩
  rw [hcut]
  have := scanSignFigures_leading t (t.drop 2) 2 4 (by norm_num)
  have hle := dropWhile_zero_length_le (t.drop 2)
  have hl2 : (t.drop 2).length ≤ 2 := by rw [List.length_drop]; omega
  rw [if_neg (by omega)] at this
  exact_mod_cast this

/-- The loop of `RoundOrderPrice` against the cut written from the specification, on a string
with one integer digit, a point and a trimmed fraction. -/
theorem scan_of_fraction (c : Char) (M : List Char) (hc : c ≠ '.') (hM : '.' ∉ M)
    (hl : M.getLast? ≠ some '0') :
    scanSignFigures (c :: '.' :: M) ((c :: '.' :: M).drop 2) 2 false 4 =
      trimDecimalZeros (cutAfterSignificant 4 (c :: '.' :: M)) ∧
    ((significantDigits (c :: '.' :: M)).length < 4 →
      cutAfterSignificant 4 (c :: '.' :: M) = c :: '.' :: M) ∧
    (M ≠ [] → trimDecimalZeros (c :: '.' :: M) = c :: '.' :: M) := by
  have hsig : significantDigits (c :: '.' :: M) = M.dropWhile (fun c => c == '0') := by
    unfold significantDigits
    rw [fracDigits_one_digit c M hc]
  have hle := dropWhile_zero_length_le M
  refine ⟨?_, ?_, ?_⟩
  · have := scanSignFigures_leading (c :: '.' :: M) M 2 4 (by norm_num)
    have e : (c :: '.' :: M).drop 2 = M := rfl
    rw [e]
    unfold cutAfterSignificant
    rw [hsig]
    have e2 : (c :: '.' :: M).length - (M.dropWhile (fun c => c == '0')).length + 4 =
        2 + (M.length - (M.dropWhile (fun c => c == '0')).length) + 4 := by
      simp only [List.length_cons]; omega
    rw [e2]
    by_cases h4 : 4 ≤ (M.dropWhile (fun c => c == '0')).length
    · rw [if_pos h4] at this ⊢
      exact_mod_cast this
    · rw [if_neg h4] at this ⊢
      exact_mod_cast this
  · intro h
    unfold cutAfterSignificant
    rw [if_neg (by omega)]
  · intro hne
    have := trimDecimalZeros_one_point [c] M 0 (by simpa using hc.symm) hM hl
    simpa [hne] using this

theorem Pow10_ge_one_table :
    ∀ n : Nat, n < 309 → F64.isAtLeastOne (Pow10 (n : Int)) = true := by
  decide!

theorem Pow10_ge_one (n : Nat) (h : n ≤ 308) (mP : Nat) (eP : Int)
    (hP : Pow10 (n : Int) = F64.fin false mP eP) : (1 : ℚ) ≤ (mP : ℚ) * (2 : ℚ) ^ eP := by
  have := Pow10_ge_one_table n (by omega)
  rw [hP] at this
  simp only [F64.isAtLeastOne, decide_eq_true_eq] at this
  have hd : (0 : ℚ) < scaleDen eP := by exact_mod_cast scaleDen_pos eP
  rw [← F64.ratio_value, le_div_iff₀ hd, one_mul]
  exact_mod_cast this

namespace F64

/-- A crude upper bound on the rounding to the nearest float. -/
theorem ofRatio_upper (s : Bool) (n d m : Nat) (e : Int) (hd : 0 < d)
    (h : ofRatio s n d = fin s m e) :
    (m : ℚ) * (2 : ℚ) ^ e ≤ (n : ℚ) / d * (1001 / 1000) + 1 / 1000 := by
  rcases Nat.eq_zero_or_pos n with hn | hn
  · subst hn
    rw [ofRatio_zero] at h
    injection h with _ hm _
    rw [← hm]
    simp
  · obtain ⟨s1, s2⟩ := ratLog2_spec n d hn hd
    rcases ofRatio_cases s n d hn hd with ⟨h1, _⟩ | ⟨m', e', h1, _, h3⟩
    · rw [h1] at h; exact absurd h (by simp)
    · rw [h1] at h
      injection h with _ hm he
      subst hm he
      have hq : (0 : ℚ) ≤ (n : ℚ) / d := by positivity
      have hb : (2 : ℚ) ^ (max (ratLog2 n d - 52) (-1074) - 1) ≤
          (n : ℚ) / d * (1 / 1000) + 1 / 1000 := by
        rcases max_cases (ratLog2 n d - 52) (-1074) with ⟨hm, _⟩ | ⟨hm, _⟩
        · rw [hm]
          have : ratLog2 n d - 52 - 1 = ratLog2 n d + (-53) := by ring
          rw [this, zpow_add₀ (by norm_num : (2 : ℚ) ≠ 0)]
          have h53 : (2 : ℚ) ^ (-53 : ℤ) ≤ 1 / 1000 := by norm_num
          have h1 : (2 : ℚ) ^ ratLog2 n d * (2 : ℚ) ^ (-53 : ℤ) ≤ (n : ℚ) / d * (1 / 1000) :=
            mul_le_mul s1 h53 (two_zpow_pos _).le hq
          linarith
        · rw [hm]
          have h1 : (2 : ℚ) ^ (-1074 - 1 : ℤ) ≤ (2 : ℚ) ^ (-10 : ℤ) :=
            zpow_le_zpow_right₀ (by norm_num) (by norm_num)
          have h2 : (2 : ℚ) ^ (-10 : ℤ) ≤ 1 / 1000 := by norm_num
          have h3 : (0 : ℚ) ≤ (n : ℚ) / d * (1 / 1000) := by positivity
          linarith
      have := (abs_le.mp h3).2
      linarith

end F64

theorem div_ratio (mr : Nat) (er : Int) (mP : Nat) (eP : Int) :
    ((mr * scaleNum er * scaleDen eP : ℕ) : ℚ) / ((mP * scaleNum eP * scaleDen er : ℕ) : ℚ) =
      (mr : ℚ) * (2 : ℚ) ^ er / ((mP : ℚ) * (2 : ℚ) ^ eP) := by
  have h1 : (0 : ℚ) < scaleDen er := by exact_mod_cast scaleDen_pos er
  have h2 : (0 : ℚ) < scaleDen eP := by exact_mod_cast scaleDen_pos eP
  rw [← scale_ratio er, ← scale_ratio eP]
  push_cast
  field_simp
  ring

/-- The outcomes of `RoundOrderSize` on a positive value below `1` for `1 ≤ szDecimals ≤ 308`:
a decimal rendering whose integer part has one digit, or an infinity. -/
theorem RoundOrderSize_below_one_cases (m : Nat) (e : Int) (n : Nat)
    (h1 : 1 ≤ n) (h2 : n ≤ 308) (hv : (m : ℚ) * (2 : ℚ) ^ e < 1) :
    (∃ k, k < 10 ^ (n + 1) ∧
      RoundOrderSize (F64.fin false m e) (n : Int) = some (specDecimal false k n)) ∨
    RoundOrderSize (F64.fin false m e) (n : Int) = some "+Inf".toList := by
  obtain ⟨mP, eP, hP, hPc, hP0⟩ := Pow10_finite n h2
  have hPv := Pow10_ge_one n h2 mP eP hP
  have hnz : ((n : ℤ) = 0) = False := by
    apply propext; constructor
    · intro h; omega
    · intro h; exact h.elim
  have hinf : (match NewFloatText (F64.inf false) (n : ℤ) with
        | none => none
        | some str => dropFinalPoint (TrimRight str ['0'])) = some "+Inf".toList := by
    simp only [NewFloatText]; decide
  have hfin : ∀ (m' : ℕ) (e' : ℤ), (m' : ℚ) * (2 : ℚ) ^ e' ≤ 9 → ∃ k, k < 10 ^ (n + 1) ∧
      (match NewFloatText (F64.fin false m' e') (n : ℤ) with
        | none => none
        | some str => dropFinalPoint (TrimRight str ['0'])) = some (specDecimal false k n) := by
    intro m' e' hX
    refine ⟨roundHalfEven (m' * scaleNum e' * 10 ^ n) (scaleDen e'), ?_, ?_⟩
    · have herr := roundHalfEven_err (m' * scaleNum e' * 10 ^ n) (scaleDen e') (scaleDen_pos e')
      have hval : ((m' * scaleNum e' * 10 ^ n : ℕ) : ℚ) / (scaleDen e' : ℚ) =
          (m' : ℚ) * (2 : ℚ) ^ e' * 10 ^ n := by
        rw [← F64.ratio_value]; push_cast; ring
      rw [hval] at herr
      have h10 : (1 : ℚ) ≤ 10 ^ n := one_le_pow₀ (by norm_num)
      have hup := (abs_le.mp herr).2
      have hX' : (m' : ℚ) * (2 : ℚ) ^ e' * 10 ^ n ≤ 9 * 10 ^ n :=
        mul_le_mul_of_nonneg_right hX (by positivity)
      have : ((roundHalfEven (m' * scaleNum e' * 10 ^ n) (scaleDen e') : ℕ) : ℚ) <
          ((10 ^ (n + 1) : ℕ) : ℚ) := by
        push_cast
        rw [pow_succ]
        linarith
      exact_mod_cast this
    · simp only [NewFloatText, Int.natCast_nonneg, if_true, Int.toNat_ofNat]
      exact strip_fixedPoint false _ n (by omega)
  have hdiv : ∀ (mr : ℕ) (er : ℤ), (mr : ℚ) * (2 : ℚ) ^ er ≤ 1506 / 1000 * ((mP : ℚ) * (2 : ℚ) ^ eP) →
      (∃ m2 e2, F64.div (F64.fin false mr er) (F64.fin false mP eP) = F64.fin false m2 e2 ∧
        (m2 : ℚ) * (2 : ℚ) ^ e2 ≤ 9) ∨
      F64.div (F64.fin false mr er) (F64.fin false mP eP) = F64.inf false := by
    intro mr er hr
    have hdpos : 0 < mP * scaleNum eP * scaleDen er :=
      Nat.mul_pos (Nat.mul_pos (Nat.pos_of_ne_zero hP0) (scaleNum_pos _)) (scaleDen_pos _)
    have hd : F64.div (F64.fin false mr er) (F64.fin false mP eP) =
        F64.ofRatio false (mr * scaleNum er * scaleDen eP) (mP * scaleNum eP * scaleDen er) := by
      simp only [F64.div, if_neg hP0, bne_self_eq_false]
    rw [hd]
    rcases F64.ofRatio_fin_or_inf false (mr * scaleNum er * scaleDen eP)
      (mP * scaleNum eP * scaleDen er) with ⟨m2, e2, h⟩ | h
    · left
      refine ⟨m2, e2, h, ?_⟩
      have hup := F64.ofRatio_upper false _ _ m2 e2 hdpos h
      rw [div_ratio] at hup
      have hPpos : (0 : ℚ) < (mP : ℚ) * (2 : ℚ) ^ eP := by linarith
      have hq : (mr : ℚ) * (2 : ℚ) ^ er / ((mP : ℚ) * (2 : ℚ) ^ eP) ≤ 1506 / 1000 := by
        rw [div_le_iff₀ hPpos]; exact hr
      linarith
    · right; exact h
  have hdivinf : F64.div (F64.inf false) (F64.fin false mP eP) = F64.inf false := by
    simp only [F64.div, bne_self_eq_false]
  unfold RoundOrderSize
  simp only [hnz, if_false, hP]
  have hmul : F64.mul (F64.fin false m e) (F64.fin false mP eP) =
      F64.ofRatio false (m * mP * scaleNum (e + eP)) (scaleDen (e + eP)) := by
    simp only [F64.mul, bne_self_eq_false]
  rw [hmul]
  have hq1 : ((m * mP * scaleNum (e + eP) : ℕ) : ℚ) / (scaleDen (e + eP) : ℚ) =
      (m : ℚ) * (2 : ℚ) ^ e * ((mP : ℚ) * (2 : ℚ) ^ eP) := by
    rw [F64.ratio_value, zpow_add₀ (by norm_num : (2 : ℚ) ≠ 0)]
    push_cast; ring
  have hPpos : (0 : ℚ) < (mP : ℚ) * (2 : ℚ) ^ eP := by linarith
  have hvnn : (0 : ℚ) ≤ (m : ℚ) * (2 : ℚ) ^ e := by positivity
  rcases F64.ofRatio_fin_or_inf false (m * mP * scaleNum (e + eP)) (scaleDen (e + eP)) with
    ⟨mz, ez, hz⟩ | hz
  · rw [hz]
    have hzup := F64.ofRatio_upper false _ _ mz ez (scaleDen_pos _) hz
    rw [hq1] at hzup
    have hzP : (mz : ℚ) * (2 : ℚ) ^ ez ≤ 1001 / 1000 * ((mP : ℚ) * (2 : ℚ) ^ eP) + 1 / 1000 := by
      have : (m : ℚ) * (2 : ℚ) ^ e * ((mP : ℚ) * (2 : ℚ) ^ eP) ≤ (mP : ℚ) * (2 : ℚ) ^ eP := by
        have := mul_le_mul_of_nonneg_right hv.le hPpos.le
        linarith
      linarith
    have hround : (∃ mr er, F64.Round (F64.fin false mz ez) = F64.fin false mr er ∧
        (mr : ℚ) * (2 : ℚ) ^ er ≤ 1506 / 1000 * ((mP : ℚ) * (2 : ℚ) ^ eP)) ∨
        F64.Round (F64.fin false mz ez) = F64.inf false := by
      simp only [F64.Round]
      split_ifs with he
      · left; exact ⟨mz, ez, rfl, by linarith⟩
      · rcases F64.ofRatio_fin_or_inf false (roundHalfUp mz (scaleDen ez)) 1 with
          ⟨mr, er, hr⟩ | hr
        · left
          refine ⟨mr, er, hr, ?_⟩
          have hup := F64.ofRatio_upper false _ _ mr er (by norm_num) hr
          have herr := roundHalfUp_err mz (scaleDen ez) (scaleDen_pos ez)
          have hval : (mz : ℚ) / (scaleDen ez : ℚ) = (mz : ℚ) * (2 : ℚ) ^ ez := by
            have := F64.ratio_value mz ez
            rw [scaleNum_of_nonpos ez (by omega), Nat.mul_one] at this
            exact this
          rw [hval] at herr
          have hk := (abs_le.mp herr).2
          simp only [Nat.cast_one, div_one] at hup
          linarith
        · right; exact hr
    rcases hround with ⟨mr, er, hr, hrv⟩ | hr
    · rw [hr]
      rcases hdiv mr er hrv with ⟨m2, e2, hd, hX⟩ | hd
      · rw [hd]; exact Or.inl (hfin m2 e2 hX)
      · rw [hd]; exact Or.inr hinf
    · rw [hr, hdivinf]; exact Or.inr hinf
  · rw [hz]
    have : F64.Round (F64.inf false) = F64.inf false := rfl
    rw [this, hdivinf]; exact Or.inr hinf

/-- A canonical float below `1` is at most `1 - 2^-53`. -/
theorem canon_below_one (m : Nat) (e : Int) (hc : F64.Canon (F64.fin false m e))
    (hv : (m : ℚ) * (2 : ℚ) ^ e < 1) :
    (m : ℚ) * (2 : ℚ) ^ e ≤ 1 - (2 : ℚ) ^ (-53 : ℤ) := by
  obtain ⟨h1, _, h3, h4⟩ := hc
  have hm : (m : ℚ) ≤ 2 ^ 53 - 1 := by
    have : m + 1 ≤ 2 ^ 53 := h3
    have : ((m + 1 : ℕ) : ℚ) ≤ ((2 ^ 53 : ℕ) : ℚ) := by exact_mod_cast this
    push_cast at this
    linarith
  by_cases he : e ≤ -53
  · have h2e : (2 : ℚ) ^ e ≤ (2 : ℚ) ^ (-53 : ℤ) := zpow_le_zpow_right₀ (by norm_num) he
    have hpos : (0 : ℚ) < (2 : ℚ) ^ e := two_zpow_pos e
    calc (m : ℚ) * (2 : ℚ) ^ e ≤ (2 ^ 53 - 1) * (2 : ℚ) ^ e :=
          mul_le_mul_of_nonneg_right hm hpos.le
      _ ≤ (2 ^ 53 - 1) * (2 : ℚ) ^ (-53 : ℤ) := mul_le_mul_of_nonneg_left h2e (by norm_num)
      _ = 1 - (2 : ℚ) ^ (-53 : ℤ) := by norm_num
  · exfalso
    have h52 : 2 ^ 52 ≤ m := by
      rcases h4 with h | h
      · omega
      · exact h
    have h2e : (2 : ℚ) ^ (-52 : ℤ) ≤ (2 : ℚ) ^ e := zpow_le_zpow_right₀ (by norm_num) (by omega)
    have hmq : ((2 ^ 52 : ℕ) : ℚ) ≤ (m : ℚ) := by exact_mod_cast h52
    have : (1 : ℚ) ≤ (m : ℚ) * (2 : ℚ) ^ e := by
      calc (1 : ℚ) = ((2 ^ 52 : ℕ) : ℚ) * (2 : ℚ) ^ (-52 : ℤ) := by norm_num
        _ ≤ (m : ℚ) * (2 : ℚ) ^ e := mul_le_mul hmq h2e (two_zpow_pos _).le (by positivity)
    linarith

/-- A decimal that rounds to a canonical float below `1` is itself below `1`. -/
theorem ratio_below_one (n d m : Nat) (e : Int) (hd : 0 < d)
    (hc : F64.Canon (F64.fin false m e)) (hv : (m : ℚ) * (2 : ℚ) ^ e < 1)
    (h : F64.ofRatio false n d = F64.fin false m e) : (n : ℚ) / d < 1 := by
  by_contra hq
  push_neg at hq
  have hdq : (0 : ℚ) < d := by exact_mod_cast hd
  have hn : 0 < n := by
    rcases Nat.eq_zero_or_pos n with h0 | h0
    · subst h0; simp at hq; linarith
    · exact h0
  obtain ⟨s1, s2⟩ := ratLog2_spec n d hn hd
  have hL : 0 ≤ ratLog2 n d := by
    have : (2 : ℚ) ^ (0 : ℤ) < (2 : ℚ) ^ (ratLog2 n d + 1) := by
      rw [zpow_zero]; exact lt_of_le_of_lt hq s2
    rw [zpow_lt_zpow_iff_right₀ (by norm_num : (1 : ℚ) < 2)] at this
    omega
  have hle := canon_below_one m e hc hv
  rcases F64.ofRatio_cases false n d hn hd with ⟨h1, _⟩ | ⟨m', e', h1, _, h3⟩
  · rw [h1] at h; exact absurd h (by simp)
  · rw [h1] at h
    injection h with _ hm he
    subst hm he
    rw [max_eq_left (by omega)] at h3
    have e1 : ratLog2 n d - 52 - 1 = ratLog2 n d + (-53) := by ring
    rw [e1, zpow_add₀ (by norm_num : (2 : ℚ) ≠ 0)] at h3
    have h53 : (0 : ℚ) < (2 : ℚ) ^ (-53 : ℤ) := two_zpow_pos _
    have h53' : (2 : ℚ) ^ (-53 : ℤ) < 1 := by norm_num
    have herr : (2 : ℚ) ^ ratLog2 n d * (2 : ℚ) ^ (-53 : ℤ) ≤ (n : ℚ) / d * (2 : ℚ) ^ (-53 : ℤ) :=
      mul_le_mul_of_nonneg_right s1 h53.le
    have hlow := (abs_le.mp h3).1
    -- the value is at least `q * (1 - 2^-53)`, hence `q ≤ 1`
    have hq1 : (n : ℚ) / d * (1 - (2 : ℚ) ^ (-53 : ℤ)) ≤ 1 - (2 : ℚ) ^ (-53 : ℤ) := by
      have e2 : (n : ℚ) / d * (1 - (2 : ℚ) ^ (-53 : ℤ)) =
          (n : ℚ) / d - (n : ℚ) / d * (2 : ℚ) ^ (-53 : ℤ) := by ring
      rw [e2]
      have a2 : (n : ℚ) / d - (n : ℚ) / d * (2 : ℚ) ^ (-53 : ℤ) ≤
          (n : ℚ) / d - (2 : ℚ) ^ ratLog2 n d * (2 : ℚ) ^ (-53 : ℤ) := sub_le_sub_left herr _
      have a1 : (n : ℚ) / d - (2 : ℚ) ^ ratLog2 n d * (2 : ℚ) ^ (-53 : ℤ) ≤
          (m' : ℚ) * (2 : ℚ) ^ e' := by
        have := neg_le_sub_iff_le_add.mp hlow
        exact sub_le_iff_le_add.mpr this
      exact le_trans a2 (le_trans a1 hle)
    have hq2 : (n : ℚ) / d ≤ 1 := by
      have hpos : (0 : ℚ) < 1 - (2 : ℚ) ^ (-53 : ℤ) := by linarith
      by_contra hgt
      push_neg at hgt
      have := mul_lt_mul_of_pos_right hgt hpos
      linarith
    have hq3 : (n : ℚ) / d = 1 := le_antisymm hq2 hq
    have hone : F64.ofRatio false n d = F64.fin false 4503599627370496 (-52) := by
      apply F64.ofRatio_eq_of_value false n d _ _ hd (by decide)
      rw [hq3]; norm_num
    rw [h1] at hone
    injection hone with _ hm he
    subst hm he
    norm_num at hv

/-- The shortest decimal of a positive float below `1` is laid out as `0.` followed by a
non-empty fraction that does not end in a zero. -/
theorem FormatFloat_below_one (m : Nat) (e : Int) (hc : F64.Canon (F64.fin false m e))
    (hm : m ≠ 0) (hv : (m : ℚ) * (2 : ℚ) ^ e < 1) :
    ∃ M, FormatFloat (F64.fin false m e) = '0' :: '.' :: M ∧ '.' ∉ M ∧ M ≠ [] ∧
      M.getLast? ≠ some '0' := by
  have hwt := wellTrimmed_FormatFloat (F64.fin false m e) rfl
  have hrt := shortestDecimal_roundTrips m e hc
  unfold FormatFloat at hwt ⊢
  simp only [if_neg hm] at hwt ⊢
  generalize (shortestDecimal (roundTrips m e) m e) = cs at hrt hwt ⊢
  obtain ⟨c, s⟩ := cs
  simp only at hrt hwt ⊢
  unfold roundTrips at hrt
  rw [decide_eq_true_eq] at hrt
  have hc0 : c ≠ 0 := by
    intro h0
    subst h0
    rw [Nat.zero_mul, F64.ofRatio_zero] at hrt
    injection hrt with _ hm' _
    exact hm hm'.symm
  have hq := ratio_below_one _ _ m e (tenDen_pos s) hc hv hrt
  have hdq : (0 : ℚ) < tenDen s := by exact_mod_cast tenDen_pos s
  rw [div_lt_one hdq] at hq
  have hqN : c * tenNum s < tenDen s := by exact_mod_cast hq
  have hs : s < 0 := by
    by_contra hs
    push_neg at hs
    have : tenDen s = 1 := by
      unfold tenDen
      have : (-s).toNat = 0 := by omega
      rw [this, pow_zero]
    rw [this] at hqN
    have := tenNum_pos s
    have : 0 < c * tenNum s := Nat.mul_pos (Nat.pos_of_ne_zero hc0) this
    omega
  have hcN : c < 10 ^ (-s).toNat := by
    have : tenNum s = 1 := by
      unfold tenNum
      have : s.toNat = 0 := by omega
      rw [this, pow_zero]
    rw [this, Nat.mul_one] at hqN
    exact hqN
  have hnd : numDigits c ≤ (-s).toNat :=
    numDigits_le_of_lt c _ (by omega) hcN
  have hdne : TrimRight (natDigits c) ['0'] ≠ [] := TrimRight_natDigits_ne_nil c hc0
  have hdlen : 0 < (TrimRight (natDigits c) ['0']).length := List.length_pos.mpr hdne
  obtain ⟨hdig, _, _⟩ := toDecimalSlice_ok c s
  have hds : toDecimalSlice c s = ⟨TrimRight (natDigits c) ['0'], (numDigits c : ℤ) + s⟩ := by
    unfold toDecimalSlice; rw [if_neg hc0]
  rw [hds] at hwt hdig ⊢
  have hdp : ¬ (0 : ℤ) < (numDigits c : ℤ) + s := by omega
  have hprec : 0 < (((TrimRight (natDigits c) ['0']).length : ℤ) -
      ((numDigits c : ℤ) + s)).toNat := by omega
  have hlay : fmtShortest false ⟨TrimRight (natDigits c) ['0'], (numDigits c : ℤ) + s⟩ =
      '0' :: '.' :: fmtFrac ⟨TrimRight (natDigits c) ['0'], (numDigits c : ℤ) + s⟩
        (((TrimRight (natDigits c) ['0']).length : ℤ) - ((numDigits c : ℤ) + s)).toNat := by
    simp only [fmtShortest, fmtF, fmtInt, if_neg hdp, if_pos hprec, signChars,
      Bool.false_eq_true, if_false, List.nil_append, List.singleton_append]
  rw [hlay] at hwt ⊢
  refine ⟨_, rfl, ?_, ?_, ?_⟩
  · exact not_point_mem_digits _ (fmtFrac_isDigit _ hdig _)
  · intro h
    have := fmtFrac_length ⟨TrimRight (natDigits c) ['0'], (numDigits c : ℤ) + s⟩
      (((TrimRight (natDigits c) ['0']).length : ℤ) - ((numDigits c : ℤ) + s)).toNat
    rw [h] at this
    simp at this
    omega
  · have h3 := hwt.2.2 (by simp)
    intro hl
    apply h3
    have hMne : fmtFrac ⟨TrimRight (natDigits c) ['0'], (numDigits c : ℤ) + s⟩
        (((TrimRight (natDigits c) ['0']).length : ℤ) - ((numDigits c : ℤ) + s)).toNat ≠ [] := by
      intro h; rw [h] at hl; simp at hl
    rw [show ∀ M : List Char, '0' :: '.' :: M = ['0', '.'] ++ M from fun _ => rfl,
      List.getLast?_append_of_ne_nil _ hMne]
    exact hl

theorem Pow10_large (d : Int) (h : 308 < d) : Pow10 d = F64.inf false := by
  unfold Pow10
  rw [if_neg (by omega), if_neg (by omega), if_pos (by omega)]

/-- Beyond `308` digits `RoundOrderSize` panics on every finite value. -/
theorem RoundOrderSize_none_of_large (s : Bool) (m : Nat) (e : Int) (d : Int) (h : 308 < d) :
    RoundOrderSize (F64.fin s m e) d = none := by
  unfold RoundOrderSize
  rw [if_neg (by omega), Pow10_large d h]
  by_cases hm : m = 0
  · simp [F64.mul, hm, F64.Round, F64.div, NewFloatText]
  · simp [F64.mul, hm, F64.Round, F64.div, NewFloatText]

theorem natDigits_one_digit (I : Nat) (h : I < 10) : natDigits I = [digitChar I] := by
  have h1 : numDigits I = 1 := by
    have := numDigits_le_of_lt I 1 (by norm_num) (by simpa using h)
    have := numDigits_pos I
    omega
  unfold natDigits
  rw [h1]
  simp [fixedDigits, Nat.mod_eq_of_lt h]

/-- The strings `RoundOrderSize` returns for a canonical float `0 ≤ x < 1`: without a point
and of at most four characters, or one integer digit, a point and a fraction that does not
end in a zero. -/
theorem RoundOrderSize_below_one_shape (s : Bool) (m : Nat) (e : Int)
    (hc : F64.Canon (F64.fin s m e)) (h0 : 0 ≤ (F64.fin s m e).toRat)
    (h1 : (F64.fin s m e).toRat < 1) (d : Int) (hd : 0 ≤ d) (t : List Char)
    (ht : RoundOrderSize (F64.fin s m e) d = some t) :
    ('.' ∉ t ∧ t.length ≤ 4) ∨
    ∃ c M, t = c :: '.' :: M ∧ c ≠ '.' ∧ '.' ∉ M ∧ M ≠ [] ∧ M.getLast? ≠ some '0' := by
  rcases lt_or_ge 308 d with hbig | hbig
  · rw [RoundOrderSize_none_of_large s m e d hbig] at ht
    exact absurd ht (by simp)
  by_cases hm : m = 0
  · subst hm
    rw [RoundOrderSize_zero s e d hd hbig] at ht
    injection ht with ht
    subst ht
    left
    cases s <;> decide
  have hvpos : (0 : ℚ) < (m : ℚ) * (2 : ℚ) ^ e := by
    have : (0 : ℚ) < (m : ℚ) := by exact_mod_cast Nat.pos_of_ne_zero hm
    positivity
  have hs : s = false := by
    cases s with
    | false => rfl
    | true =>
      simp only [F64.toRat, if_true] at h0
      linarith
  subst hs
  simp only [F64.toRat, Bool.false_eq_true, if_false] at h1
  obtain ⟨n, rfl⟩ : ∃ n : ℕ, d = (n : ℤ) := ⟨d.toNat, by omega⟩
  rcases Nat.eq_zero_or_pos n with hn | hn
  · subst hn
    simp only [RoundOrderSize, Nat.cast_zero, if_true] at ht
    injection ht with ht
    obtain ⟨M, hM, h2, h3, h4⟩ := FormatFloat_below_one m e hc hm h1
    right
    exact ⟨'0', M, by rw [← ht, hM], by decide, h2, h3, h4⟩
  · rcases RoundOrderSize_below_one_cases m e n hn (by omega) h1 with ⟨k, hk, hr⟩ | hr
    · rw [hr] at ht
      injection ht with ht
      subst ht
      have hI : k / 10 ^ n < 10 := by
        apply Nat.div_lt_of_lt_mul
        rw [pow_succ] at hk
        exact hk
      unfold specDecimal
      simp only [signChars, Bool.false_eq_true, if_false, List.nil_append,
        natDigits_one_digit _ hI]
      split_ifs with hf
      · left
        simp
        exact (digitChar_ne_point _).symm
      · right
        refine ⟨digitChar (k / 10 ^ n), TrimRight (fixedDigits n k) ['0'], rfl,
          digitChar_ne_point _, ?_, hf, TrimRight_digits_last _⟩
        exact not_point_mem_digits _ (fun c hc' =>
          fixedDigits_isDigit n k c (TrimRight_subset _ _ c hc'))
    · rw [hr] at ht
      injection ht with ht
      subst ht
      left
      decide

theorem toInt_below_one (s : Bool) (m : Nat) (e : Int) (h0 : 0 ≤ (F64.fin s m e).toRat)
    (h1 : (F64.fin s m e).toRat < 1) : F64.toInt (F64.fin s m e) = 0 := by
  have hd' : 0 < scaleDen e := scaleDen_pos e
  have hdq : (0 : ℚ) < scaleDen e := by exact_mod_cast hd'
  have hT : m * scaleNum e / scaleDen e = 0 := by
    cases s with
    | false =>
      simp only [F64.toRat, Bool.false_eq_true, if_false] at h1
      apply Nat.div_eq_of_lt
      have : ((m * scaleNum e : ℕ) : ℚ) / (scaleDen e : ℚ) < 1 := by
        rw [F64.ratio_value]; exact h1
      rw [div_lt_one hdq] at this
      exact_mod_cast this
    | true =>
      simp only [F64.toRat, if_true] at h0
      have hvnn : (0 : ℚ) ≤ (m : ℚ) * (2 : ℚ) ^ e := by positivity
      have hv0 : (m : ℚ) * (2 : ℚ) ^ e = 0 := by linarith
      have hm : m = 0 := by
        rcases mul_eq_zero.mp hv0 with h | h
        · exact_mod_cast h
        · exact absurd h (two_zpow_pos e).ne'
      subst hm
      simp
  simp only [F64.toInt, hT]
  cases s <;> simp

theorem lt_one_below_one (s : Bool) (m : Nat) (e : Int) (h0 : 0 ≤ (F64.fin s m e).toRat)
    (h1 : (F64.fin s m e).toRat < 1) : F64.lt (F64.fin s m e) (F64.ofNat 1) = true := by
  cases s with
  | false =>
    simp only [F64.toRat, Bool.false_eq_true, if_false] at h1
    rw [lt_one_iff, decide_eq_true_eq]
    exact h1
  | true =>
    rw [one_eq_fin]
    simp only [F64.lt, decide_eq_true_eq]
    right
    exact Nat.mul_pos (Nat.mul_pos (by norm_num) (scaleNum_pos _)) (scaleDen_pos _)

theorem Itoa_zero_length : (Itoa 0).length = 1 := by decide

/-- C17: for a finite price `0 ≤ x < 1` and `0 ≤ szDecimals ≤ maxDecimals`, the integer part
of `x` has one digit (so `5 - 1 = 4` significant digits are allowed) and `RoundOrderPrice`
returns exactly when `t = RoundOrderSize(x, maxDecimals - szDecimals)` does, which is the
case at least for `maxDecimals - szDecimals ≤ 308`; the result is `trimDecimalZeros` of `t`
cut off immediately after its 4th significant fractional digit. The cut is a prefix of `t`,
and when `t` has fewer than 4 significant fractional digits the result is `t` itself. -/
theorem RoundOrderPrice_below_one (x : F64) (szDecimals maxDecimals : Int)
    (hx : x.isFinite = true) (hc : F64.Canon x) (h0 : 0 ≤ x.toRat) (h1 : x.toRat < 1)
    (hs0 : 0 ≤ szDecimals) (hs1 : szDecimals ≤ maxDecimals) (hmax : maxDecimals < 2 ^ 63) :
    (Itoa (F64.toInt x)).length = 1 ∧
    RoundOrderPrice x szDecimals maxDecimals =
      (RoundOrderSize x (maxDecimals - szDecimals)).map
        (fun t => trimDecimalZeros (cutAfterSignificant 4 t)) ∧
    (maxDecimals - szDecimals ≤ 308 →
      ∃ t, RoundOrderSize x (maxDecimals - szDecimals) = some t) ∧
    (∀ t, RoundOrderSize x (maxDecimals - szDecimals) = some t →
      cutAfterSignificant 4 t <+: t ∧
      ((significantDigits t).length < 4 →
        RoundOrderPrice x szDecimals maxDecimals = some t)) := by
  obtain ⟨s, m, e, rfl⟩ : ∃ s m e, x = F64.fin s m e := by
    cases x with
    | fin s m e => exact ⟨s, m, e, rfl⟩
    | inf s => simp [F64.isFinite] at hx
    | nan => simp [F64.isFinite] at hx
  have hInt := toInt_below_one s m e h0 h1
  have hlt := lt_one_below_one s m e h0 h1
  have hwrap : wrapInt (maxDecimals - szDecimals) = maxDecimals - szDecimals :=
    wrapInt_of_range _ (by omega) (by omega)
  have hprice : RoundOrderPrice (F64.fin s m e) szDecimals maxDecimals =
      (RoundOrderSize (F64.fin s m e) (maxDecimals - szDecimals)).map
        (fun t => scanSignFigures t (t.drop 2) 2 false 4) := by
    unfold RoundOrderPrice
    simp only [hInt, Itoa_zero_length, hlt, hwrap, if_true]
    rw [if_neg (by norm_num)]
    cases RoundOrderSize (F64.fin s m e) (maxDecimals - szDecimals) with
    | none => rfl
    | some t => norm_num
  have hshape := RoundOrderSize_below_one_shape s m e hc h0 h1 (maxDecimals - szDecimals)
    (by omega)
  have hscan : ∀ t, RoundOrderSize (F64.fin s m e) (maxDecimals - szDecimals) = some t →
      scanSignFigures t (t.drop 2) 2 false 4 = trimDecimalZeros (cutAfterSignificant 4 t) ∧
      ((significantDigits t).length < 4 → trimDecimalZeros (cutAfterSignificant 4 t) = t) := by
    intro t ht
    rcases hshape t ht with ⟨hp, hl⟩ | ⟨c, M, rfl, hc', hM, hne, hlast⟩
    · obtain ⟨a, b, c⟩ := scan_of_plain t hp hl
      exact ⟨a, fun _ => by rw [b, c]⟩
    · obtain ⟨a, b, c⟩ := scan_of_fraction c M hc' hM hlast
      exact ⟨a, fun h => by rw [b h, c hne]⟩
  refine ⟨by rw [hInt]; exact Itoa_zero_length, ?_, ?_, ?_⟩
  · rw [hprice]
    cases ht : RoundOrderSize (F64.fin s m e) (maxDecimals - szDecimals) with
    | none => rfl
    | some t =>
      simp only [Option.map_some']
      rw [(hscan t ht).1]
  · intro h308
    obtain ⟨t, ht, _⟩ := (roundOrderSize_trimmed (F64.fin s m e) (maxDecimals - szDecimals) rfl
      (by omega) h308).1
    exact ⟨t, ht⟩
  · intro t ht
    constructor
    · unfold cutAfterSignificant
      split_ifs
      · exact List.take_prefix _ _
      · exact List.prefix_refl _
    · intro h4
      rw [hprice, ht]
      simp only [Option.map_some']
      rw [(hscan t ht).1, (hscan t ht).2 h4]

theorem lit_0_0123456 : F64.lit 123456 7 = F64.fin false 7116753863637145 (-59) := by
  decide!

theorem lit_9999_96 : F64.lit 999996 2 = F64.fin false 5497536148647444 (-39) := by
  decide!

/-- C17 (witness): `RoundOrderSize(0.0123456, 8)` is `"0.0123456"`, and
`RoundOrderPrice(0.0123456, 0, 8)` cuts it after the fourth significant digit:
`"0.01234"`. -/
theorem RoundOrderPrice_below_one_witness :
    RoundOrderSize (F64.lit 123456 7) (8 - 0) = some "0.0123456".toList ∧
    cutAfterSignificant 4 "0.0123456".toList = "0.01234".toList ∧
    RoundOrderPrice (F64.lit 123456 7) 0 8 = some "0.01234".toList :=
  ⟨by decide!, by decide!,
    (RoundOrderPrice_below_one (F64.lit 123456 7) 0 8 (by decide!) (by decide!)
      (by rw [lit_0_0123456]; simp only [F64.toRat]; norm_num)
      (by rw [lit_0_0123456]; simp only [F64.toRat]; norm_num)
      (by decide) (by decide) (by decide)).2.1.trans (by decide!)⟩

/-- C16 (witness): `9999.96` has four integer digits, one fractional digit is allowed, the
rounding carries into a fifth integer digit, and `RoundOrderPrice(9999.96, 5, 6)` is
`"10000"`, which has five digits. -/
theorem RoundOrderPrice_mid_range_witness :
    RoundOrderPrice (F64.lit 999996 2) 5 6 = some "10000".toList ∧
    "10000".toList.countP isDigit = 5 := by
  obtain ⟨k, hk, _, _, h4, _, _⟩ := RoundOrderPrice_mid_range (F64.lit 999996 2) 5 6 4 1
    (by decide!)
    (by decide) (by decide)
    (by rw [lit_9999_96]; simp only [F64.toRat]; norm_num)
    (by rw [lit_9999_96]; simp only [F64.toRat]; norm_num)
    (by decide) (by decide) (by decide) (by decide)
  have hk' : k = 100000 := hk.trans (by decide!)
  subst hk'
  exact ⟨h4.trans (by decide!), by decide⟩

theorem lit_1_15 : F64.lit 115 2 = F64.fin false 5179139571476070 (-52) := by
  decide!

/-- C16 (counterexample): the float `1.15` lies below `1.15`, so the one-digit decimal nearest
to it is `1.1` (its exact tenfold is below `11.5` and rounds to `11`); but
`RoundOrderPrice(1.15, 5, 6)`, which allows `min (5 - 1) (6 - 5) = 1` fractional digit, returns
`"1.2"`, because the float64 product `1.15 * 10` is `11.5` and rounds to `12`. -/
theorem RoundOrderPrice_rounds_float_product :
    (RoundOrderPrice (F64.lit 115 2) 5 6 = some "1.2".toList ∧
      F64.roundAwayNat (F64.mul (F64.lit 115 2) (Pow10 1)) = 12 ∧
      F64.roundScaledNat (F64.lit 115 2) 1 = 11 ∧
      specDecimal false 11 1 = "1.1".toList) ∧
    (1 ≤ (F64.lit 115 2).toRat ∧ (F64.lit 115 2).toRat * 10 < 23 / 2 ∧
      |(11 : ℚ) / 10 - (F64.lit 115 2).toRat| < |(12 : ℚ) / 10 - (F64.lit 115 2).toRat|) := by
  refine ⟨by decide!, ?_⟩
  rw [lit_1_15]
  simp only [F64.toRat]
  norm_num [abs_lt, abs_of_pos, abs_of_neg]

end Hyperliquid
